import Mathlib

/-!
# smaz: a short-string compression codec

A shallow embedding of `smaz.go` (dictionary codec) and `trie/trie.go`
(byte-indexed prefix trie), followed by theorems about the embedded
functions.

Conventions of the embedding.

* A Go `byte` is a `Fin 256`; a Go `[]byte` or `string` value is a `List Byte`.
* A Go function that can panic or return an error returns `Except Fault _`.
  `Fault.errCorrupt` is the returned error value `ErrCorrupt`; the other
  faults are panics.
* Every slice or index expression of the source is checked against the
  length of the list, and yields `Fault.outOfRange` when the check fails.
* Go loops without a syntactic bound take a fuel argument; running out of
  fuel is the separate fault `Fault.fuel`, so that a result `Except.ok _`
  always means that the loop ended by itself.
* A node id (`NodeId`, a Go `uint32`) is a `Nat`; the conversion
  `NodeId(len(t.nodes))` is taken modulo `2^32`.
* `smaz.go` reaches the trie through `Root`, `Walk`, `Terminal` and `Val`
  on a node; these are the functions of `trie.go` on node ids, a nil node
  being `NilNode`.
* The table and trie of `smaz.go` (`codes`, `codeTrie`) are the fields of a
  `Codec`, built by `init` from the table it is given. `smaz.go` itself
  builds one codec, from the built-in table `codeStrings` (`defaultCodec`).
* The constructor `NewCodec` and the methods of a codec built from a table
  of the caller are not among the source files; `NewCodec` and
  `Codec.Decode` are modelled from the specification, and their doc
  comments say so.
* A byte slice as a value says nothing about two slices that share a
  backing array. Where that matters (a buffer that overlaps the input of
  `Encode`), `Encode` and `appendSrc` are embedded a second time, on slice
  headers (`Slice`) into a memory of backing arrays (`Mem`), as
  `Mem.Encode` and `Mem.appendSrc`; `Encode_mem_sim` relates the two
  embeddings.
-/

/-- A Go byte. -/
abbrev Byte := Fin 256

/-- The ways a call can end other than by returning a value. -/
inductive Fault where
  /-- The error value `ErrCorrupt` returned by `Decode`. -/
  | errCorrupt
  /-- The panic `too many nodes` of `Put`. -/
  | tooManyNodes
  /-- The panic `Val called on non-terminal node` of `Val`. -/
  | valNonTerminal
  /-- A Go run-time panic: index or slice bound out of range. -/
  | outOfRange
  /-- The fuel of a loop of the embedding ran out. -/
  | fuel
  deriving DecidableEq, Repr

/-- Conversion `byte(n)` of a Go `int`: the low eight bits. -/
def byteOfInt (n : Int) : Byte := Fin.ofNat (n % 256).toNat

/-- The slice expression `s[lo:]`. -/
def sliceFrom (s : List Byte) (lo : Nat) : Except Fault (List Byte) :=
  if lo ≤ s.length then .ok (s.drop lo) else .error .outOfRange

/-- The slice expression `s[:hi]`. -/
def sliceTo (s : List Byte) (hi : Nat) : Except Fault (List Byte) :=
  if hi ≤ s.length then .ok (s.take hi) else .error .outOfRange

/-- The slice expression `s[lo:hi]`. -/
def sliceFromTo (s : List Byte) (lo hi : Nat) : Except Fault (List Byte) :=
  if lo ≤ hi ∧ hi ≤ s.length then .ok ((s.take hi).drop lo) else .error .outOfRange

/-- The index expression `s[i]`. -/
def index {α : Type} (s : List α) (i : Nat) : Except Fault α :=
  match s[i]? with
  | some a => .ok a
  | none => .error .outOfRange

/-- The bytes of a Go string literal. -/
def bytesOf (s : String) : List Byte :=
  s.toUTF8.data.toList.map (fun b => (⟨b.toNat, b.toNat_lt⟩ : Byte))

namespace trie

/-- The node id that stands for no node. -/
def NilNode : Nat := 0

/-- The node id of the root. -/
def RootNode : Nat := 1

def maxNodeId : Nat := 4294967295 - 32

/-- A logical vertex of the trie. -/
structure node where
  branches : Byte → Nat
  val : Int
  terminal : Bool

/-- The zero value `node{}`. -/
def node.zero : node := ⟨fun _ => (0 : Nat), 0, false⟩

/-- A prefix tree. -/
structure Trie where
  nodes : List node

/-- A new, empty trie: `make([]node, 2, 512)`. -/
def New : Trie := ⟨[node.zero, node.zero]⟩

/-- The node reached along edge `c`, `NilNode` if there is none. -/
def Walk (t : Trie) (nodeId : Nat) (c : Byte) : Except Fault Nat :=
  match index t.nodes nodeId with
  | .error e => .error e
  | .ok nd => .ok (nd.branches c)

/-- Whether the node is terminal. -/
def Terminal (t : Trie) (nodeId : Nat) : Except Fault Bool :=
  match index t.nodes nodeId with
  | .error e => .error e
  | .ok nd => .ok nd.terminal

/-- The value of a node; panics if the node is not terminal. -/
def Val (t : Trie) (nodeId : Nat) : Except Fault Int :=
  match index t.nodes nodeId with
  | .error e => .error e
  | .ok nd => if !nd.terminal then .error .valNonTerminal else .ok nd.val

/-- One iteration of the loop of `Put`, on the key byte `c`. -/
def putStep (t : Trie) (nodeId : Nat) (c : Byte) : Except Fault (Trie × Nat) :=
  match Walk t nodeId c with
  | .error e => .error e
  | .ok nextNodeId =>
    if nextNodeId = NilNode then
      let nextNodeId : Nat := t.nodes.length % 4294967296
      if nextNodeId > maxNodeId then .error .tooManyNodes
      else
        let nodes := t.nodes ++ [node.zero]
        match index nodes nodeId with
        | .error e => .error e
        | .ok currNode =>
          .ok (⟨nodes.set nodeId
                  { currNode with branches := Function.update currNode.branches c nextNodeId }⟩,
               nextNodeId)
    else .ok (t, nextNodeId)

/-- The loop `for _, c := range k` of `Put`. -/
def putLoop (t : Trie) (nodeId : Nat) : List Byte → Except Fault (Trie × Nat)
  | [] => .ok (t, nodeId)
  | c :: k =>
    match putStep t nodeId c with
    | .error e => .error e
    | .ok (t1, nextNodeId) => putLoop t1 nextNodeId k

/-- Inserts the mapping `k -> v`; the boolean is true if `k` was not in the
trie before. -/
def Put (t : Trie) (k : List Byte) (v : Int) : Except Fault (Trie × Bool) :=
  match putLoop t RootNode k with
  | .error e => .error e
  | .ok (t1, nodeId) =>
    match index t1.nodes nodeId with
    | .error e => .error e
    | .ok nd =>
      if nd.terminal then .ok (⟨t1.nodes.set nodeId { nd with val := v }⟩, false)
      else .ok (⟨t1.nodes.set nodeId { nd with val := v, terminal := true }⟩, true)

/-- The loop `for _, c := range k` of `Get`: the node reached from `nodeId`
along `k`, `none` when an edge is missing. -/
def getLoop (t : Trie) (nodeId : Nat) : List Byte → Except Fault (Option Nat)
  | [] => .ok (some nodeId)
  | c :: k =>
    match Walk t nodeId c with
    | .error e => .error e
    | .ok next => if next = NilNode then .ok none else getLoop t next k

/-- The value of `k` in the trie, if any: `(v, true)` is `some v`, and
`(0, false)` is `none`. -/
def Get (t : Trie) (k : List Byte) : Except Fault (Option Int) :=
  match getLoop t RootNode k with
  | .error e => .error e
  | .ok none => .ok none
  | .ok (some nodeId) =>
    match index t.nodes nodeId with
    | .error e => .error e
    | .ok nd => if nd.terminal then .ok (some nd.val) else .ok none

end trie

namespace smaz

open trie

/-- The built-in table of `smaz.go`. -/
def codeStrings : List (List Byte) := [" ",
  "the", "e", "t", "a", "of", "o", "and", "i", "n", "s", "e ", "r", " th",
  " t", "in", "he", "th", "h", "he ", "to", "\r\n", "l", "s ", "d", " a", "an",
  "er", "c", " o", "d ", "on", " of", "re", "of ", "t ", ", ", "is", "u", "at",
  "   ", "n ", "or", "which", "f", "m", "as", "it", "that", "\n", "was", "en",
  "  ", " w", "es", " an", " i", "\r", "f ", "g", "p", "nd", " s", "nd ", "ed ",
  "w", "ed", "http://", "for", "te", "ing", "y ", "The", " c", "ti", "r ", "his",
  "st", " in", "ar", "nt", ",", " to", "y", "ng", " h", "with", "le", "al", "to ",
  "b", "ou", "be", "were", " b", "se", "o ", "ent", "ha", "ng ", "their", "\"",
  "hi", "from", " f", "in ", "de", "ion", "me", "v", ".", "ve", "all", "re ",
  "ri", "ro", "is ", "co", "f t", "are", "ea", ". ", "her", " m", "er ", " p",
  "es ", "by", "they", "di", "ra", "ic", "not", "s, ", "d t", "at ", "ce", "la",
  "h ", "ne", "as ", "tio", "on ", "n t", "io", "we", " a ", "om", ", a", "s o",
  "ur", "li", "ll", "ch", "had", "this", "e t", "g ", "e\r\n", " wh", "ere",
  " co", "e o", "a ", "us", " d", "ss", "\n\r\n", "\r\n\r", "=\"", " be", " e",
  "s a", "ma", "one", "t t", "or ", "but", "el", "so", "l ", "e s", "s,", "no",
  "ter", " wa", "iv", "ho", "e a", " r", "hat", "s t", "ns", "ch ", "wh", "tr",
  "ut", "/", "have", "ly ", "ta", " ha", " on", "tha", "-", " l", "ati", "en ",
  "pe", " re", "there", "ass", "si", " fo", "wa", "ec", "our", "who", "its", "z",
  "fo", "rs", ">", "ot", "un", "<", "im", "th ", "nc", "ate", "><", "ver", "ad",
  " we", "ly", "ee", " n", "id", " cl", "ac", "il", "</", "rt", " wi", "div",
  "e, ", " it", "whi", " ma", "ge", "x", "e c", "men", ".com"].map bytesOf

/-- The table and the trie that `Encode` and `Decode` read: the package
variables `codes` and `codeTrie`. -/
structure Codec where
  codes : List (List Byte)
  codeTrie : Trie

/-- The loop of `init`: `codeTrie.Put([]byte(code), i)` for the entries from
index `i` on. -/
def initLoop (t : Trie) (i : Nat) : List (List Byte) → Except Fault Trie
  | [] => .ok t
  | code :: rest =>
    match Put t code (i : Int) with
    | .error e => .error e
    | .ok (t1, _) => initLoop t1 (i + 1) rest

/-- The package initialiser, for the table `table`: `codes[i]` is entry `i`
and the trie maps each entry to its index. -/
def init (table : List (List Byte)) : Except Fault Codec :=
  match initLoop New 0 table with
  | .error e => .error e
  | .ok t => .ok ⟨table, t⟩

/-- Splits off the first `n` bytes of `d`, or all of `d` if it is shorter. -/
def next (d : List Byte) (n : Nat) : List Byte × List Byte :=
  if d.length < n then (d, []) else (d.take n, d.drop n)

/-- The loop `for len(src) > 0` of `appendSrc`. -/
def appendSrcLoop : Nat → List Byte → List Byte → Except Fault (List Byte)
  | _, dst, [] => .ok dst
  | 0, _, _ :: _ => .error .fuel
  | fuel + 1, dst, b :: s =>
    let (chunk, src) := next (b :: s) 255
    if chunk.length = 1 then
      match index chunk 0 with
      | .error e => .error e
      | .ok c0 => appendSrcLoop fuel (dst ++ [254] ++ [c0]) src
    else
      appendSrcLoop fuel (dst ++ [255] ++ [byteOfInt chunk.length] ++ chunk) src

/-- Appends the verbatim encoding of `src` to `dst`. -/
def appendSrc (dst src : List Byte) : Except Fault (List Byte) :=
  appendSrcLoop src.length dst src

/-- The loop `for i, c := range tmp` of `Encode`, from index `i` on: the
final values of `prefixLen` and `code`. -/
def matchLoop (t : Trie) (node : Nat) (i : Nat) (prefixLen : Nat) (code : Int) :
    List Byte → Except Fault (Nat × Int)
  | [] => .ok (prefixLen, code)
  | c :: rest =>
    match Walk t node c with
    | .error e => .error e
    | .ok next =>
      if next = NilNode then .ok (prefixLen, code)
      else
        match Terminal t next with
        | .error e => .error e
        | .ok true =>
          match Val t next with
          | .error e => .error e
          | .ok v => matchLoop t next (i + 1) (i + 1) v rest
        | .ok false => matchLoop t next (i + 1) prefixLen code rest

/-- The local variables of `Encode` that live across iterations. -/
structure EncState where
  dst : List Byte
  src : List Byte
  currPos : Nat
  nLeft : Nat
  tmp : List Byte
  code : Int
  prefixLen : Nat

/-- One iteration of the loop `for currPos < nLeft` of `Encode`. -/
def encodeStep (cdc : Codec) (st : EncState) : Except Fault EncState :=
  match matchLoop cdc.codeTrie RootNode 0 st.prefixLen st.code st.tmp with
  | .error e => .error e
  | .ok (prefixLen, code) =>
    if prefixLen = 0 then
      match sliceFrom st.tmp 1 with
      | .error e => .error e
      | .ok tmp =>
        .ok { st with currPos := st.currPos + 1, tmp := tmp, code := code, prefixLen := prefixLen }
    else
      match sliceTo st.src st.currPos with
      | .error e => .error e
      | .ok verb =>
        match appendSrc st.dst verb with
        | .error e => .error e
        | .ok dst =>
          match sliceFrom st.src (st.currPos + prefixLen) with
          | .error e => .error e
          | .ok src =>
            .ok { dst := dst ++ [byteOfInt code], src := src, currPos := 0, nLeft := src.length,
                  tmp := src, code := code, prefixLen := 0 }

/-- The loop `for currPos < nLeft` of `Encode`. -/
def encodeLoop (cdc : Codec) : Nat → EncState → Except Fault EncState
  | fuel, st =>
    if st.currPos < st.nLeft then
      match fuel with
      | 0 => .error .fuel
      | fuel + 1 =>
        match encodeStep cdc st with
        | .error e => .error e
        | .ok st1 => encodeLoop cdc fuel st1
    else .ok st

/-- A caller-supplied buffer: its bytes and its capacity. `nil` is the
buffer with no bytes and capacity zero. -/
structure Buf where
  data : List Byte
  cap : Nat

/-- The nil slice. -/
def Buf.nil : Buf := ⟨[], 0⟩

/-- The state of `Encode` on entry to its loop, `dst` being the buffer after
`dst = dst[:0]`. -/
def encodeStart (dst src : List Byte) : EncState :=
  { dst := dst, src := src, currPos := 0, nLeft := src.length, tmp := src, code := 0,
    prefixLen := 0 }

/-- The encoded form of `src`. -/
def Encode (cdc : Codec) (dst : Buf) (src : List Byte) : Except Fault (List Byte) :=
  match sliceTo dst.data 0 with
  | .error e => .error e
  | .ok dst0 =>
    match encodeLoop cdc src.length (encodeStart dst0 src) with
    | .error e => .error e
    | .ok st => appendSrc st.dst st.src

/-- The loop `for len(src) > 0` of `Decode`. -/
def decodeLoop (codes : List (List Byte)) : Nat → List Byte → List Byte → Except Fault (List Byte)
  | _, dst, [] => .ok dst
  | 0, _, _ :: _ => .error .fuel
  | fuel + 1, dst, b :: s =>
    let src := b :: s
    let n : Nat := b.val
    if n = 254 then
      if src.length < 2 then .error .errCorrupt
      else
        match index src 1 with
        | .error e => .error e
        | .ok b1 =>
          match sliceFrom src 2 with
          | .error e => .error e
          | .ok src1 => decodeLoop codes fuel (dst ++ [b1]) src1
    else if n = 255 then
      if src.length < 2 then .error .errCorrupt
      else
        match index src 1 with
        | .error e => .error e
        | .ok b1 =>
          let n : Nat := b1.val
          if src.length < n + 2 then .error .errCorrupt
          else
            match sliceFromTo src 2 (n + 2) with
            | .error e => .error e
            | .ok lit =>
              match sliceFrom src (n + 2) with
              | .error e => .error e
              | .ok src1 => decodeLoop codes fuel (dst ++ lit) src1
    else
      match index codes n with
      | .error e => .error e
      | .ok d =>
        match sliceFrom src 1 with
        | .error e => .error e
        | .ok src1 => decodeLoop codes fuel (dst ++ d) src1

/-- The decoded form of `src`. The buffer `dst` is replaced by an empty one
when its capacity is below `len(src)`, and is appended to otherwise. -/
def Decode (cdc : Codec) (dst : Buf) (src : List Byte) : Except Fault (List Byte) :=
  let dst : List Byte := if dst.cap < src.length then [] else dst.data
  decodeLoop cdc.codes src.length dst src

/-- The table of the tests with a custom table. -/
def testTable : List (List Byte) := ["http://", "is", ".com"].map bytesOf

end smaz

/-! ## Definitions used to state and prove the properties

Paths and lookups in the trie, the trie invariant, the map a table stands
for, the longest match, the verbatim wire form and the greedy encoder. -/

namespace trie

/-- The node reached from `n` along `k` by non-nil edges, if there is one. -/
def reach (t : Trie) : Nat → List Byte → Option Nat
  | n, [] => some n
  | n, c :: k =>
    match t.nodes[n]? with
    | none => none
    | some nd => if nd.branches c = 0 then none else reach t (nd.branches c) k

/-- The value the trie holds for `k`, if any. -/
def lookup (t : Trie) (k : List Byte) : Option Int :=
  match reach t RootNode k with
  | none => none
  | some n =>
    match t.nodes[n]? with
    | none => none
    | some nd => if nd.terminal then some nd.val else none

/-- The invariant of a trie, with `key n` the byte sequence that spells the
path from the root to node `n`. -/
structure Inv (t : Trie) (key : Nat → List Byte) : Prop where
  len_ge : 2 ≤ t.nodes.length
  len_le : t.nodes.length ≤ maxNodeId + 1
  key_root : key RootNode = []
  edge : ∀ (n : Nat) (nd : node) (c : Byte), 1 ≤ n → t.nodes[n]? = some nd → nd.branches c ≠ 0 →
    nd.branches c < t.nodes.length ∧ key (nd.branches c) = key n ++ [c]

/-- A well-formed trie. -/
def WF (t : Trie) : Prop := ∃ key, Inv t key

/-- The trie after `Put` has allocated a node and installed the edge `c`
from `nodeId` (whose node is `nd`) to it. -/
def addEdge (t : Trie) (nodeId : Nat) (nd : node) (c : Byte) : Trie :=
  ⟨(t.nodes ++ [node.zero]).set nodeId
    { nd with branches := Function.update nd.branches c t.nodes.length }⟩

end trie

namespace smaz

open trie

/-- The largest index `j` with `i + position = j` at which `k` occurs in the
table whose first entry has index `i`. -/
def lastIdxFrom (i : Nat) : List (List Byte) → List Byte → Option Nat
  | [], _ => none
  | e :: rest, k =>
    match lastIdxFrom (i + 1) rest k with
    | some j => some j
    | none => if e = k then some i else none

/-- The index that the table stores for `e`: the largest `j` with
`table[j] = e`. -/
def IsLastIndex (table : List (List Byte)) (e : List Byte) (j : Nat) : Prop :=
  table[j]? = some e ∧ ∀ j1, j < j1 → table[j1]? ≠ some e

/-- The number of bytes of a table. -/
def totalLen (table : List (List Byte)) : Nat := (table.map List.length).sum

/-- The longest extension `pre ++ rest.take j`, `j ≥ 1`, on which `f` is
defined, as its length and the value of `f` on it. -/
def longestFrom (f : List Byte → Option Int) : List Byte → List Byte → Option (Nat × Int)
  | _, [] => none
  | pre, c :: rest =>
    match longestFrom f (pre ++ [c]) rest with
    | some r => some r
    | none =>
      match f (pre ++ [c]) with
      | some v => some ((pre ++ [c]).length, v)
      | none => none

end smaz

namespace smaz

/-- The split of `s` into consecutive chunks of 255 bytes, with a shorter
last chunk. -/
def chunks255 (s : List Byte) : List (List Byte) :=
  if s = [] then [] else s.take 255 :: chunks255 (s.drop 255)
termination_by s.length
decreasing_by
  simp only [List.length_drop]
  have : 0 < s.length := List.length_pos.mpr (by assumption)
  omega

/-- The wire form of one verbatim chunk: `[254, b]` for the one-byte chunk
`[b]`, and `[255, N] ++ chunk` for a chunk of `N` bytes otherwise. -/
def verbUnit : List Byte → List Byte
  | [b] => [254, b]
  | chunk => [255, Fin.ofNat chunk.length] ++ chunk

/-- The verbatim wire form of `s`. -/
def verbatim (s : List Byte) : List Byte :=
  ((chunks255 s).map verbUnit).flatten

/-- The loop of `Decode` with the fuel it is given by `Decode`. -/
def dec (codes : List (List Byte)) (dst src : List Byte) : Except Fault (List Byte) :=
  decodeLoop codes src.length dst src

end smaz

namespace smaz

open trie

/-- The greedy longest-match encoder over the partial map `f` from byte
sequences to codes: `pending` is the verbatim span not yet flushed and the
other list the unconsumed input. -/
def greedy (f : List Byte → Option Int) (pending : List Byte) : List Byte → List Byte
  | [] => verbatim pending
  | b :: r =>
    match longestFrom f [] (b :: r) with
    | none => greedy f (pending ++ [b]) r
    | some (l, v) => verbatim pending ++ [byteOfInt v] ++ greedy f [] (r.drop (l - 1))
termination_by rest => rest.length
decreasing_by
  · simp
  · simp only [List.length_drop, List.length_cons]
    omega

/-- The loop invariant of `Encode`. -/
structure EncInv (st : EncState) : Prop where
  tmp_eq : st.tmp = st.src.drop st.currPos
  nLeft_eq : st.nLeft = st.src.length
  prefixLen_eq : st.prefixLen = 0
  currPos_le : st.currPos ≤ st.nLeft

/-- The output that the loop of `Encode` still owes in state `st`. -/
def owed (f : List Byte → Option Int) (st : EncState) : List Byte :=
  st.dst ++ greedy f (st.src.take st.currPos) (st.src.drop st.currPos)

/-- The map from byte sequences to codes that a table stands for: an entry
goes to the last index at which it occurs. -/
def tableMap (table : List (List Byte)) (k : List Byte) : Option Int :=
  (lastIdxFrom 0 table k).map (fun j => (j : Int))

/-- `e` is a non-empty entry of the table and a prefix of `t`. -/
def IsMatch (table : List (List Byte)) (t e : List Byte) : Prop :=
  e ∈ table ∧ e ≠ [] ∧ e <+: t

/-- `e` is the longest non-empty entry of the table that is a prefix of `t`. -/
def IsLongestMatch (table : List (List Byte)) (t e : List Byte) : Prop :=
  IsMatch table t e ∧ ∀ e1, IsMatch table t e1 → e1.length ≤ e.length

/-- No non-empty entry of the table is a prefix of `t`. -/
def NoMatch (table : List (List Byte)) (t : List Byte) : Prop :=
  ∀ e ∈ table, e ≠ [] → ¬ e <+: t

/-- The codec that `init` builds from the table of the tests. -/
def testCodec : Codec :=
  match init testTable with
  | .ok cdc => cdc
  | .error _ => ⟨testTable, New⟩

/-- The streams on which `Decode`, reading units from left to right, reaches
an opcode 254 with no byte after it, an opcode 255 with no length byte after
it, or an opcode 255 whose length byte `n` is followed by fewer than `n`
bytes. -/
inductive Truncated : List Byte → Prop
  | byteMissing : Truncated [254]
  | lengthMissing : Truncated [255]
  | literalShort (n : Byte) (rest : List Byte) : rest.length < n.val →
      Truncated (255 :: n :: rest)
  | afterByte (b : Byte) (rest : List Byte) : Truncated rest → Truncated (254 :: b :: rest)
  | afterRun (n : Byte) (rest : List Byte) : n.val ≤ rest.length →
      Truncated (rest.drop n.val) → Truncated (255 :: n :: rest)
  | afterCode (v : Byte) (rest : List Byte) : v.val < 254 → Truncated rest →
      Truncated (v :: rest)

/-- The states that the loop of `Encode` goes through on the input `src`. -/
inductive Reachable (cdc : Codec) (src : List Byte) : EncState → Prop
  | start (dst : List Byte) : Reachable cdc src (encodeStart dst src)
  | step {st st1 : EncState} : Reachable cdc src st → st.currPos < st.nLeft →
      encodeStep cdc st = .ok st1 → Reachable cdc src st1

deriving instance DecidableEq for Except

instance (table : List (List Byte)) (t : List Byte) : Decidable (NoMatch table t) := by
  unfold NoMatch
  infer_instance

end smaz

namespace trie

/-- The calls `Put(k1, v1)`, ..., `Put(kn, vn)` in this order. -/
def putAll (t : Trie) : List (List Byte × Int) → Except Fault Trie
  | [] => .ok t
  | (k, v) :: ops =>
    match Put t k v with
    | .error e => .error e
    | .ok (t1, _) => putAll t1 ops

/-- The value of the last pair of `ops` with key `k`. -/
def lastVal : List (List Byte × Int) → List Byte → Option Int
  | [], _ => none
  | (k0, v0) :: ops, k =>
    match lastVal ops k with
    | some v => some v
    | none => if k0 = k then some v0 else none

/-- `v` is the value of the last insertion of `ops` with key `k`: insertion
`j` is `Put(k, v)` and no later insertion has key `k`. -/
def IsLastPut (ops : List (List Byte × Int)) (k : List Byte) (v : Int) : Prop :=
  ∃ j : Nat, ops[j]? = some (k, v) ∧ ∀ (j1 : Nat) (v1 : Int), j < j1 → ops[j1]? ≠ some (k, v1)

/-- The number of bytes of the keys of `ops`. -/
def keyBytes (ops : List (List Byte × Int)) : Nat := (ops.map (fun p => p.1.length)).sum

/-- Three insertions, the last of which overwrites the first. -/
def sampleOps : List (List Byte × Int) :=
  [(bytesOf "he", 1), (bytesOf "hello", 2), (bytesOf "he", 3)]

/-- The trie that the insertions `sampleOps` build. -/
def sampleTrie : Trie :=
  match putAll New sampleOps with
  | .ok t => t
  | .error _ => New

/-- The tree shape of a trie: node 0 is the zero node, every edge goes to a
node with id at least 2 that exists, every such node has exactly one
incoming edge, and every node from 1 on is reached from the root. -/
structure Tree (t : Trie) : Prop where
  len_ge : 2 ≤ t.nodes.length
  zero : t.nodes[0]? = some node.zero
  target : ∀ (n : Nat) (nd : node) (c : Byte), t.nodes[n]? = some nd → nd.branches c ≠ 0 →
    2 ≤ nd.branches c ∧ nd.branches c < t.nodes.length
  parent_unique : ∀ (n1 n2 : Nat) (nd1 nd2 : node) (c1 c2 : Byte),
    t.nodes[n1]? = some nd1 → t.nodes[n2]? = some nd2 → nd1.branches c1 ≠ 0 →
    nd1.branches c1 = nd2.branches c2 → n1 = n2 ∧ c1 = c2
  parent_exists : ∀ m : Nat, 2 ≤ m → m < t.nodes.length →
    ∃ (n : Nat) (nd : node) (c : Byte), t.nodes[n]? = some nd ∧ nd.branches c = m
  reachable : ∀ m : Nat, 1 ≤ m → m < t.nodes.length → ∃ key, reach t RootNode key = some m

/-- The trie `t1` has at least the nodes of `t` and every edge of `t`. -/
def Extends (t t1 : Trie) : Prop :=
  t.nodes.length ≤ t1.nodes.length ∧
    ∀ (n : Nat) (nd : node) (c : Byte), t.nodes[n]? = some nd → nd.branches c ≠ 0 →
      ∃ nd1, t1.nodes[n]? = some nd1 ∧ nd1.branches c = nd.branches c

/-- The number of bytes of `k` that can be followed from node `n` along
edges of the trie. -/
def pathLen (t : Trie) : Nat → List Byte → Nat
  | _, [] => 0
  | n, c :: k =>
    match t.nodes[n]? with
    | none => 0
    | some nd => if nd.branches c = 0 then 0 else pathLen t (nd.branches c) k + 1

end trie

namespace smaz

open trie

/-- The output is exactly one verbatim unit of the wire format: `[254, b]`,
or `255`, a length byte and as many literal bytes as the length byte says. -/
def IsOneUnit (out : List Byte) : Prop :=
  (∃ b : Byte, out = [254, b]) ∨
    ∃ (n : Byte) (lit : List Byte), out = 255 :: n :: lit ∧ lit.length = n.val

/-- The ways the construction of a codec can end other than by returning a
codec, in the model of `NewCodec`. -/
inductive BuildFault where
  /-- The fatal error for a table too large for the index range. -/
  | tableTooLarge
  /-- A fault of the insertions into the trie. -/
  | fault (f : Fault)
  deriving DecidableEq, Repr

/-- Modelled from the spec: `NewCodec`, the constructor that the tests call
with a table of their own, is not among the source files (`smaz.go` builds
only the built-in table). Following §4.2 (Construction) it inserts each entry
into a trie with its 0-based position as value and keeps the table, which is
what `init` does; following §7 and §9 a table too large for the index range
(more than 254 entries, the codes 254 and 255 being opcodes) is a fatal
error raised at construction. -/
def NewCodec (table : List (List Byte)) : Except BuildFault Codec :=
  if 254 < table.length then .error .tableTooLarge
  else
    match init table with
    | .ok cdc => .ok cdc
    | .error f => .error (.fault f)

/-- Modelled from the spec: the loop of the `Decode` of a codec built by
`NewCodec`, which is not among the source files. Following §4.2 (Decode),
opcodes are read left to right: 254 requires one following byte and emits it;
255 requires a length byte `N` and `N` literal bytes and emits them; any
other opcode `V` is an index into the table and emits the entry, and fails
with CorruptInput when `V` is out of range of the table or when the stream is
truncated. -/
def Codec.decodeLoop (codes : List (List Byte)) : Nat → List Byte → List Byte →
    Except Fault (List Byte)
  | _, out, [] => .ok out
  | 0, _, _ :: _ => .error .fuel
  | fuel + 1, out, b :: s =>
    if b.val = 254 then
      match s with
      | [] => .error .errCorrupt
      | b1 :: s1 => Codec.decodeLoop codes fuel (out ++ [b1]) s1
    else if b.val = 255 then
      match s with
      | [] => .error .errCorrupt
      | n :: s1 =>
        if s1.length < n.val then .error .errCorrupt
        else Codec.decodeLoop codes fuel (out ++ s1.take n.val) (s1.drop n.val)
    else
      match codes[b.val]? with
      | none => .error .errCorrupt
      | some d => Codec.decodeLoop codes fuel (out ++ d) s

/-- Modelled from the spec: the `Decode` of a codec built by `NewCodec`,
which is not among the source files; see `Codec.decodeLoop`. -/
def Codec.Decode (cdc : Codec) (src : List Byte) : Except Fault (List Byte) :=
  Codec.decodeLoop cdc.codes src.length [] src

/-- The codec that a run of `init` returned, and `d` when it panicked. -/
def builtCodec (x : Except Fault Codec) (d : Codec) : Codec :=
  match x with
  | .ok cdc => cdc
  | .error _ => d

/-- The codec of the package: what `init` builds from `codeStrings`. -/
def defaultCodec : Codec := builtCodec (init codeStrings) ⟨codeStrings, New⟩

/-- A table of 255 entries: the one-byte strings `[0]`, ..., `[254]`. -/
def bigTable : List (List Byte) := (List.range 255).map (fun i => [(Fin.ofNat i : Byte)])

/-- A Go slice header: the number of the backing array, the offset of the
first element in it, the length and the capacity. -/
structure Slice where
  arr : Nat
  off : Nat
  len : Nat
  cap : Nat

/-- The memory that slices point into: the backing arrays by number. The
arrays from `size` on are not allocated yet. -/
structure Mem where
  arrays : Nat → List Byte
  size : Nat

/-- The nil slice. -/
def Slice.nil : Slice := ⟨0, 0, 0, 0⟩

/-- The bytes that a slice holds. -/
def Mem.bytes (m : Mem) (s : Slice) : List Byte :=
  ((m.arrays s.arr).drop s.off).take s.len

/-- The slice expression `s[lo:]` on a slice header. -/
def Slice.sliceFrom (s : Slice) (lo : Nat) : Except Fault Slice :=
  if lo ≤ s.len then .ok ⟨s.arr, s.off + lo, s.len - lo, s.cap - lo⟩
  else .error .outOfRange

/-- The slice expression `s[:hi]` on a slice header; `hi` may go up to the
capacity. -/
def Slice.sliceTo (s : Slice) (hi : Nat) : Except Fault Slice :=
  if hi ≤ s.cap then .ok ⟨s.arr, s.off, hi, s.cap⟩ else .error .outOfRange

/-- The built-in `append(dst, bs...)`: the bytes are stored after the
elements of `dst` in its backing array when the capacity allows, and in a
new array that receives a copy of `dst` otherwise. The capacity of a new
array is left to the runtime; `grow` gives it from the old capacity and the
length needed. -/
def Mem.append (grow : Nat → Nat → Nat) (m : Mem) (dst : Slice) (bs : List Byte) :
    Mem × Slice :=
  if dst.len + bs.length ≤ dst.cap then
    (⟨Function.update m.arrays dst.arr
        ((m.arrays dst.arr).take (dst.off + dst.len) ++ bs ++
          (m.arrays dst.arr).drop (dst.off + dst.len + bs.length)), m.size⟩,
      ⟨dst.arr, dst.off, dst.len + bs.length, dst.cap⟩)
  else
    (⟨Function.update m.arrays m.size
        (m.bytes dst ++ bs ++
          List.replicate (grow dst.cap (dst.len + bs.length) - (dst.len + bs.length)) 0),
        m.size + 1⟩,
      ⟨m.size, 0, dst.len + bs.length, grow dst.cap (dst.len + bs.length)⟩)

/-- The function `next` on slice headers. -/
def Slice.next (d : Slice) (n : Nat) : Slice × Slice :=
  if d.len < n then (d, Slice.nil)
  else (⟨d.arr, d.off, n, d.cap⟩, ⟨d.arr, d.off + n, d.len - n, d.cap - n⟩)

/-- The loop of `appendSrc` on memory: `chunk[0]` and `chunk...` are read
from memory when the statement that uses them runs, after the stores of the
statements before it. -/
def Mem.appendSrcLoop (grow : Nat → Nat → Nat) :
    Nat → Mem → Slice → Slice → Except Fault (Mem × Slice)
  | fuel, m, dst, src =>
    if src.len = 0 then .ok (m, dst)
    else
      match fuel with
      | 0 => .error .fuel
      | fuel + 1 =>
        let chunk := (src.next 255).1
        let src1 := (src.next 255).2
        if chunk.len = 1 then
          let r1 := m.append grow dst [254]
          match index (r1.1.bytes chunk) 0 with
          | .error e => .error e
          | .ok c0 =>
            let r2 := r1.1.append grow r1.2 [c0]
            Mem.appendSrcLoop grow fuel r2.1 r2.2 src1
        else
          let r1 := m.append grow dst [255]
          let r2 := r1.1.append grow r1.2 [byteOfInt chunk.len]
          let r3 := r2.1.append grow r2.2 (r2.1.bytes chunk)
          Mem.appendSrcLoop grow fuel r3.1 r3.2 src1

/-- The function `appendSrc` on memory. -/
def Mem.appendSrc (grow : Nat → Nat → Nat) (m : Mem) (dst src : Slice) :
    Except Fault (Mem × Slice) :=
  Mem.appendSrcLoop grow src.len m dst src

/-- The local variables of `Encode` that live across iterations, with the
memory and slice headers in the place of byte sequences. -/
structure MemEncState where
  mem : Mem
  dst : Slice
  src : Slice
  currPos : Nat
  nLeft : Nat
  tmp : Slice
  code : Int
  prefixLen : Nat

/-- One iteration of the loop `for currPos < nLeft` of `Encode` on memory.
The loop `for i, c := range tmp` stores nothing, so that it reads the bytes
that `tmp` holds when it starts. -/
def Mem.encodeStep (grow : Nat → Nat → Nat) (cdc : Codec) (st : MemEncState) :
    Except Fault MemEncState :=
  match matchLoop cdc.codeTrie RootNode 0 st.prefixLen st.code (st.mem.bytes st.tmp) with
  | .error e => .error e
  | .ok (prefixLen, code) =>
    if prefixLen = 0 then
      match st.tmp.sliceFrom 1 with
      | .error e => .error e
      | .ok tmp =>
        .ok { st with currPos := st.currPos + 1, tmp := tmp, code := code, prefixLen := prefixLen }
    else
      match st.src.sliceTo st.currPos with
      | .error e => .error e
      | .ok verb =>
        match Mem.appendSrc grow st.mem st.dst verb with
        | .error e => .error e
        | .ok (m1, dst1) =>
          match st.src.sliceFrom (st.currPos + prefixLen) with
          | .error e => .error e
          | .ok src =>
            .ok { mem := (m1.append grow dst1 [byteOfInt code]).1,
                  dst := (m1.append grow dst1 [byteOfInt code]).2,
                  src := src, currPos := 0, nLeft := src.len, tmp := src, code := code,
                  prefixLen := 0 }

/-- The loop `for currPos < nLeft` of `Encode` on memory. -/
def Mem.encodeLoop (grow : Nat → Nat → Nat) (cdc : Codec) :
    Nat → MemEncState → Except Fault MemEncState
  | fuel, st =>
    if st.currPos < st.nLeft then
      match fuel with
      | 0 => .error .fuel
      | fuel + 1 =>
        match Mem.encodeStep grow cdc st with
        | .error e => .error e
        | .ok st1 => Mem.encodeLoop grow cdc fuel st1
    else .ok st

/-- The function `Encode` on memory: the memory after the call and the slice
returned. -/
def Mem.Encode (grow : Nat → Nat → Nat) (cdc : Codec) (m : Mem) (dst src : Slice) :
    Except Fault (Mem × Slice) :=
  match dst.sliceTo 0 with
  | .error e => .error e
  | .ok dst0 =>
    match Mem.encodeLoop grow cdc src.len
        { mem := m, dst := dst0, src := src, currPos := 0, nLeft := src.len, tmp := src,
          code := 0, prefixLen := 0 } with
    | .error e => .error e
    | .ok st => Mem.appendSrc grow st.mem st.dst st.src

/-- The bytes of the slice that `Encode` on memory returns. -/
def Mem.encodeBytes (grow : Nat → Nat → Nat) (cdc : Codec) (m : Mem) (dst src : Slice) :
    Except Fault (List Byte) :=
  match Mem.Encode grow cdc m dst src with
  | .error e => .error e
  | .ok (m1, out) => .ok (m1.bytes out)

/-- A slice header that fits the memory: its array is allocated, its length
is at most its capacity, and its capacity ends within the array. -/
def Slice.Valid (m : Mem) (s : Slice) : Prop :=
  s.arr < m.size ∧ s.len ≤ s.cap ∧ s.off + s.cap ≤ (m.arrays s.arr).length

/-- The storage of `dst` up to its capacity does not overlap the bytes of
`s`. -/
def Slice.Apart (dst s : Slice) : Prop :=
  dst.arr ≠ s.arr ∨ dst.off + dst.cap ≤ s.off ∨ s.off + s.len ≤ dst.off

instance (m : Mem) (s : Slice) : Decidable (Slice.Valid m s) := by
  unfold Slice.Valid
  infer_instance

instance (dst s : Slice) : Decidable (Slice.Apart dst s) := by
  unfold Slice.Apart
  infer_instance

/-- A memory of three arrays: array 0 is empty, array 1 is `[65]` and array 2
is `[9, 9, 9]`. -/
def demoMem : Mem := ⟨fun a => if a = 1 then [65] else if a = 2 then [9, 9, 9] else [], 3⟩

/-- The slice `src` of one byte over array 1 of `demoMem`. -/
def demoSrc : Slice := ⟨1, 0, 1, 1⟩

/-- The slice `src[:0]` of `demoSrc`: no elements, and the storage of
`demoSrc` as its capacity. -/
def demoDst : Slice := ⟨1, 0, 0, 1⟩

/-- A buffer of two elements and capacity 3 over array 2 of `demoMem`. -/
def demoBuf : Slice := ⟨2, 0, 2, 3⟩

/-- The slice `s` lies within the bytes of `c`. -/
def Slice.Within (s c : Slice) : Prop :=
  s.arr = c.arr ∧ c.off ≤ s.off ∧ s.off + s.len ≤ c.off + c.len

/-- The bytes of the slice are in an allocated array. -/
def Slice.Readable (m : Mem) (s : Slice) : Prop :=
  s.arr < m.size ∧ s.off + s.len ≤ (m.arrays s.arr).length

/-- What storing through `dst` may change: from the memory `m` and the buffer
`dst` to the memory `m1` and the buffer `dst1`, arrays keep their length, and
the slices that `dst` is apart from keep their bytes and are apart from
`dst1`. -/
def Mem.Grows (m : Mem) (dst : Slice) (m1 : Mem) (dst1 : Slice) : Prop :=
  dst1.Valid m1 ∧ m.size ≤ m1.size ∧
    (∀ a, a < m.size → (m1.arrays a).length = (m.arrays a).length) ∧
    ∀ s : Slice, s.arr < m.size → dst.Apart s → m1.bytes s = m.bytes s ∧ dst1.Apart s

/-- The byte sequences that the state of `Encode` on memory stands for. -/
def MemEncState.abs (st : MemEncState) : EncState :=
  { dst := st.mem.bytes st.dst, src := st.mem.bytes st.src, currPos := st.currPos,
    nLeft := st.nLeft, tmp := st.mem.bytes st.tmp, code := st.code, prefixLen := st.prefixLen }

/-- The invariant of the loop of `Encode` on memory, `R` being the slice
`src` of the call: the buffer is apart from `R`, and `src` and `tmp` lie
within it. -/
structure MemInv (R : Slice) (st : MemEncState) : Prop where
  dst_valid : st.dst.Valid st.mem
  region : R.Readable st.mem
  src_within : st.src.Within R
  dst_apart : st.dst.Apart R
  src_cap : st.src.len ≤ st.src.cap
  tmp_eq : st.tmp =
    ⟨st.src.arr, st.src.off + st.currPos, st.src.len - st.currPos, st.src.cap - st.currPos⟩

end smaz

/-! ## Theorems -/

namespace trie

theorem index_eq_ok {α : Type} {s : List α} {i : Nat} {a : α} (h : s[i]? = some a) :
    index s i = .ok a := by
  simp [index, h]

theorem index_eq_error {α : Type} {s : List α} {i : Nat} (h : s[i]? = none) :
    index s i = .error .outOfRange := by
  simp [index, h]

theorem reach_append (t : Trie) (k1 k2 : List Byte) (n : Nat) :
    reach t n (k1 ++ k2) = (reach t n k1).bind (fun m => reach t m k2) := by
  induction k1 generalizing n with
  | nil => simp [reach]
  | cons c k ih =>
    simp only [List.cons_append, reach]
    cases t.nodes[n]? with
    | none => simp
    | some nd =>
      by_cases hb : nd.branches c = 0
      · simp [hb]
      · simp [hb, ih]

theorem reach_key {t : Trie} {key : Nat → List Byte} (hinv : Inv t key) :
    ∀ (k : List Byte) (n m : Nat), 1 ≤ n → n < t.nodes.length → reach t n k = some m →
      1 ≤ m ∧ m < t.nodes.length ∧ key m = key n ++ k := by
  intro k
  induction k with
  | nil =>
    intro n m h1 h2 h
    simp [reach] at h
    subst h
    simp [h1, h2]
  | cons c k ih =>
    intro n m h1 h2 h
    simp only [reach] at h
    cases hnd : t.nodes[n]? with
    | none => simp [hnd] at h
    | some nd =>
      simp only [hnd] at h
      by_cases hb : nd.branches c = 0
      · simp [hb] at h
      · simp only [hb, if_false] at h
        have he := hinv.edge n nd c h1 hnd hb
        have := ih (nd.branches c) m (Nat.pos_of_ne_zero hb) he.1 h
        refine ⟨this.1, this.2.1, ?_⟩
        rw [this.2.2, he.2]
        simp

theorem reach_root {t : Trie} {key : Nat → List Byte} (hinv : Inv t key)
    {k : List Byte} {m : Nat} (h : reach t RootNode k = some m) :
    1 ≤ m ∧ m < t.nodes.length ∧ key m = k := by
  have h2 := hinv.len_ge
  have := reach_key hinv k RootNode m (by unfold RootNode; omega) (by unfold RootNode; omega) h
  simpa [hinv.key_root] using this

theorem reach_inj {t : Trie} (hwf : WF t) {k1 k2 : List Byte} {m : Nat}
    (h1 : reach t RootNode k1 = some m) (h2 : reach t RootNode k2 = some m) : k1 = k2 := by
  obtain ⟨key, hinv⟩ := hwf
  rw [← (reach_root hinv h1).2.2, ← (reach_root hinv h2).2.2]

/-- Tries whose nodes have the same edges have the same paths. -/
theorem reach_congr {t t1 : Trie}
    (h : ∀ n : Nat, Option.map node.branches t1.nodes[n]? = Option.map node.branches t.nodes[n]?) :
    ∀ (k : List Byte) (n : Nat), reach t1 n k = reach t n k := by
  intro k
  induction k with
  | nil => intro n; rfl
  | cons c k ih =>
    intro n
    simp only [reach]
    have hn := h n
    cases h1 : t1.nodes[n]? with
    | none =>
      cases h0 : t.nodes[n]? with
      | none => rfl
      | some nd => simp [h1, h0] at hn
    | some nd1 =>
      cases h0 : t.nodes[n]? with
      | none => simp [h1, h0] at hn
      | some nd =>
        simp [h1, h0] at hn
        simp [hn, ih]

theorem New_WF : WF New := by
  refine ⟨fun _ => [], ?_, ?_, rfl, ?_⟩
  · simp [New]
  · simp [New, maxNodeId]
  · intro n nd c h1 hnd hb
    exfalso
    apply hb
    have hn : n = 1 := by
      by_contra hne
      have h2 : 2 ≤ n := by omega
      have h3 : (New.nodes)[n]? = none := by
        rw [List.getElem?_eq_none_iff]
        simp only [New, List.length_cons, List.length_nil]
        omega
      rw [h3] at hnd
      cases hnd
    subst hn
    simp [New] at hnd
    subst hnd
    rfl

theorem New_lookup (k : List Byte) : lookup New k = none := by
  cases k with
  | nil => simp [lookup, reach, New, RootNode, node.zero]
  | cons c k => simp [lookup, reach, New, RootNode, node.zero]

theorem addEdge_get {t : Trie} {nodeId : Nat} {nd : node} (c : Byte)
    (hnd : t.nodes[nodeId]? = some nd) (n : Nat) :
    (addEdge t nodeId nd c).nodes[n]? =
      if n = nodeId then
        some { nd with branches := Function.update nd.branches c t.nodes.length }
      else if n = t.nodes.length then some node.zero
      else t.nodes[n]? := by
  have hlt : nodeId < t.nodes.length := by
    by_contra hge
    have : t.nodes[nodeId]? = none := List.getElem?_eq_none_iff.mpr (by omega)
    rw [this] at hnd
    cases hnd
  simp only [addEdge, List.getElem?_set, List.length_append, List.length_cons, List.length_nil]
  by_cases h1 : n = nodeId
  · subst h1
    simp
    omega
  · have h1' : ¬ nodeId = n := fun h => h1 h.symm
    simp only [h1, h1', if_false]
    rw [List.getElem?_append]
    by_cases h2 : n = t.nodes.length
    · subst h2
      simp
    · simp only [h2, if_false]
      by_cases h3 : n < t.nodes.length
      · simp [h3]
      · have h4 : t.nodes[n]? = none := List.getElem?_eq_none_iff.mpr (by omega)
        simp only [h3, if_false, h4]
        rw [List.getElem?_eq_none_iff]
        simp
        omega

theorem addEdge_length (t : Trie) (nodeId : Nat) (nd : node) (c : Byte) :
    (addEdge t nodeId nd c).nodes.length = t.nodes.length + 1 := by
  simp [addEdge]

theorem getElem?_lt {t : Trie} {n : Nat} {nd : node} (h : t.nodes[n]? = some nd) :
    n < t.nodes.length := by
  by_contra hge
  have : t.nodes[n]? = none := List.getElem?_eq_none_iff.mpr (by omega)
  rw [this] at h
  cases h

theorem addEdge_reach_mono {t : Trie}
    {nodeId : Nat} {nd : node} (c : Byte) (hnd : t.nodes[nodeId]? = some nd)
    (hb : nd.branches c = 0) :
    ∀ (k : List Byte) (n m : Nat), 1 ≤ n → reach t n k = some m →
      reach (addEdge t nodeId nd c) n k = some m := by
  intro k
  induction k with
  | nil => intro n m _ h; simpa [reach] using h
  | cons c1 k ih =>
    intro n m h1 h
    simp only [reach] at h ⊢
    cases hn : t.nodes[n]? with
    | none => simp [hn] at h
    | some nd0 =>
      simp only [hn] at h
      by_cases hb0 : nd0.branches c1 = 0
      · simp [hb0] at h
      · simp only [hb0, if_false] at h
        have hlt := getElem?_lt hn
        rw [addEdge_get c hnd n]
        by_cases hnn : n = nodeId
        · subst hnn
          have hndeq : nd0 = nd := by
            rw [hn] at hnd
            exact Option.some.inj hnd
          subst hndeq
          have hc : c1 ≠ c := by
            intro hcc
            subst hcc
            exact hb0 hb
          simp only [if_true, Function.update_noteq hc, hb0, if_false]
          exact ih _ m (Nat.pos_of_ne_zero hb0) h
        · have hne : n ≠ t.nodes.length := by omega
          simp only [hnn, hne, if_false, hn, hb0]
          exact ih _ m (Nat.pos_of_ne_zero hb0) h

theorem addEdge_reach_back {t : Trie} {key : Nat → List Byte} (hinv : Inv t key)
    {nodeId : Nat} {nd : node} (c : Byte) (hnd : t.nodes[nodeId]? = some nd)
    (hb : nd.branches c = 0) :
    ∀ (k : List Byte) (n m : Nat), 1 ≤ n → n < t.nodes.length →
      reach (addEdge t nodeId nd c) n k = some m → m ≠ t.nodes.length →
      reach t n k = some m := by
  intro k
  induction k with
  | nil => intro n m _ _ h _; simpa [reach] using h
  | cons c1 k ih =>
    intro n m h1 hlt h hm
    simp only [reach] at h ⊢
    rw [addEdge_get c hnd n] at h
    have hne : n ≠ t.nodes.length := by omega
    by_cases hnn : n = nodeId
    · subst hnn
      simp only [if_true] at h
      simp only [hnd]
      by_cases hc : c1 = c
      · subst hc
        simp only [Function.update_same] at h
        have h2 := hinv.len_ge
        have hL : t.nodes.length ≠ 0 := by omega
        simp only [hL, if_false] at h
        exfalso
        cases k with
        | nil =>
          simp [reach] at h
          exact hm h.symm
        | cons c2 k2 =>
          simp only [reach] at h
          rw [addEdge_get c1 hnd] at h
          simp [hne.symm, node.zero] at h
      · simp only [Function.update_noteq hc] at h
        by_cases hb0 : nd.branches c1 = 0
        · simp [hb0] at h
        · simp only [hb0, if_false] at h ⊢
          exact ih _ m (Nat.pos_of_ne_zero hb0) (hinv.edge n nd c1 h1 hnd hb0).1 h hm
    · simp only [hnn, hne, if_false] at h
      cases hn : t.nodes[n]? with
      | none => simp [hn] at h
      | some nd0 =>
        simp only [hn] at h ⊢
        by_cases hb0 : nd0.branches c1 = 0
        · simp [hb0] at h
        · simp only [hb0, if_false] at h ⊢
          exact ih _ m (Nat.pos_of_ne_zero hb0) (hinv.edge n nd0 c1 h1 hn hb0).1 h hm

theorem addEdge_inv {t : Trie} {key : Nat → List Byte} (hinv : Inv t key)
    {nodeId : Nat} {nd : node} (c : Byte) (h1 : 1 ≤ nodeId)
    (hnd : t.nodes[nodeId]? = some nd) (hmax : t.nodes.length ≤ maxNodeId) :
    Inv (addEdge t nodeId nd c)
      (Function.update key t.nodes.length (key nodeId ++ [c])) := by
  have hlt := getElem?_lt hnd
  have h2 := hinv.len_ge
  refine ⟨?_, ?_, ?_, ?_⟩
  · rw [addEdge_length]; omega
  · rw [addEdge_length]; omega
  · have : RootNode ≠ t.nodes.length := by unfold RootNode; omega
    rw [Function.update_noteq this]
    exact hinv.key_root
  · intro n nd0 c1 hn1 hn hb0
    rw [addEdge_get c hnd n] at hn
    rw [addEdge_length]
    have hkn : nodeId ≠ t.nodes.length := by omega
    by_cases hnn : n = nodeId
    · subst hnn
      simp only [if_true] at hn
      have hn := Option.some.inj hn
      subst hn
      simp only at hb0 ⊢
      by_cases hc : c1 = c
      · subst hc
        have hbr : Function.update nd.branches c1 t.nodes.length c1 = t.nodes.length :=
          Function.update_same _ _ _
        rw [hbr, Function.update_same, Function.update_noteq hkn]
        exact ⟨by omega, rfl⟩
      · have hbr : Function.update nd.branches c t.nodes.length c1 = nd.branches c1 :=
          Function.update_noteq hc _ _
        rw [hbr] at hb0 ⊢
        have he := hinv.edge n nd c1 hn1 hnd hb0
        refine ⟨by omega, ?_⟩
        rw [Function.update_noteq (by omega), Function.update_noteq hkn]
        exact he.2
    · simp only [hnn, if_false] at hn
      by_cases hnl : n = t.nodes.length
      · simp only [hnl, if_true] at hn
        have hn := Option.some.inj hn
        subst hn
        exact absurd rfl hb0
      · simp only [hnl, if_false] at hn
        have he := hinv.edge n nd0 c1 hn1 hn hb0
        refine ⟨by omega, ?_⟩
        rw [Function.update_noteq (by omega), Function.update_noteq hnl]
        exact he.2

theorem addEdge_lookup {t : Trie} {key : Nat → List Byte} (hinv : Inv t key)
    {nodeId : Nat} {nd : node} (c : Byte) (hnd : t.nodes[nodeId]? = some nd)
    (hb : nd.branches c = 0) (k : List Byte) :
    lookup (addEdge t nodeId nd c) k = lookup t k := by
  have h2 := hinv.len_ge
  have hr1 : (1 : Nat) ≤ RootNode := by unfold RootNode; omega
  have hr2 : RootNode < t.nodes.length := by unfold RootNode; omega
  unfold lookup
  cases h' : reach (addEdge t nodeId nd c) RootNode k with
  | none =>
    cases h0 : reach t RootNode k with
    | none => rfl
    | some m =>
      rw [addEdge_reach_mono c hnd hb k RootNode m hr1 h0] at h'
      cases h'
  | some m =>
    by_cases hm : m = t.nodes.length
    · subst hm
      have h0 : reach t RootNode k = none := by
        cases h0 : reach t RootNode k with
        | none => rfl
        | some m2 =>
          have := addEdge_reach_mono c hnd hb k RootNode m2 hr1 h0
          rw [h'] at this
          have hlt := (reach_root hinv h0).2.1
          have := Option.some.inj this
          omega
      have hne : t.nodes.length ≠ nodeId := by
        have := getElem?_lt hnd
        omega
      simp only [h0]
      rw [addEdge_get c hnd]
      simp [hne, node.zero]
    · have h0 := addEdge_reach_back hinv c hnd hb k RootNode m hr1 hr2 h' hm
      simp only [h0]
      rw [addEdge_get c hnd]
      by_cases hmn : m = nodeId
      · subst hmn
        simp [hnd]
      · simp [hmn, hm]

theorem putStep_spec {t : Trie} (hwf : WF t) {p : List Byte} {nodeId : Nat}
    (hp : reach t RootNode p = some nodeId) (c : Byte) :
    (∃ t1 n1, putStep t nodeId c = .ok (t1, n1) ∧ WF t1 ∧
        reach t1 RootNode (p ++ [c]) = some n1 ∧ (∀ k, lookup t1 k = lookup t k) ∧
        t1.nodes.length ≤ t.nodes.length + 1) ∨
      (putStep t nodeId c = .error .tooManyNodes ∧ maxNodeId < t.nodes.length) := by
  obtain ⟨key, hinv⟩ := hwf
  obtain ⟨h1, hlt, _⟩ := reach_root hinv hp
  have hle := hinv.len_le
  obtain ⟨nd, hnd⟩ : ∃ nd, t.nodes[nodeId]? = some nd := by
    cases h : t.nodes[nodeId]? with
    | none => rw [List.getElem?_eq_none_iff] at h; omega
    | some nd => exact ⟨nd, rfl⟩
  by_cases hb : nd.branches c = 0
  · have hmod : t.nodes.length % 4294967296 = t.nodes.length := by
      apply Nat.mod_eq_of_lt
      unfold maxNodeId at hle
      omega
    by_cases hmax : t.nodes.length ≤ maxNodeId
    · left
      refine ⟨addEdge t nodeId nd c, t.nodes.length, ?_, ⟨_, addEdge_inv hinv c h1 hnd hmax⟩, ?_,
        addEdge_lookup hinv c hnd hb, ?_⟩
      · have hnd1 : (t.nodes ++ [node.zero])[nodeId]? = some nd := by
          rw [List.getElem?_append]
          simp [hlt, hnd]
        have hgt : ¬ t.nodes.length > maxNodeId := by omega
        simp only [putStep, Walk, index_eq_ok hnd, hb, NilNode, if_true, hmod, hgt, if_false,
          index_eq_ok hnd1]
        rfl
      · rw [reach_append, addEdge_reach_mono c hnd hb p RootNode nodeId (by unfold RootNode; omega) hp]
        simp only [Option.bind, reach]
        rw [addEdge_get c hnd]
        have h2 := hinv.len_ge
        have hL : t.nodes.length ≠ 0 := by omega
        simp [hL]
      · rw [addEdge_length]
    · right
      have hgt : t.nodes.length > maxNodeId := by omega
      refine ⟨?_, by omega⟩
      simp only [putStep, Walk, index_eq_ok hnd, hb, NilNode, if_true, hmod, hgt]
  · left
    refine ⟨t, nd.branches c, ?_, ⟨key, hinv⟩, ?_, fun _ => rfl, by omega⟩
    · simp only [putStep, Walk, index_eq_ok hnd, NilNode, hb, if_false]
    · rw [reach_append, hp]
      simp [Option.bind, reach, hnd, hb]

theorem putLoop_spec : ∀ (k : List Byte) {t : Trie}, WF t → ∀ {p : List Byte} {nodeId : Nat},
    reach t RootNode p = some nodeId →
    (∃ t1 n1, putLoop t nodeId k = .ok (t1, n1) ∧ WF t1 ∧
        reach t1 RootNode (p ++ k) = some n1 ∧ (∀ k0, lookup t1 k0 = lookup t k0) ∧
        t1.nodes.length ≤ t.nodes.length + k.length) ∨
      (putLoop t nodeId k = .error .tooManyNodes ∧ maxNodeId < t.nodes.length + k.length) := by
  intro k
  induction k with
  | nil =>
    intro t hwf p nodeId hp
    left
    exact ⟨t, nodeId, rfl, hwf, by simpa using hp, fun _ => rfl, by simp⟩
  | cons c k ih =>
    intro t hwf p nodeId hp
    rcases putStep_spec hwf hp c with ⟨t1, n1, hs, hwf1, hr1, hl1, hlen1⟩ | ⟨hs, hbig⟩
    · rcases ih hwf1 hr1 with ⟨t2, n2, hs2, hwf2, hr2, hl2, hlen2⟩ | ⟨hs2, hbig2⟩
      · left
        refine ⟨t2, n2, ?_, hwf2, ?_, ?_, ?_⟩
        · simp only [putLoop, hs, hs2]
        · simpa using hr2
        · intro k0; rw [hl2, hl1]
        · simp only [List.length_cons]; omega
      · right
        refine ⟨?_, ?_⟩
        · simp only [putLoop, hs, hs2]
        · simp only [List.length_cons]; omega
    · right
      refine ⟨?_, ?_⟩
      · simp only [putLoop, hs]
      · simp only [List.length_cons]; omega

/-- Replacing the value and terminal flag of one node. -/
theorem setNode_spec {t : Trie} (nd1 : node) (hwf : WF t) {n : Nat} {nd : node}
    (hnd : t.nodes[n]? = some nd) (hbr : nd1.branches = nd.branches) :
    WF ⟨t.nodes.set n nd1⟩ ∧
      (∀ k m, reach ⟨t.nodes.set n nd1⟩ m k = reach t m k) ∧
      (∀ k, lookup ⟨t.nodes.set n nd1⟩ k =
        if reach t RootNode k = some n then (if nd1.terminal then some nd1.val else none)
        else lookup t k) := by
  have hlt := getElem?_lt hnd
  have hget : ∀ m : Nat, (⟨t.nodes.set n nd1⟩ : Trie).nodes[m]? =
      if m = n then some nd1 else t.nodes[m]? := by
    intro m
    simp only [List.getElem?_set]
    by_cases hm : m = n
    · subst hm; simp [hlt]
    · have : ¬ n = m := fun h => hm h.symm
      simp [hm, this]
  have hreach : ∀ k m, reach ⟨t.nodes.set n nd1⟩ m k = reach t m k := by
    intro k m
    apply reach_congr
    intro m
    rw [hget]
    by_cases hm : m = n
    · subst hm; simp [hnd, hbr]
    · simp [hm]
  refine ⟨?_, hreach, ?_⟩
  · obtain ⟨key, hinv⟩ := hwf
    refine ⟨key, ?_, ?_, hinv.key_root, ?_⟩
    · simpa using hinv.len_ge
    · simpa using hinv.len_le
    · intro m x c h1 hx hb
      rw [hget] at hx
      simp only [List.length_set]
      by_cases hm : m = n
      · subst hm
        simp only [if_true] at hx
        have hx := Option.some.inj hx
        subst hx
        rw [hbr] at hb ⊢
        exact hinv.edge m nd c h1 hnd hb
      · simp only [hm, if_false] at hx
        exact hinv.edge m x c h1 hx hb
  · intro k
    unfold lookup
    rw [hreach]
    cases hr : reach t RootNode k with
    | none => simp
    | some m =>
      simp only [hget]
      by_cases hm : m = n
      · subst hm; simp
      · simp [hm]

theorem Put_spec {t : Trie} (hwf : WF t) (k : List Byte) (v : Int) :
    (∃ t1 fresh, Put t k v = .ok (t1, fresh) ∧ WF t1 ∧ lookup t1 k = some v ∧
        (∀ k0, k0 ≠ k → lookup t1 k0 = lookup t k0) ∧ fresh = (lookup t k).isNone ∧
        t1.nodes.length ≤ t.nodes.length + k.length) ∨
      (Put t k v = .error .tooManyNodes ∧ maxNodeId < t.nodes.length + k.length) := by
  have hroot : reach t RootNode [] = some RootNode := rfl
  rcases putLoop_spec k hwf hroot with ⟨t1, n1, hs, hwf1, hr1, hl1, hlen1⟩ | ⟨hs, hbig⟩
  · left
    simp only [List.nil_append] at hr1
    obtain ⟨key, hinv⟩ := hwf1
    obtain ⟨h1, hlt, _⟩ := reach_root hinv hr1
    obtain ⟨nd, hnd⟩ : ∃ nd, t1.nodes[n1]? = some nd := by
      cases h : t1.nodes[n1]? with
      | none => rw [List.getElem?_eq_none_iff] at h; omega
      | some nd => exact ⟨nd, rfl⟩
    have hlk : lookup t k = if nd.terminal then some nd.val else none := by
      rw [← hl1]
      simp [lookup, hr1, hnd]
    have key_ne : ∀ k0, k0 ≠ k → reach t1 RootNode k0 ≠ some n1 := by
      intro k0 hne h0
      exact hne (reach_inj ⟨key, hinv⟩ h0 hr1)
    by_cases hterm : nd.terminal = true
    · obtain ⟨hwf2, _, hl2⟩ := setNode_spec { nd with val := v } ⟨key, hinv⟩ hnd rfl
      refine ⟨_, false, ?_, hwf2, ?_, ?_, ?_, ?_⟩
      · simp only [Put, hs, index_eq_ok hnd, hterm, if_true]
      · rw [hl2]; simp [hr1, hterm]
      · intro k0 hne
        rw [hl2, if_neg (key_ne k0 hne), hl1]
      · rw [hlk]; simp [hterm]
      · simpa using hlen1
    · obtain ⟨hwf2, _, hl2⟩ :=
        setNode_spec { nd with val := v, terminal := true } ⟨key, hinv⟩ hnd rfl
      refine ⟨_, true, ?_, hwf2, ?_, ?_, ?_, ?_⟩
      · simp only [Put, hs, index_eq_ok hnd, hterm]
        rfl
      · rw [hl2]; simp [hr1]
      · intro k0 hne
        rw [hl2, if_neg (key_ne k0 hne), hl1]
      · rw [hlk]; simp [hterm]
      · simpa using hlen1
  · right
    refine ⟨?_, hbig⟩
    simp only [Put, hs]

end trie

namespace smaz

open trie

theorem lastIdxFrom_mem : ∀ (table : List (List Byte)) (i : Nat) (k : List Byte),
    k ∈ table → ∃ j, lastIdxFrom i table k = some j := by
  intro table
  induction table with
  | nil => intro i k h; simp at h
  | cons e rest ih =>
    intro i k h
    simp only [lastIdxFrom]
    cases hr : lastIdxFrom (i + 1) rest k with
    | some j => exact ⟨j, rfl⟩
    | none =>
      rcases List.mem_cons.mp h with h1 | h1
      · exact ⟨i, by simp [h1]⟩
      · obtain ⟨j, hj⟩ := ih (i + 1) k h1
        rw [hr] at hj
        cases hj

theorem lastIdxFrom_some : ∀ (table : List (List Byte)) (i : Nat) (k : List Byte) (j : Nat),
    lastIdxFrom i table k = some j → i ≤ j ∧ IsLastIndex table k (j - i) := by
  intro table
  induction table with
  | nil => intro i k j h; simp [lastIdxFrom] at h
  | cons e rest ih =>
    intro i k j h
    simp only [lastIdxFrom] at h
    cases hr : lastIdxFrom (i + 1) rest k with
    | some j0 =>
      simp only [hr] at h
      have hj := Option.some.inj h
      subst hj
      obtain ⟨hle, hget, hmax⟩ := ih (i + 1) k j0 hr
      have hji : j0 - i = (j0 - (i + 1)) + 1 := by omega
      refine ⟨by omega, ?_, ?_⟩
      · rw [hji]; simpa using hget
      · intro j1 hj1
        have : j1 = (j1 - 1) + 1 := by omega
        rw [this]
        simp only [List.getElem?_cons_succ]
        exact hmax (j1 - 1) (by omega)
    | none =>
      simp only [hr] at h
      by_cases hek : e = k
      · simp only [hek, if_true] at h
        have hj := Option.some.inj h
        subst hj
        refine ⟨le_refl _, ?_, ?_⟩
        · simp [hek]
        · intro j1 hj1 hget
          have hj1' : j1 = (j1 - 1) + 1 := by omega
          rw [hj1'] at hget
          simp only [List.getElem?_cons_succ] at hget
          have hmem : k ∈ rest := List.getElem?_mem hget
          obtain ⟨j2, hj2⟩ := lastIdxFrom_mem rest (i + 1) k hmem
          rw [hr] at hj2
          cases hj2
      · simp [hek] at h

theorem lastIdxFrom_none : ∀ (table : List (List Byte)) (i : Nat) (k : List Byte),
    lastIdxFrom i table k = none → k ∉ table := by
  intro table
  induction table with
  | nil => intro i k _; simp
  | cons e rest ih =>
    intro i k h
    simp only [lastIdxFrom] at h
    cases hr : lastIdxFrom (i + 1) rest k with
    | some j0 => simp [hr] at h
    | none =>
      simp only [hr] at h
      by_cases hek : e = k
      · simp [hek] at h
      · simp only [List.mem_cons, not_or]
        exact ⟨fun h1 => hek h1.symm, ih (i + 1) k hr⟩

theorem initLoop_spec : ∀ (rest : List (List Byte)) (i : Nat) {t : Trie}, WF t →
    (∃ t1, initLoop t i rest = .ok t1 ∧ WF t1 ∧
        (∀ k, lookup t1 k =
          match lastIdxFrom i rest k with
          | some j => some (j : Int)
          | none => lookup t k) ∧
        t1.nodes.length ≤ t.nodes.length + totalLen rest) ∨
      (initLoop t i rest = .error .tooManyNodes ∧ maxNodeId < t.nodes.length + totalLen rest) := by
  intro rest
  induction rest with
  | nil =>
    intro i t hwf
    left
    exact ⟨t, rfl, hwf, fun k => by simp [lastIdxFrom], by simp [totalLen]⟩
  | cons code rest ih =>
    intro i t hwf
    have htot : totalLen (code :: rest) = code.length + totalLen rest := by
      simp [totalLen]
    rcases Put_spec hwf code (i : Int) with ⟨t1, fresh, hs, hwf1, hk, hother, _, hlen⟩ | ⟨hs, hbig⟩
    · rcases ih (i + 1) hwf1 with ⟨t2, hs2, hwf2, hl2, hlen2⟩ | ⟨hs2, hbig2⟩
      · left
        refine ⟨t2, ?_, hwf2, ?_, by omega⟩
        · simp only [initLoop, hs, hs2]
        · intro k
          rw [hl2]
          simp only [lastIdxFrom]
          cases hr : lastIdxFrom (i + 1) rest k with
          | some j => rfl
          | none =>
            by_cases hek : code = k
            · subst hek; simp [hk]
            · simp only [hek, if_false]
              exact hother k (fun h => hek h.symm)
      · right
        refine ⟨?_, by omega⟩
        simp only [initLoop, hs, hs2]
    · right
      refine ⟨?_, by omega⟩
      simp only [initLoop, hs]

/-- What `init` establishes: the table is kept, the trie is well formed and
maps every entry to the last index at which it occurs. -/
theorem init_spec {table : List (List Byte)} {cdc : Codec} (h : init table = .ok cdc) :
    cdc.codes = table ∧ WF cdc.codeTrie ∧
      ∀ k, lookup cdc.codeTrie k = (lastIdxFrom 0 table k).map (fun j => (j : Int)) := by
  unfold init at h
  rcases initLoop_spec table 0 New_WF with ⟨t1, hs, hwf1, hl, _⟩ | ⟨hs, _⟩
  · simp only [hs] at h
    have h := Except.ok.inj h
    subst h
    refine ⟨rfl, hwf1, ?_⟩
    intro k
    rw [hl]
    cases lastIdxFrom 0 table k with
    | some j => rfl
    | none => simp [New_lookup]
  · simp [hs] at h

/-- The initialiser succeeds on every table that fits in the node ids. -/
theorem init_ok (table : List (List Byte)) (h : totalLen table + 2 ≤ maxNodeId) :
    ∃ cdc, init table = .ok cdc := by
  unfold init
  rcases initLoop_spec table 0 New_WF with ⟨t1, hs, _⟩ | ⟨_, hbig⟩
  · exact ⟨⟨table, t1⟩, by simp only [hs]⟩
  · simp [New] at hbig
    omega

theorem longestFrom_undefined (f : List Byte → Option Int) :
    ∀ (rest pre : List Byte), (∀ x, f (pre ++ x) = none) → longestFrom f pre rest = none := by
  intro rest
  induction rest with
  | nil => intro pre _; rfl
  | cons c rest ih =>
    intro pre h
    simp only [longestFrom]
    rw [ih (pre ++ [c]) (fun x => by simpa using h (c :: x))]
    have := h [c]
    simp [this]

theorem longestFrom_cons_undefined (f : List Byte → Option Int) (pre : List Byte) (c : Byte)
    (rest : List Byte) (h : ∀ x, f (pre ++ [c] ++ x) = none) :
    longestFrom f pre (c :: rest) = none := by
  simp only [longestFrom]
  rw [longestFrom_undefined f rest (pre ++ [c]) h]
  have := h []
  simp only [List.append_nil] at this
  simp [this]

theorem longestFrom_some (f : List Byte → Option Int) :
    ∀ (rest pre : List Byte) (l : Nat) (v : Int), longestFrom f pre rest = some (l, v) →
      ∃ j, 1 ≤ j ∧ j ≤ rest.length ∧ l = pre.length + j ∧ f (pre ++ rest.take j) = some v ∧
        ∀ j1, j < j1 → j1 ≤ rest.length → f (pre ++ rest.take j1) = none := by
  intro rest
  induction rest with
  | nil => intro pre l v h; simp [longestFrom] at h
  | cons c rest ih =>
    intro pre l v h
    simp only [longestFrom] at h
    cases hr : longestFrom f (pre ++ [c]) rest with
    | some r =>
      simp only [hr] at h
      have h := Option.some.inj h
      subst h
      obtain ⟨j, hj1, hj2, hl, hf, hmax⟩ := ih (pre ++ [c]) l v hr
      refine ⟨j + 1, by omega, by simp; omega, ?_, ?_, ?_⟩
      · simp at hl; omega
      · simpa using hf
      · intro j1 hlt hle
        have hj1' : j1 = (j1 - 1) + 1 := by omega
        rw [hj1']
        simp only [List.length_cons] at hle
        have := hmax (j1 - 1) (by omega) (by omega)
        simpa using this
    | none =>
      simp only [hr] at h
      cases hf : f (pre ++ [c]) with
      | none => simp [hf] at h
      | some v0 =>
        simp only [hf] at h
        have h := Option.some.inj h
        simp only [Prod.mk.injEq] at h
        obtain ⟨h1, h2⟩ := h
        subst h2
        refine ⟨1, le_refl _, by simp, ?_, ?_, ?_⟩
        · simp at h1; omega
        · simpa using hf
        · intro j1 hlt hle
          -- a longer extension would have been found by the recursive call
          by_contra hne
          obtain ⟨v1, hv1⟩ := Option.ne_none_iff_exists'.mp hne
          have hj1' : j1 = (j1 - 1) + 1 := by omega
          rw [hj1'] at hv1
          simp only [List.take_succ_cons] at hv1
          have key : ∀ (r p : List Byte) (j : Nat), 1 ≤ j → j ≤ r.length →
              f (p ++ r.take j) ≠ none → longestFrom f p r ≠ none := by
            intro r
            induction r with
            | nil => intro p j hj1 hj2 _; simp at hj2; omega
            | cons c1 r ih1 =>
              intro p j hj1 hj2 hfj
              simp only [longestFrom]
              cases hr1 : longestFrom f (p ++ [c1]) r with
              | some r1 => simp
              | none =>
                by_cases hj : j = 1
                · subst hj
                  simp only [List.take_succ_cons, List.take_zero] at hfj
                  obtain ⟨v2, hv2⟩ := Option.ne_none_iff_exists'.mp hfj
                  simp [hv2]
                · have hjj : j = (j - 1) + 1 := by omega
                  rw [hjj] at hfj
                  simp only [List.take_succ_cons] at hfj
                  simp only [List.length_cons] at hj2
                  exact absurd hr1 (ih1 (p ++ [c1]) (j - 1) (by omega) (by omega)
                    (by simpa using hfj))
          simp only [List.length_cons] at hle
          exact key rest (pre ++ [c]) (j1 - 1) (by omega) (by omega)
            (by simp [hv1]) hr

theorem longestFrom_none (f : List Byte → Option Int) :
    ∀ (rest pre : List Byte), longestFrom f pre rest = none →
      ∀ j, 1 ≤ j → j ≤ rest.length → f (pre ++ rest.take j) = none := by
  intro rest
  induction rest with
  | nil => intro pre _ j h1 h2; simp at h2; omega
  | cons c rest ih =>
    intro pre h j h1 h2
    simp only [longestFrom] at h
    cases hr : longestFrom f (pre ++ [c]) rest with
    | some r => simp [hr] at h
    | none =>
      simp only [hr] at h
      cases hf : f (pre ++ [c]) with
      | some v0 => simp [hf] at h
      | none =>
        by_cases hj : j = 1
        · subst hj; simpa using hf
        · have hjj : j = (j - 1) + 1 := by omega
          rw [hjj]
          simp only [List.length_cons] at h2
          have := ih (pre ++ [c]) hr (j - 1) (by omega) (by omega)
          simpa using this

/-- The inner loop of `Encode` computes the longest match. -/
theorem matchLoop_eq {t : Trie} (hwf : WF t) :
    ∀ (rest pre : List Byte) (node : Nat) (prefixLen : Nat) (code : Int),
      reach t RootNode pre = some node →
      matchLoop t node pre.length prefixLen code rest =
        .ok (match longestFrom (lookup t) pre rest with
          | some r => r
          | none => (prefixLen, code)) := by
  obtain ⟨key, hinv⟩ := hwf
  intro rest
  induction rest with
  | nil => intro pre node pl code _; rfl
  | cons c rest ih =>
    intro pre node pl code hp
    obtain ⟨h1, hlt, _⟩ := reach_root hinv hp
    obtain ⟨nd, hnd⟩ : ∃ nd, t.nodes[node]? = some nd := by
      cases h : t.nodes[node]? with
      | none => rw [List.getElem?_eq_none_iff] at h; omega
      | some nd => exact ⟨nd, rfl⟩
    by_cases hb : nd.branches c = 0
    · have hnone : longestFrom (lookup t) pre (c :: rest) = none := by
        apply longestFrom_cons_undefined
        intro x
        have hc : reach t RootNode (pre ++ [c]) = none := by
          rw [reach_append, hp]
          simp [Option.bind, reach, hnd, hb]
        have hcx : reach t RootNode (pre ++ [c] ++ x) = none := by
          rw [reach_append, hc]
          rfl
        unfold lookup
        rw [hcx]
      simp only [matchLoop, Walk, index_eq_ok hnd, hb, NilNode, if_true, hnone]
    · have hr : reach t RootNode (pre ++ [c]) = some (nd.branches c) := by
        rw [reach_append, hp]
        simp [Option.bind, reach, hnd, hb]
      obtain ⟨_, hlt1, _⟩ := reach_root hinv hr
      obtain ⟨nb, hnb⟩ : ∃ nb, t.nodes[nd.branches c]? = some nb := by
        cases h : t.nodes[nd.branches c]? with
        | none => rw [List.getElem?_eq_none_iff] at h; omega
        | some nb => exact ⟨nb, rfl⟩
      have hlen : (pre ++ [c]).length = pre.length + 1 := by simp
      have ih1 := fun pl code => ih (pre ++ [c]) (nd.branches c) pl code hr
      rw [hlen] at ih1
      have hlk : lookup t (pre ++ [c]) = if nb.terminal then some nb.val else none := by
        simp [lookup, hr, hnb]
      by_cases hterm : nb.terminal = true
      · simp only [matchLoop, Walk, Terminal, Val, index_eq_ok hnd, index_eq_ok hnb, hb, NilNode,
          if_false, hterm, Bool.not_true, ih1, longestFrom, hlk, if_true, hlen]
        cases longestFrom (lookup t) (pre ++ [c]) rest <;> rfl
      · have hterm' : nb.terminal = false := by simpa using hterm
        simp only [matchLoop, Walk, Terminal, index_eq_ok hnd, index_eq_ok hnb, hb, NilNode,
          if_false, hterm', ih1, longestFrom, hlk]
        cases longestFrom (lookup t) (pre ++ [c]) rest <;> rfl

end smaz

namespace smaz

theorem byteOfInt_natCast (n : Nat) : byteOfInt (n : Int) = Fin.ofNat n := by
  apply Fin.ext
  simp only [byteOfInt, Fin.ofNat]
  omega

theorem byteOfInt_val {v : Int} (h0 : 0 ≤ v) (h : v < 256) : ((byteOfInt v).val : Int) = v := by
  simp only [byteOfInt, Fin.ofNat]
  omega

theorem chunks255_nil : chunks255 [] = [] := by
  rw [chunks255]; simp

theorem chunks255_cons (b : Byte) (s : List Byte) :
    chunks255 (b :: s) = (b :: s).take 255 :: chunks255 ((b :: s).drop 255) := by
  rw [chunks255]; simp

theorem verbatim_nil : verbatim [] = [] := by
  simp [verbatim, chunks255_nil]

theorem verbatim_cons (b : Byte) (s : List Byte) :
    verbatim (b :: s) = verbUnit ((b :: s).take 255) ++ verbatim ((b :: s).drop 255) := by
  simp only [verbatim]
  rw [chunks255_cons]
  simp

theorem verbatim_short {s : List Byte} (h0 : s ≠ []) (h : s.length ≤ 255) :
    verbatim s = verbUnit s := by
  cases s with
  | nil => exact absurd rfl h0
  | cons b s =>
    rw [verbatim_cons, List.take_of_length_le h, List.drop_eq_nil_of_le h, verbatim_nil]
    simp

theorem verbatim_long {s : List Byte} (h : 255 ≤ s.length) :
    verbatim s = verbUnit (s.take 255) ++ verbatim (s.drop 255) := by
  cases s with
  | nil => simp at h
  | cons b s => exact verbatim_cons b s

theorem next_eq (d : List Byte) : next d 255 = (d.take 255, d.drop 255) := by
  unfold next
  by_cases h : d.length < 255
  · simp only [h, if_true]
    rw [List.take_of_length_le (by omega), List.drop_eq_nil_of_le (by omega)]
  · simp only [h, if_false]

theorem verbUnit_eq (chunk : List Byte) :
    verbUnit chunk =
      if chunk.length = 1 then [254] ++ chunk
      else [255] ++ [byteOfInt chunk.length] ++ chunk := by
  rw [byteOfInt_natCast]
  match chunk with
  | [] => simp [verbUnit]
  | [b] => simp [verbUnit]
  | b :: c :: r => simp [verbUnit]

theorem appendSrcLoop_eq : ∀ (fuel : Nat) (dst src : List Byte), src.length ≤ fuel →
    appendSrcLoop fuel dst src = .ok (dst ++ verbatim src) := by
  intro fuel
  induction fuel with
  | zero =>
    intro dst src h
    cases src with
    | nil => simp [appendSrcLoop, verbatim_nil]
    | cons b s => simp at h
  | succ fuel ih =>
    intro dst src h
    cases src with
    | nil => simp [appendSrcLoop, verbatim_nil]
    | cons b s =>
      have hlen : (List.drop 255 (b :: s)).length ≤ fuel := by
        simp only [List.length_drop, List.length_cons] at h ⊢
        omega
      simp only [appendSrcLoop, next_eq]
      rw [verbatim_cons, verbUnit_eq]
      by_cases h1 : (List.take 255 (b :: s)).length = 1
      · have hidx : index (List.take 255 (b :: s)) 0 = .ok b := by
          simp [index]
        have htk : List.take 255 (b :: s) = [b] := by
          have : (List.take 254 s).length = 0 := by simpa using h1
          simp [List.length_eq_zero.mp this]
        simp only [h1, if_true, hidx, ih _ _ hlen, htk]
        simp [index]
      · simp only [h1, if_false, ih _ _ hlen]
        simp

theorem appendSrc_eq (dst src : List Byte) : appendSrc dst src = .ok (dst ++ verbatim src) :=
  appendSrcLoop_eq src.length dst src (le_refl _)

theorem decodeLoop_step (codes : List (List Byte)) (fuel : Nat) (dst : List Byte) (b : Byte)
    (s : List Byte) :
    decodeLoop codes (fuel + 1) dst (b :: s) =
      if b.val = 254 then
        match s with
        | [] => .error .errCorrupt
        | b1 :: s1 => decodeLoop codes fuel (dst ++ [b1]) s1
      else if b.val = 255 then
        match s with
        | [] => .error .errCorrupt
        | b1 :: s1 =>
          if s1.length < b1.val then .error .errCorrupt
          else decodeLoop codes fuel (dst ++ s1.take b1.val) (s1.drop b1.val)
      else
        match codes[b.val]? with
        | none => .error .outOfRange
        | some d => decodeLoop codes fuel (dst ++ d) s := by
  simp only [decodeLoop, sliceFrom, sliceFromTo, index]
  by_cases h254 : b.val = 254
  · simp only [h254, if_true]
    cases s with
    | nil => simp
    | cons b1 s1 => simp
  · simp only [h254, if_false]
    by_cases h255 : b.val = 255
    · simp only [h255, if_true]
      cases s with
      | nil => simp
      | cons b1 s1 =>
        by_cases hshort : s1.length < b1.val
        · have h1 : (b :: b1 :: s1).length < b1.val + 2 := by
            simp only [List.length_cons]; omega
          simp [h1, hshort]
        · have h1 : ¬ (b :: b1 :: s1).length < b1.val + 2 := by
            simp only [List.length_cons]; omega
          have h2 : b1.val + 2 ≤ (b :: b1 :: s1).length := by
            simp only [List.length_cons]; omega
          have h3 : ¬ (b :: b1 :: s1).length < 2 := by
            simp only [List.length_cons]; omega
          simp only [h1, h2, h3, hshort, if_false, if_true, List.getElem?_cons_succ,
            List.getElem?_cons_zero, le_add_iff_nonneg_left, zero_le, and_self]
          simp
    · simp only [h255, if_false]
      cases codes[b.val]? with
      | none => rfl
      | some d => simp

theorem decodeLoop_fuel (codes : List (List Byte)) :
    ∀ (fuel1 fuel2 : Nat) (dst src : List Byte), src.length ≤ fuel1 → src.length ≤ fuel2 →
      decodeLoop codes fuel1 dst src = decodeLoop codes fuel2 dst src := by
  intro fuel1
  induction fuel1 with
  | zero =>
    intro fuel2 dst src h1 _
    cases src with
    | nil => cases fuel2 <;> rfl
    | cons b s => simp at h1
  | succ fuel1 ih =>
    intro fuel2 dst src h1 h2
    cases src with
    | nil => cases fuel2 <;> rfl
    | cons b s =>
      cases fuel2 with
      | zero => simp at h2
      | succ fuel2 =>
        simp only [List.length_cons] at h1 h2
        rw [decodeLoop_step, decodeLoop_step]
        by_cases h254 : b.val = 254
        · simp only [h254, if_true]
          cases s with
          | nil => rfl
          | cons b1 s1 =>
            simp only [List.length_cons] at h1 h2
            exact ih _ _ _ (by omega) (by omega)
        · simp only [h254, if_false]
          by_cases h255 : b.val = 255
          · simp only [h255, if_true]
            cases s with
            | nil => rfl
            | cons b1 s1 =>
              simp only [List.length_cons] at h1 h2
              by_cases hshort : s1.length < b1.val
              · simp only [hshort, if_true]
              · simp only [hshort, if_false]
                exact ih _ _ _ (by simp only [List.length_drop]; omega)
                  (by simp only [List.length_drop]; omega)
          · simp only [h255, if_false]
            cases codes[b.val]? with
            | none => rfl
            | some d => exact ih _ _ _ (by omega) (by omega)

theorem dec_nil (codes : List (List Byte)) (dst : List Byte) : dec codes dst [] = .ok dst := rfl

theorem val_254 : ((254 : Byte).val) = 254 := rfl

theorem val_255 : ((255 : Byte).val) = 255 := rfl

theorem dec_254 (codes : List (List Byte)) (dst : List Byte) (b : Byte) (rest : List Byte) :
    dec codes dst (254 :: b :: rest) = dec codes (dst ++ [b]) rest := by
  simp only [dec, List.length_cons, decodeLoop_step, val_254, if_true]
  exact decodeLoop_fuel codes _ _ _ _ (by omega) (le_refl _)

theorem dec_254_trunc (codes : List (List Byte)) (dst : List Byte) :
    dec codes dst [254] = .error .errCorrupt := by
  simp only [dec, List.length_cons, List.length_nil, decodeLoop_step, val_254, if_true]

theorem dec_255_trunc (codes : List (List Byte)) (dst : List Byte) :
    dec codes dst [255] = .error .errCorrupt := by
  simp only [dec, List.length_cons, List.length_nil, decodeLoop_step, val_255]
  simp

theorem dec_255 (codes : List (List Byte)) (dst : List Byte) (n : Byte) (rest : List Byte) :
    dec codes dst (255 :: n :: rest) =
      if rest.length < n.val then .error .errCorrupt
      else dec codes (dst ++ rest.take n.val) (rest.drop n.val) := by
  simp only [dec, List.length_cons, decodeLoop_step, val_255]
  have : ¬ (255 : Nat) = 254 := by omega
  simp only [this, if_false, if_true]
  by_cases hshort : rest.length < n.val
  · simp only [hshort, if_true]
  · simp only [hshort, if_false]
    exact decodeLoop_fuel codes _ _ _ _ (by simp only [List.length_drop]; omega) (le_refl _)

theorem dec_code (codes : List (List Byte)) (dst : List Byte) (b : Byte) (rest : List Byte)
    (hb : b.val < 254) :
    dec codes dst (b :: rest) =
      match codes[b.val]? with
      | none => .error .outOfRange
      | some d => dec codes (dst ++ d) rest := by
  have h254 : ¬ b.val = 254 := by omega
  have h255 : ¬ b.val = 255 := by omega
  simp only [dec, List.length_cons, decodeLoop_step, h254, h255, if_false]

theorem dec_verbUnit (codes : List (List Byte)) (dst chunk rest : List Byte)
    (h0 : chunk ≠ []) (h : chunk.length ≤ 255) :
    dec codes dst (verbUnit chunk ++ rest) = dec codes (dst ++ chunk) rest := by
  match chunk, h0, h with
  | [], h0, _ => exact absurd rfl h0
  | [b], _, _ => simp [verbUnit, dec_254]
  | b :: c :: r, _, h =>
    simp only [verbUnit, List.cons_append, List.nil_append]
    rw [dec_255]
    have hv : (Fin.ofNat (b :: c :: r).length : Fin 256).val = (b :: c :: r).length := by
      simp only [Fin.ofNat]
      exact Nat.mod_eq_of_lt (by omega)
    rw [hv]
    have hlen : ¬ (b :: c :: (r ++ rest)).length < (b :: c :: r).length := by
      simp
    simp only [hlen, if_false]
    have h1 : List.take (b :: c :: r).length (b :: c :: (r ++ rest)) = b :: c :: r := by
      have := List.take_left (b :: c :: r) rest
      simp
    have h2 : List.drop (b :: c :: r).length (b :: c :: (r ++ rest)) = rest := by
      have := List.drop_left (b :: c :: r) rest
      simp
    rw [h1, h2]

theorem dec_verbatim (codes : List (List Byte)) :
    ∀ (n : Nat) (s dst rest : List Byte), s.length ≤ n →
      dec codes dst (verbatim s ++ rest) = dec codes (dst ++ s) rest := by
  intro n
  induction n with
  | zero =>
    intro s dst rest h
    have : s = [] := List.length_eq_zero.mp (by omega)
    subst this
    simp [verbatim_nil]
  | succ n ih =>
    intro s dst rest h
    cases s with
    | nil => simp [verbatim_nil]
    | cons b s =>
      rw [verbatim_cons, List.append_assoc, dec_verbUnit codes _ _ _ (by simp) (by simp only [List.length_take]; omega)]
      rw [ih _ _ _ (by simp only [List.length_drop, List.length_cons] at h ⊢; omega)]
      rw [List.append_assoc, List.take_append_drop]

end smaz

namespace smaz

open trie

theorem greedy_nil (f : List Byte → Option Int) (pending : List Byte) :
    greedy f pending [] = verbatim pending := by
  rw [greedy]

theorem greedy_cons (f : List Byte → Option Int) (pending : List Byte) (b : Byte)
    (r : List Byte) :
    greedy f pending (b :: r) =
      match longestFrom f [] (b :: r) with
      | none => greedy f (pending ++ [b]) r
      | some (l, v) => verbatim pending ++ [byteOfInt v] ++ greedy f [] (r.drop (l - 1)) := by
  rw [greedy]

theorem encodeStart_inv (dst src : List Byte) : EncInv (encodeStart dst src) :=
  ⟨rfl, rfl, rfl, Nat.zero_le _⟩

/-- One iteration of the loop of `Encode` succeeds, keeps the invariant,
moves towards the end of the input and keeps the output owed. -/
theorem encodeStep_spec {cdc : Codec} (hwf : WF cdc.codeTrie) {st : EncState}
    (hinv : EncInv st) (hlt : st.currPos < st.nLeft) :
    ∃ st1, encodeStep cdc st = .ok st1 ∧ EncInv st1 ∧
      st1.nLeft - st1.currPos < st.nLeft - st.currPos ∧
      owed (lookup cdc.codeTrie) st1 = owed (lookup cdc.codeTrie) st := by
  obtain ⟨htmp, hn, hpl, hle⟩ := hinv
  have hroot : reach cdc.codeTrie RootNode [] = some RootNode := rfl
  have hm := fun pl code => matchLoop_eq hwf st.tmp [] RootNode pl code hroot
  simp only [List.length_nil] at hm
  obtain ⟨b, r, hbr⟩ : ∃ b r, st.src.drop st.currPos = b :: r := by
    cases h : st.src.drop st.currPos with
    | nil =>
      have := congrArg List.length h
      simp only [List.length_drop, List.length_nil] at this
      omega
    | cons b r => exact ⟨b, r, rfl⟩
  have hlenbr : (b :: r).length = st.src.length - st.currPos := by
    rw [← hbr, List.length_drop]
  simp only [List.length_cons] at hlenbr
  cases hl : longestFrom (lookup cdc.codeTrie) [] st.tmp with
  | none =>
    refine ⟨{ st with currPos := st.currPos + 1, tmp := st.tmp.drop 1, code := st.code,
                      prefixLen := 0 }, ?_, ⟨?_, hn, rfl, ?_⟩, ?_, ?_⟩
    · have h1 : 1 ≤ st.tmp.length := by rw [htmp, hbr]; simp
      simp only [encodeStep, hm, hl, hpl, sliceFrom, h1, if_true]
    · show st.tmp.drop 1 = st.src.drop (st.currPos + 1)
      rw [htmp, List.drop_drop]
    · show st.currPos + 1 ≤ st.nLeft
      omega
    · show st.nLeft - (st.currPos + 1) < st.nLeft - st.currPos
      omega
    · show st.dst ++ greedy _ (st.src.take (st.currPos + 1)) (st.src.drop (st.currPos + 1)) =
        st.dst ++ greedy _ (st.src.take st.currPos) (st.src.drop st.currPos)
      rw [htmp, hbr] at hl
      have hd : st.src.drop (st.currPos + 1) = r := by
        rw [← List.drop_drop, hbr]
        rfl
      have ht : st.src.take (st.currPos + 1) = st.src.take st.currPos ++ [b] := by
        rw [List.take_succ]
        congr 1
        have : st.src[st.currPos]? = (st.src.drop st.currPos)[0]? := by
          rw [List.getElem?_drop]; simp
        rw [this, hbr]
        simp
      rw [hbr, greedy_cons, hl, hd, ht]
  | some lv =>
    obtain ⟨l, v⟩ := lv
    obtain ⟨j, hj1, hj2, hlj, _, _⟩ := longestFrom_some _ _ _ _ _ hl
    simp only [List.length_nil, Nat.zero_add] at hlj
    subst hlj
    have hjlen : l ≤ st.src.length - st.currPos := by
      rw [htmp, List.length_drop] at hj2
      exact hj2
    have hne : ¬ l = 0 := by omega
    have h1 : st.currPos ≤ st.src.length := by omega
    have h2 : st.currPos + l ≤ st.src.length := by omega
    refine ⟨{ dst := st.dst ++ verbatim (st.src.take st.currPos) ++ [byteOfInt v],
              src := st.src.drop (st.currPos + l), currPos := 0,
              nLeft := (st.src.drop (st.currPos + l)).length,
              tmp := st.src.drop (st.currPos + l), code := v, prefixLen := 0 },
            ?_, ⟨rfl, rfl, rfl, Nat.zero_le _⟩, ?_, ?_⟩
    · simp only [encodeStep, hm, hl, hne, if_false, sliceTo, sliceFrom, h1, h2, if_true,
        appendSrc_eq]
    · show (st.src.drop (st.currPos + l)).length - 0 < st.nLeft - st.currPos
      rw [List.length_drop]
      omega
    · show st.dst ++ verbatim (st.src.take st.currPos) ++ [byteOfInt v] ++
          greedy _ ((st.src.drop (st.currPos + l)).take 0) ((st.src.drop (st.currPos + l)).drop 0) =
        st.dst ++ greedy _ (st.src.take st.currPos) (st.src.drop st.currPos)
      rw [htmp, hbr] at hl
      have hd : st.src.drop (st.currPos + l) = r.drop (l - 1) := by
        rw [← List.drop_drop, hbr]
        have : l = (l - 1) + 1 := by omega
        rw [this, List.drop_succ_cons]
        simp
      rw [hbr, greedy_cons, hl, hd]
      simp

theorem encodeLoop_spec {cdc : Codec} (hwf : WF cdc.codeTrie) :
    ∀ (fuel : Nat) (st : EncState), EncInv st → st.nLeft - st.currPos ≤ fuel →
      ∃ st1, encodeLoop cdc fuel st = .ok st1 ∧ EncInv st1 ∧ st1.currPos = st1.nLeft ∧
        owed (lookup cdc.codeTrie) st1 = owed (lookup cdc.codeTrie) st := by
  intro fuel
  induction fuel with
  | zero =>
    intro st hinv hfuel
    have hle := hinv.currPos_le
    have hnot : ¬ st.currPos < st.nLeft := by omega
    refine ⟨st, ?_, hinv, by omega, rfl⟩
    unfold encodeLoop
    simp only [hnot, if_false]
  | succ fuel ih =>
    intro st hinv hfuel
    have hle := hinv.currPos_le
    by_cases hlt : st.currPos < st.nLeft
    · obtain ⟨st1, hs, hinv1, hdec, how⟩ := encodeStep_spec hwf hinv hlt
      obtain ⟨st2, hs2, hinv2, hend, how2⟩ := ih st1 hinv1 (by omega)
      refine ⟨st2, ?_, hinv2, hend, by rw [how2, how]⟩
      unfold encodeLoop
      simp only [hlt, if_true, hs, hs2]
    · refine ⟨st, ?_, hinv, by omega, rfl⟩
      unfold encodeLoop
      simp only [hlt, if_false]

/-- `Encode` returns the greedy encoding, whatever buffer it is given. -/
theorem Encode_eq {cdc : Codec} (hwf : WF cdc.codeTrie) (dst : Buf) (src : List Byte) :
    Encode cdc dst src = .ok (greedy (lookup cdc.codeTrie) [] src) := by
  obtain ⟨st1, hs, hinv1, hend, how⟩ :=
    encodeLoop_spec hwf src.length (encodeStart [] src) (encodeStart_inv [] src)
      (by simp [encodeStart])
  have h0 : sliceTo dst.data 0 = .ok [] := by simp [sliceTo]
  simp only [Encode, h0, hs, appendSrc_eq]
  have h1 : owed (lookup cdc.codeTrie) (encodeStart [] src) =
      greedy (lookup cdc.codeTrie) [] src := by
    simp [owed, encodeStart]
  have h2 : owed (lookup cdc.codeTrie) st1 = st1.dst ++ verbatim st1.src := by
    have hn := hinv1.nLeft_eq
    simp only [owed]
    rw [hend, hn, List.take_length, List.drop_length, greedy_nil]
  rw [← h1, ← how, h2]

theorem lookup_eq_tableMap {table : List (List Byte)} {cdc : Codec}
    (h : init table = .ok cdc) : lookup cdc.codeTrie = tableMap table :=
  funext (fun k => (init_spec h).2.2 k)

theorem isLastIndex_unique {table : List (List Byte)} {e : List Byte} {i j : Nat}
    (hi : IsLastIndex table e i) (hj : IsLastIndex table e j) : i = j := by
  rcases Nat.lt_trichotomy i j with h | h | h
  · exact absurd hj.1 (hi.2 j h)
  · exact h
  · exact absurd hi.1 (hj.2 i h)

theorem isLastIndex_lt {table : List (List Byte)} {e : List Byte} {j : Nat}
    (hj : IsLastIndex table e j) : j < table.length := by
  by_contra hge
  have hnone : table[j]? = none := List.getElem?_eq_none_iff.mpr (by omega)
  have hsome := hj.1
  rw [hnone] at hsome
  cases hsome

theorem tableMap_some {table : List (List Byte)} {k : List Byte} {v : Int}
    (h : tableMap table k = some v) : ∃ j : Nat, v = (j : Int) ∧ IsLastIndex table k j := by
  unfold tableMap at h
  cases hl : lastIdxFrom 0 table k with
  | none => simp [hl] at h
  | some j =>
    simp only [hl, Option.map_some'] at h
    have := lastIdxFrom_some table 0 k j hl
    exact ⟨j, (Option.some.inj h).symm, by simpa using this.2⟩

theorem tableMap_none {table : List (List Byte)} {k : List Byte}
    (h : tableMap table k = none) : k ∉ table := by
  unfold tableMap at h
  cases hl : lastIdxFrom 0 table k with
  | none => exact lastIdxFrom_none table 0 k hl
  | some j => simp [hl] at h

theorem tableMap_of_isLastIndex {table : List (List Byte)} {k : List Byte} {j : Nat}
    (h : IsLastIndex table k j) : tableMap table k = some (j : Int) := by
  cases hm : tableMap table k with
  | none => exact absurd (List.getElem?_mem h.1) (tableMap_none hm)
  | some v =>
    obtain ⟨j1, hv, hj1⟩ := tableMap_some hm
    rw [hv, isLastIndex_unique hj1 h]

theorem prefix_take {t : List Byte} {l : Nat} : t.take l <+: t :=
  List.take_prefix l t

/-- The longest match found by the scan is the longest matching entry. -/
theorem longestFrom_of_isLongestMatch {table : List (List Byte)} {t e : List Byte} {j : Nat}
    (hm : IsLongestMatch table t e) (hj : IsLastIndex table e j) :
    longestFrom (tableMap table) [] t = some (e.length, (j : Int)) := by
  obtain ⟨⟨hmem, hne, hpre⟩, hmax⟩ := hm
  have he : e = t.take e.length := List.prefix_iff_eq_take.mp hpre
  have hlen : e.length ≤ t.length := hpre.length_le
  have hpos : 1 ≤ e.length := by
    have := List.length_pos.mpr hne
    omega
  have hfe : tableMap table (t.take e.length) = some (j : Int) := by
    rw [← he]; exact tableMap_of_isLastIndex hj
  cases hl : longestFrom (tableMap table) [] t with
  | none =>
    have := longestFrom_none _ _ _ hl e.length hpos hlen
    simp only [List.nil_append] at this
    rw [hfe] at this
    cases this
  | some lv =>
    obtain ⟨l, v⟩ := lv
    obtain ⟨i, hi1, hi2, hli, hfi, hrest⟩ := longestFrom_some _ _ _ _ _ hl
    simp only [List.length_nil, Nat.zero_add] at hli
    subst hli
    simp only [List.nil_append] at hfi hrest
    obtain ⟨j1, hv, hj1⟩ := tableMap_some hfi
    have hmatch : IsMatch table t (t.take l) := by
      refine ⟨List.getElem?_mem hj1.1, ?_, prefix_take⟩
      intro h0
      have := congrArg List.length h0
      simp only [List.length_take, List.length_nil] at this
      omega
    have hle := hmax _ hmatch
    simp only [List.length_take] at hle
    have hl_eq : l = e.length := by
      by_contra hne1
      have hlt : l < e.length := by omega
      have := hrest e.length hlt hlen
      rw [hfe] at this
      cases this
    subst hl_eq
    rw [hfi] at hfe
    rw [Option.some.inj hfe]

theorem longestFrom_of_noMatch {table : List (List Byte)} {t : List Byte}
    (h : NoMatch table t) : longestFrom (tableMap table) [] t = none := by
  cases hl : longestFrom (tableMap table) [] t with
  | none => rfl
  | some lv =>
    obtain ⟨l, v⟩ := lv
    obtain ⟨i, hi1, hi2, hli, hfi, _⟩ := longestFrom_some _ _ _ _ _ hl
    simp only [List.nil_append] at hfi
    obtain ⟨j1, _, hj1⟩ := tableMap_some hfi
    exfalso
    refine h _ (List.getElem?_mem hj1.1) ?_ prefix_take
    intro h0
    have := congrArg List.length h0
    simp only [List.length_take, List.length_nil] at this
    omega

/-- Positions that start no match are moved to the pending verbatim span. -/
theorem greedy_skip (table : List (List Byte)) :
    ∀ (p : Nat) (s pending : List Byte), p ≤ s.length →
      (∀ q, q < p → NoMatch table (s.drop q)) →
      greedy (tableMap table) pending s =
        greedy (tableMap table) (pending ++ s.take p) (s.drop p) := by
  intro p
  induction p with
  | zero => intro s pending _ _; simp
  | succ p ih =>
    intro s pending hp hno
    cases s with
    | nil => simp at hp
    | cons b r =>
      have h0 := hno 0 (by omega)
      simp only [List.drop_zero] at h0
      rw [greedy_cons, longestFrom_of_noMatch h0]
      simp only [List.length_cons] at hp
      rw [ih r (pending ++ [b]) (by omega) (fun q hq => by
        have := hno (q + 1) (by omega)
        simpa using this)]
      simp

theorem greedy_noMatch (table : List (List Byte)) (s : List Byte)
    (hno : ∀ p, p < s.length → NoMatch table (s.drop p)) :
    greedy (tableMap table) [] s = verbatim s := by
  rw [greedy_skip table s.length s [] (le_refl _) hno]
  simp [greedy_nil]

theorem greedy_match (table : List (List Byte)) (s : List Byte) (p : Nat) (e : List Byte)
    (j : Nat) (hno : ∀ q, q < p → NoMatch table (s.drop q))
    (hm : IsLongestMatch table (s.drop p) e) (hj : IsLastIndex table e j) :
    greedy (tableMap table) [] s =
      verbatim (s.take p) ++ [byteOfInt (j : Int)] ++
        greedy (tableMap table) [] (s.drop (p + e.length)) := by
  have hpre := hm.1.2.2
  have hne := hm.1.2.1
  have hpos : 1 ≤ e.length := by
    have := List.length_pos.mpr hne
    omega
  have hlen : e.length ≤ (s.drop p).length := hpre.length_le
  simp only [List.length_drop] at hlen
  rw [greedy_skip table p s [] (by omega) hno]
  cases hd : s.drop p with
  | nil =>
    have := congrArg List.length hd
    simp only [List.length_drop, List.length_nil] at this
    omega
  | cons b r =>
    rw [greedy_cons, ← hd, longestFrom_of_isLongestMatch hm hj]
    simp only [List.nil_append]
    have hdd : s.drop (p + e.length) = r.drop (e.length - 1) := by
      rw [← List.drop_drop, hd]
      have : e.length = (e.length - 1) + 1 := by omega
      rw [this, List.drop_succ_cons]
      simp
    rw [hdd]

/-- Decoding the greedy encoding gives back the pending span and the input. -/
theorem dec_greedy {table : List (List Byte)} (hlen : table.length ≤ 254) :
    ∀ (n : Nat) (rest pending dst : List Byte), rest.length ≤ n →
      dec table dst (greedy (tableMap table) pending rest) = .ok (dst ++ pending ++ rest) := by
  intro n
  induction n with
  | zero =>
    intro rest pending dst h
    have : rest = [] := List.length_eq_zero.mp (by omega)
    subst this
    rw [greedy_nil]
    have := dec_verbatim table pending.length pending dst [] (le_refl _)
    simp only [List.append_nil] at this
    rw [this, dec_nil]
    simp
  | succ n ih =>
    intro rest pending dst h
    cases rest with
    | nil =>
      rw [greedy_nil]
      have := dec_verbatim table pending.length pending dst [] (le_refl _)
      simp only [List.append_nil] at this
      rw [this, dec_nil]
      simp
    | cons b r =>
      simp only [List.length_cons] at h
      rw [greedy_cons]
      cases hl : longestFrom (tableMap table) [] (b :: r) with
      | none =>
        simp only []
        rw [ih r (pending ++ [b]) dst (by omega)]
        simp
      | some lv =>
        obtain ⟨l, v⟩ := lv
        simp only []
        obtain ⟨i, hi1, hi2, hli, hfi, _⟩ := longestFrom_some _ _ _ _ _ hl
        simp only [List.length_nil, Nat.zero_add] at hli
        subst hli
        simp only [List.nil_append] at hfi
        obtain ⟨j, hv, hj⟩ := tableMap_some hfi
        have hjlt := isLastIndex_lt hj
        subst hv
        rw [List.append_assoc, dec_verbatim table pending.length pending dst _ (le_refl _)]
        have hval : (byteOfInt (j : Int)).val = j := by
          rw [byteOfInt_natCast]
          simp only [Fin.ofNat]
          exact Nat.mod_eq_of_lt (by omega)
        simp only [List.singleton_append]
        rw [dec_code table _ _ _ (by rw [hval]; omega), hval, hj.1]
        simp only []
        simp only [List.length_cons] at hi2
        rw [ih _ [] _ (by simp only [List.length_drop]; omega)]
        have hdd : List.drop (l - 1) r = List.drop l (b :: r) := by
          have : l = (l - 1) + 1 := by omega
          rw [this, List.drop_succ_cons]
          simp
        rw [hdd]
        simp only [List.append_nil, List.append_assoc, List.take_append_drop]

theorem Decode_nil (cdc : Codec) (src : List Byte) :
    Decode cdc Buf.nil src = dec cdc.codes [] src := by
  simp [Decode, dec, Buf.nil]

theorem testCodec_init : init testTable = .ok testCodec := by
  obtain ⟨c, hc⟩ := init_ok testTable (by decide)
  unfold testCodec
  rw [hc]

set_option maxRecDepth 100000 in
theorem codeStrings_length : codeStrings.length = 254 := by
  decide

set_option maxRecDepth 100000 in
theorem codeStrings_init : ∃ cdc, init codeStrings = .ok cdc :=
  init_ok codeStrings (by decide)

/-- Round trip for a codec built by `init` from a table of at most 254
entries. -/
theorem roundtrip_of_init {table : List (List Byte)} {cdc : Codec}
    (hlen : table.length ≤ 254) (hinit : init table = .ok cdc) (s : List Byte) :
    ∃ e, Encode cdc Buf.nil s = .ok e ∧ Decode cdc Buf.nil e = .ok s := by
  obtain ⟨hcodes, hwf, _⟩ := init_spec hinit
  refine ⟨_, Encode_eq hwf Buf.nil s, ?_⟩
  rw [Decode_nil, hcodes, lookup_eq_tableMap hinit, dec_greedy hlen s.length s [] [] (le_refl _)]
  simp

theorem dec_of_truncated {codes : List (List Byte)} (h254 : 254 ≤ codes.length)
    {c : List Byte} (ht : Truncated c) : ∀ dst, dec codes dst c = .error .errCorrupt := by
  induction ht with
  | byteMissing => intro dst; exact dec_254_trunc codes dst
  | lengthMissing => intro dst; exact dec_255_trunc codes dst
  | literalShort n rest h =>
    intro dst
    rw [dec_255]
    simp [h]
  | afterByte b rest _ ih =>
    intro dst
    rw [dec_254]
    exact ih _
  | afterRun n rest h _ ih =>
    intro dst
    rw [dec_255]
    have : ¬ rest.length < n.val := by omega
    simp only [this, if_false]
    exact ih _
  | afterCode v rest hv _ ih =>
    intro dst
    rw [dec_code codes dst v rest hv]
    cases hc : codes[v.val]? with
    | none =>
      rw [List.getElem?_eq_none_iff] at hc
      omega
    | some d => exact ih _

theorem dec_ok_or_truncated {codes : List (List Byte)} (h254 : 254 ≤ codes.length) :
    ∀ (n : Nat) (c dst : List Byte), c.length ≤ n →
      (∃ out, dec codes dst c = .ok out) ∨ Truncated c := by
  intro n
  induction n with
  | zero =>
    intro c dst h
    have : c = [] := List.length_eq_zero.mp (by omega)
    subst this
    exact Or.inl ⟨dst, rfl⟩
  | succ n ih =>
    intro c dst h
    cases c with
    | nil => exact Or.inl ⟨dst, rfl⟩
    | cons b s =>
      simp only [List.length_cons] at h
      by_cases h254b : b.val = 254
      · have hb : b = 254 := Fin.ext h254b
        subst hb
        cases s with
        | nil => exact Or.inr Truncated.byteMissing
        | cons b1 s1 =>
          simp only [List.length_cons] at h
          rcases ih s1 (dst ++ [b1]) (by omega) with hok | ht
          · left; rw [dec_254]; exact hok
          · right; exact Truncated.afterByte b1 s1 ht
      · by_cases h255b : b.val = 255
        · have hb : b = 255 := Fin.ext h255b
          subst hb
          cases s with
          | nil => exact Or.inr Truncated.lengthMissing
          | cons b1 s1 =>
            simp only [List.length_cons] at h
            by_cases hshort : s1.length < b1.val
            · exact Or.inr (Truncated.literalShort b1 s1 hshort)
            · rcases ih (s1.drop b1.val) (dst ++ s1.take b1.val)
                (by simp only [List.length_drop]; omega) with hok | ht
              · left
                rw [dec_255]
                simp only [hshort, if_false]
                exact hok
              · right
                exact Truncated.afterRun b1 s1 (by omega) ht
        · have hv : b.val < 254 := by omega
          cases hc : codes[b.val]? with
          | none =>
            rw [List.getElem?_eq_none_iff] at hc
            omega
          | some d =>
            rcases ih s (dst ++ d) (by omega) with hok | ht
            · left
              rw [dec_code codes dst b s hv, hc]
              exact hok
            · right
              exact Truncated.afterCode b s hv ht

/-- C1. Round trip on the default codec: `init` builds a codec from the
built-in table, which has 254 entries, and for every byte sequence `s`
(empty, all byte values, long runs of one byte included) `Encode(nil, s)`
returns an output on which `Decode(nil, _)` returns `s` with no error. -/
theorem roundtrip_default :
    codeStrings.length = 254 ∧
      ∃ cdc, init codeStrings = .ok cdc ∧
        ∀ s : List Byte, ∃ e, Encode cdc Buf.nil s = .ok e ∧ Decode cdc Buf.nil e = .ok s := by
  refine ⟨codeStrings_length, ?_⟩
  obtain ⟨cdc, hinit⟩ := codeStrings_init
  exact ⟨cdc, hinit, fun s => roundtrip_of_init (by rw [codeStrings_length]) hinit s⟩

/-- C2. Round trip on a custom table: for every table of at most 254 byte
strings (in any order, duplicates and empty strings allowed), every codec
that `init` builds from it and every byte sequence `s`, `Encode(nil, s)`
returns an output on which `Decode(nil, _)` returns `s` with no error. -/
theorem roundtrip_custom (table : List (List Byte)) (cdc : Codec) (s : List Byte)
    (hlen : table.length ≤ 254) (hinit : init table = .ok cdc) :
    ∃ e, Encode cdc Buf.nil s = .ok e ∧ Decode cdc Buf.nil e = .ok s :=
  roundtrip_of_init hlen hinit s

/-- Witness of C2 on the table of the tests and the input `http://google.com`. -/
theorem roundtrip_custom_witness :
    testTable.length ≤ 254 ∧ init testTable = .ok testCodec ∧
      ∃ e, Encode testCodec Buf.nil (bytesOf "http://google.com") = .ok e ∧
        Decode testCodec Buf.nil e = .ok (bytesOf "http://google.com") :=
  ⟨by decide, testCodec_init,
    roundtrip_custom testTable testCodec (bytesOf "http://google.com") (by decide)
      testCodec_init⟩

/-- C3. With the default table, `Decode(nil, c)` returns `ErrCorrupt` exactly
on the truncated streams, and returns a result with no error (hence no panic
from an index past the end of the input or of the table) on every other
stream; `[255, 5, 1, 2]` and `[254]` are rejected. -/
theorem Decode_corrupt_iff_truncated :
    ∃ cdc, init codeStrings = .ok cdc ∧
      (∀ c : List Byte, (Decode cdc Buf.nil c = .error .errCorrupt ↔ Truncated c) ∧
        (¬ Truncated c → ∃ out, Decode cdc Buf.nil c = .ok out)) ∧
      Decode cdc Buf.nil [255, 5, 1, 2] = .error .errCorrupt ∧
      Decode cdc Buf.nil [254] = .error .errCorrupt := by
  obtain ⟨cdc, hinit⟩ := codeStrings_init
  have hcodes := (init_spec hinit).1
  have h254 : 254 ≤ cdc.codes.length := by rw [hcodes, codeStrings_length]
  refine ⟨cdc, hinit, ?_, ?_, ?_⟩
  · intro c
    rw [Decode_nil]
    refine ⟨⟨?_, fun ht => dec_of_truncated h254 ht []⟩, ?_⟩
    · intro herr
      rcases dec_ok_or_truncated h254 c.length c [] (le_refl _) with ⟨out, hok⟩ | ht
      · rw [hok] at herr
        cases herr
      · exact ht
    · intro hnt
      rcases dec_ok_or_truncated h254 c.length c [] (le_refl _) with hok | ht
      · exact hok
      · exact absurd ht hnt
  · rw [Decode_nil]
    exact dec_of_truncated h254 (Truncated.literalShort 5 [1, 2] (by decide)) []
  · rw [Decode_nil]
    exact dec_of_truncated h254 Truncated.byteMissing []

theorem chunks255_spec : ∀ (n : Nat) (s : List Byte), s.length ≤ n →
    (chunks255 s).flatten = s ∧ (∀ c ∈ chunks255 s, 1 ≤ c.length ∧ c.length ≤ 255) ∧
      ∀ i, i + 1 < (chunks255 s).length → (chunks255 s)[i]?.map List.length = some 255 := by
  intro n
  induction n with
  | zero =>
    intro s h
    have : s = [] := List.length_eq_zero.mp (by omega)
    subst this
    simp [chunks255_nil]
  | succ n ih =>
    intro s h
    cases s with
    | nil => simp [chunks255_nil]
    | cons b r =>
      simp only [List.length_cons] at h
      have hd : (List.drop 255 (b :: r)).length ≤ n := by
        simp only [List.length_drop, List.length_cons]; omega
      obtain ⟨h1, h2, h3⟩ := ih _ hd
      rw [chunks255_cons]
      refine ⟨?_, ?_, ?_⟩
      · rw [List.flatten_cons, h1, List.take_append_drop]
      · intro c hc
        rcases List.mem_cons.mp hc with hc | hc
        · subst hc
          simp only [List.length_take, List.length_cons]
          omega
        · exact h2 c hc
      · intro i hi
        cases i with
        | zero =>
          simp only [List.length_cons] at hi
          have hne : chunks255 (List.drop 255 (b :: r)) ≠ [] := by
            intro h0
            rw [h0] at hi
            simp at hi
          have hdne : List.drop 255 (b :: r) ≠ [] := by
            intro h0
            rw [h0, chunks255_nil] at hne
            exact hne rfl
          have hlen : 0 < (List.drop 255 (b :: r)).length := List.length_pos.mpr hdne
          simp only [List.length_drop, List.length_cons] at hlen
          simp only [List.getElem?_cons_zero, Option.map_some', List.length_take,
            List.length_cons]
          congr 1
          omega
        | succ i =>
          simp only [List.length_cons] at hi
          simp only [List.getElem?_cons_succ]
          exact h3 i (by omega)

theorem reachable_inv {cdc : Codec} (hwf : WF cdc.codeTrie) {src : List Byte} {st : EncState}
    (h : Reachable cdc src st) : EncInv st := by
  induction h with
  | start dst => exact encodeStart_inv dst src
  | step _ hlt hstep ih =>
    obtain ⟨st2, hs2, hinv2, _, _⟩ := encodeStep_spec hwf ih hlt
    rw [hstep] at hs2
    rw [Except.ok.inj hs2]
    exact hinv2

/-- C5. `Encode` is the greedy longest-match encoder: for a codec built from
a table of at most 254 entries, its output on an input no position of which
starts a match is the verbatim form of the input; and otherwise, with `p`
the first position that starts a match, `e` the longest non-empty entry that
is a prefix of the input from `p` on and `j` the index stored for `e`, the
output is the verbatim form of the first `p` bytes, then the byte `j`, then
the output on the input after the `p + len(e)` first bytes. -/
theorem Encode_greedy_longest_match (table : List (List Byte)) (cdc : Codec)
    (hlen : table.length ≤ 254) (hinit : init table = .ok cdc) :
    ∃ enc : List Byte → List Byte,
      (∀ s, Encode cdc Buf.nil s = .ok (enc s)) ∧
      (∀ s, (∀ p, p < s.length → NoMatch table (s.drop p)) → enc s = verbatim s) ∧
      (∀ s p e j, (∀ q, q < p → NoMatch table (s.drop q)) →
        IsLongestMatch table (s.drop p) e → IsLastIndex table e j →
        j < 254 ∧
          enc s = verbatim (s.take p) ++ [(Fin.ofNat j : Byte)] ++ enc (s.drop (p + e.length))) := by
  obtain ⟨_, hwf, _⟩ := init_spec hinit
  refine ⟨greedy (tableMap table) [], ?_, ?_, ?_⟩
  · intro s
    rw [Encode_eq hwf Buf.nil s, lookup_eq_tableMap hinit]
  · intro s hno
    exact greedy_noMatch table s hno
  · intro s p e j hno hm hj
    have hjlt := isLastIndex_lt hj
    refine ⟨by omega, ?_⟩
    rw [greedy_match table s p e j hno hm hj, byteOfInt_natCast]

/-- Witness of C5 on the table of the tests, with the output of `Encode` on
`http://google.com`. -/
theorem Encode_greedy_longest_match_witness :
    testTable.length ≤ 254 ∧ init testTable = .ok testCodec ∧
      (∃ enc : List Byte → List Byte,
        (∀ s, Encode testCodec Buf.nil s = .ok (enc s)) ∧
        (∀ s, (∀ p, p < s.length → NoMatch testTable (s.drop p)) → enc s = verbatim s) ∧
        (∀ s p e j, (∀ q, q < p → NoMatch testTable (s.drop q)) →
          IsLongestMatch testTable (s.drop p) e → IsLastIndex testTable e j →
          j < 254 ∧
            enc s = verbatim (s.take p) ++ [(Fin.ofNat j : Byte)] ++
              enc (s.drop (p + e.length)))) ∧
      Encode testCodec Buf.nil (bytesOf "http://google.com") =
        .ok [0, 255, 6, 103, 111, 111, 103, 108, 101, 2] :=
  ⟨by decide, testCodec_init,
    Encode_greedy_longest_match testTable testCodec (by decide) testCodec_init, by decide!⟩

/-- C6. Dictionary substitution: for a codec built from a table of at most
254 pairwise distinct non-empty entries, the encoding of the input that is
exactly entry `i` is the one byte `i`. -/
theorem Encode_table_entry (table : List (List Byte)) (cdc : Codec) (i : Nat) (e : List Byte)
    (hlen : table.length ≤ 254) (hinit : init table = .ok cdc) (hnodup : table.Nodup)
    (hne : ∀ x ∈ table, x ≠ []) (hi : table[i]? = some e) :
    ∃ b : Byte, b.val = i ∧ Encode cdc Buf.nil e = .ok [b] := by
  obtain ⟨_, hwf, _⟩ := init_spec hinit
  have hmem : e ∈ table := List.getElem?_mem hi
  have hilt : i < table.length := by
    by_contra hge
    have hnone : table[i]? = none := List.getElem?_eq_none_iff.mpr (by omega)
    rw [hnone] at hi
    cases hi
  have hlast : IsLastIndex table e i := by
    refine ⟨hi, ?_⟩
    intro j hj hje
    by_cases hjlt : j < table.length
    · exact (List.nodup_iff_getElem?_ne_getElem?.mp hnodup i j hj hjlt) (by rw [hi, hje])
    · have hnone : table[j]? = none := List.getElem?_eq_none_iff.mpr (by omega)
      rw [hnone] at hje
      cases hje
  have hlong : IsLongestMatch table (e.drop 0) e := by
    refine ⟨⟨hmem, hne e hmem, by simp⟩, ?_⟩
    intro e1 h1
    have := h1.2.2.length_le
    simpa using this
  refine ⟨Fin.ofNat i, ?_, ?_⟩
  · simp only [Fin.ofNat]
    exact Nat.mod_eq_of_lt (by omega)
  · rw [Encode_eq hwf Buf.nil e, lookup_eq_tableMap hinit,
      greedy_match table e 0 e i (fun q hq => absurd hq (Nat.not_lt_zero q)) hlong hlast,
      byteOfInt_natCast]
    simp [verbatim_nil, greedy_nil]

/-- Witness of C6 on the table of the tests and its entry `is`, of index 1. -/
theorem Encode_table_entry_witness :
    testTable.length ≤ 254 ∧ init testTable = .ok testCodec ∧ testTable.Nodup ∧
      (∀ x ∈ testTable, x ≠ []) ∧ testTable[1]? = some (bytesOf "is") ∧
      ∃ b : Byte, b.val = 1 ∧ Encode testCodec Buf.nil (bytesOf "is") = .ok [b] :=
  ⟨by decide, testCodec_init, by decide, by decide, by decide,
    Encode_table_entry testTable testCodec 1 (bytesOf "is") (by decide) testCodec_init
      (by decide) (by decide) (by decide)⟩

/-- C7. Verbatim wire format: on an input `s` no position of which starts a
dictionary match, the output of `Encode` is the concatenation of the wire
forms of the chunks of `s`, where the chunks are non-empty, concatenate to
`s`, have 255 bytes each except possibly the last, and the wire form of a
chunk is `[254, b]` for a one-byte chunk `[b]` and `[255, N] ++ chunk` for a
chunk of `N ≥ 2` bytes. Hence one byte `b` gives `[254, b]`, 255 bytes give
`[255, 255]` and the bytes, and 256 bytes give that block for the first 255
and `[254, last byte]`. -/
theorem Encode_verbatim_format (table : List (List Byte)) (cdc : Codec) (s : List Byte)
    (hinit : init table = .ok cdc) (hno : ∀ p, p < s.length → NoMatch table (s.drop p)) :
    Encode cdc Buf.nil s = .ok ((chunks255 s).map verbUnit).flatten ∧
      ((chunks255 s).flatten = s ∧ (∀ c ∈ chunks255 s, 1 ≤ c.length ∧ c.length ≤ 255) ∧
        ∀ i, i + 1 < (chunks255 s).length → (chunks255 s)[i]?.map List.length = some 255) ∧
      (∀ b c : Byte, ∀ r : List Byte, verbUnit [b] = [254, b] ∧
        verbUnit (b :: c :: r) = [255, Fin.ofNat (r.length + 2)] ++ (b :: c :: r)) ∧
      (∀ b, s = [b] → Encode cdc Buf.nil s = .ok [254, b]) ∧
      (s.length = 255 → Encode cdc Buf.nil s = .ok ([255, 255] ++ s)) ∧
      (s.length = 256 →
        Encode cdc Buf.nil s = .ok ([255, 255] ++ s.take 255 ++ [254] ++ s.drop 255)) := by
  obtain ⟨_, hwf, _⟩ := init_spec hinit
  have henc : Encode cdc Buf.nil s = .ok (verbatim s) := by
    rw [Encode_eq hwf Buf.nil s, lookup_eq_tableMap hinit, greedy_noMatch table s hno]
  refine ⟨henc, chunks255_spec s.length s (le_refl _), ?_, ?_, ?_, ?_⟩
  · intro b c r
    exact ⟨rfl, rfl⟩
  · intro b hb
    rw [henc, hb, verbatim_short (by simp) (by simp)]
    rfl
  · intro h255
    have hne : s ≠ [] := by
      intro h0
      rw [h0] at h255
      simp at h255
    rw [henc, verbatim_short hne (by omega)]
    match s, h255 with
    | [], h => simp at h
    | [b], h => simp at h
    | b :: c :: r, h =>
      simp only [verbUnit, h]
      rfl
  · intro h256
    rw [henc, verbatim_long (by omega)]
    have ht : (s.take 255).length = 255 := by
      rw [List.length_take]; omega
    have hd : (s.drop 255).length = 1 := by
      rw [List.length_drop]; omega
    have hv1 : verbUnit (s.take 255) = [255, 255] ++ s.take 255 := by
      match hm : s.take 255, ht with
      | [], h => simp at h
      | [b], h => simp at h
      | b :: c :: r, h =>
        simp only [verbUnit, h]
        rfl
    have hv2 : verbatim (s.drop 255) = [254] ++ s.drop 255 := by
      match hm : s.drop 255, hd with
      | [], h => simp at h
      | [b], _ =>
        rw [verbatim_short (by simp) (by simp)]
        rfl
      | b :: c :: r, h => simp at h
    rw [hv1, hv2]
    simp

/-- Witness of C7 on the table of the tests and the input `google`. -/
theorem Encode_verbatim_format_witness :
    init testTable = .ok testCodec ∧
      (∀ p, p < (bytesOf "google").length → NoMatch testTable ((bytesOf "google").drop p)) ∧
      Encode testCodec Buf.nil (bytesOf "google") =
        .ok ((chunks255 (bytesOf "google")).map verbUnit).flatten :=
  ⟨testCodec_init, by decide,
    (Encode_verbatim_format testTable testCodec (bytesOf "google") testCodec_init
      (by decide)).1⟩

/-- C8. `Encode` has no error path: for every codec built by `init`, every
buffer and every input, `Encode` returns an output (no panic of `Val`, no
slice out of bounds, and the loop ends within `len(src)` iterations); and in
every state that the loop reaches, the next iteration succeeds and strictly
reduces `nLeft - currPos`, the number of bytes not yet scanned. -/
theorem Encode_total (table : List (List Byte)) (cdc : Codec) (dst : Buf) (src : List Byte)
    (hinit : init table = .ok cdc) :
    (∃ out, Encode cdc dst src = .ok out) ∧
      ∀ st, Reachable cdc src st → st.currPos < st.nLeft →
        ∃ st1, encodeStep cdc st = .ok st1 ∧
          st1.nLeft - st1.currPos < st.nLeft - st.currPos := by
  obtain ⟨_, hwf, _⟩ := init_spec hinit
  refine ⟨⟨_, Encode_eq hwf dst src⟩, ?_⟩
  intro st hr hlt
  obtain ⟨st1, hs, _, hdec, _⟩ := encodeStep_spec hwf (reachable_inv hwf hr) hlt
  exact ⟨st1, hs, hdec⟩

/-- Witness of C8 on the table of the tests, a buffer that holds two bytes
and the input `http://google.com`. -/
theorem Encode_total_witness :
    init testTable = .ok testCodec ∧
      ∃ out, Encode testCodec ⟨[7, 7], 2⟩ (bytesOf "http://google.com") = .ok out :=
  ⟨testCodec_init,
    (Encode_total testTable testCodec ⟨[7, 7], 2⟩ (bytesOf "http://google.com")
      testCodec_init).1⟩

/-- C9. `Decode` does not reset the buffer it is given: with a buffer that
holds the two bytes `[7, 7]` and has capacity 2, decoding `[254, 65]` returns
`[7, 7, 65]`, while `Decode(nil, [254, 65])` returns `[65]`. -/
theorem Decode_keeps_buffer_bytes :
    Decode testCodec ⟨[7, 7], 2⟩ [254, 65] = .ok [7, 7, 65] ∧
      Decode testCodec Buf.nil [254, 65] = .ok [65] :=
  ⟨by decide, by decide⟩

/-- In the embedding on byte sequences, where a buffer is a value, `Encode`
does not depend on the buffer it is given. -/
theorem Encode_buf_irrelevant (cdc : Codec) (src : List Byte) (dst1 dst2 : Buf) :
    Encode cdc dst1 src = Encode cdc dst2 src := by
  have h : ∀ d : Buf, sliceTo d.data 0 = .ok [] := by
    intro d
    simp [sliceTo]
  simp only [Encode, h]

end smaz

namespace trie

theorem getLoop_eq {t : Trie} (hwf : WF t) :
    ∀ (k p : List Byte) (n : Nat), reach t RootNode p = some n →
      getLoop t n k = .ok (reach t n k) := by
  obtain ⟨key, hinv⟩ := hwf
  intro k
  induction k with
  | nil => intro p n _; rfl
  | cons c k ih =>
    intro p n hp
    obtain ⟨h1, hlt, _⟩ := reach_root hinv hp
    obtain ⟨nd, hnd⟩ : ∃ nd, t.nodes[n]? = some nd := by
      cases h : t.nodes[n]? with
      | none => rw [List.getElem?_eq_none_iff] at h; omega
      | some nd => exact ⟨nd, rfl⟩
    by_cases hb : nd.branches c = 0
    · simp only [getLoop, Walk, index_eq_ok hnd, hb, NilNode, if_true, reach, hnd]
    · have hr : reach t RootNode (p ++ [c]) = some (nd.branches c) := by
        rw [reach_append, hp]
        simp [Option.bind, reach, hnd, hb]
      simp only [getLoop, Walk, index_eq_ok hnd, hb, NilNode, if_false, reach, hnd]
      exact ih (p ++ [c]) (nd.branches c) hr

/-- `Get` returns the value that the trie holds for the key. -/
theorem Get_eq_lookup {t : Trie} (hwf : WF t) (k : List Byte) : Get t k = .ok (lookup t k) := by
  have hroot : reach t RootNode [] = some RootNode := rfl
  have hg := getLoop_eq hwf k [] RootNode hroot
  simp only [Get, hg, lookup]
  cases hr : reach t RootNode k with
  | none => rfl
  | some n =>
    obtain ⟨key, hinv⟩ := hwf
    obtain ⟨_, hlt, _⟩ := reach_root hinv hr
    obtain ⟨nd, hnd⟩ : ∃ nd, t.nodes[n]? = some nd := by
      cases h : t.nodes[n]? with
      | none => rw [List.getElem?_eq_none_iff] at h; omega
      | some nd => exact ⟨nd, rfl⟩
    simp only [index_eq_ok hnd, hnd]
    cases nd.terminal <;> rfl

theorem putAll_spec : ∀ (ops : List (List Byte × Int)) {t : Trie}, WF t →
    (∃ t1, putAll t ops = .ok t1 ∧ WF t1 ∧
        (∀ k, lookup t1 k =
          match lastVal ops k with
          | some v => some v
          | none => lookup t k) ∧
        t1.nodes.length ≤ t.nodes.length + keyBytes ops) ∨
      (putAll t ops = .error .tooManyNodes ∧ maxNodeId < t.nodes.length + keyBytes ops) := by
  intro ops
  induction ops with
  | nil =>
    intro t hwf
    left
    exact ⟨t, rfl, hwf, fun k => by simp [lastVal], by simp [keyBytes]⟩
  | cons op ops ih =>
    intro t hwf
    obtain ⟨k0, v0⟩ := op
    have htot : keyBytes ((k0, v0) :: ops) = k0.length + keyBytes ops := by
      simp [keyBytes]
    rcases Put_spec hwf k0 v0 with ⟨t1, fresh, hs, hwf1, hk, hother, _, hlen⟩ | ⟨hs, hbig⟩
    · rcases ih hwf1 with ⟨t2, hs2, hwf2, hl2, hlen2⟩ | ⟨hs2, hbig2⟩
      · left
        refine ⟨t2, ?_, hwf2, ?_, by omega⟩
        · simp only [putAll, hs, hs2]
        · intro k
          rw [hl2]
          simp only [lastVal]
          cases hr : lastVal ops k with
          | some v => rfl
          | none =>
            by_cases hek : k0 = k
            · subst hek; simp [hk]
            · simp only [hek, if_false]
              exact hother k (fun h => hek h.symm)
      · right
        refine ⟨?_, by omega⟩
        simp only [putAll, hs, hs2]
    · right
      refine ⟨?_, by omega⟩
      simp only [putAll, hs]

theorem lastVal_none_of_absent : ∀ (ops : List (List Byte × Int)) (k : List Byte),
    (∀ v, (k, v) ∉ ops) → lastVal ops k = none := by
  intro ops
  induction ops with
  | nil => intro k _; rfl
  | cons op ops ih =>
    intro k h
    obtain ⟨k0, v0⟩ := op
    simp only [lastVal]
    rw [ih k (fun v hv => h v (List.mem_cons_of_mem _ hv))]
    have hne : ¬ k0 = k := by
      intro hk
      subst hk
      exact h v0 (List.mem_cons_self _ _)
    simp [hne]

theorem lastVal_some_isLastPut : ∀ (ops : List (List Byte × Int)) (k : List Byte) (v : Int),
    lastVal ops k = some v → IsLastPut ops k v := by
  intro ops
  induction ops with
  | nil => intro k v h; simp [lastVal] at h
  | cons op ops ih =>
    intro k v h
    obtain ⟨k0, v0⟩ := op
    simp only [lastVal] at h
    cases hr : lastVal ops k with
    | some v1 =>
      simp only [hr] at h
      have h := Option.some.inj h
      subst h
      obtain ⟨j, hj, hmax⟩ := ih k v1 hr
      refine ⟨j + 1, by simpa using hj, ?_⟩
      intro j1 v2 hlt h1
      have hj1 : j1 = (j1 - 1) + 1 := by omega
      rw [hj1] at h1
      simp only [List.getElem?_cons_succ] at h1
      exact hmax (j1 - 1) v2 (by omega) h1
    | none =>
      simp only [hr] at h
      by_cases hk : k0 = k
      · simp only [hk, if_true] at h
        have h := Option.some.inj h
        subst h
        subst hk
        refine ⟨0, by simp, ?_⟩
        intro j1 v2 hlt h1
        have hj1 : j1 = (j1 - 1) + 1 := by omega
        rw [hj1] at h1
        simp only [List.getElem?_cons_succ] at h1
        have hmem : (k0, v2) ∈ ops := List.getElem?_mem h1
        have : lastVal ops k0 ≠ none := by
          clear ih hr h1 hlt hj1
          induction ops with
          | nil => simp at hmem
          | cons op1 l ih1 =>
            obtain ⟨k1, w1⟩ := op1
            simp only [lastVal]
            cases hr1 : lastVal l k0 with
            | some w2 => simp
            | none =>
              rcases List.mem_cons.mp hmem with h2 | h2
              · simp only [Prod.mk.injEq] at h2
                simp [h2.1]
              · exact absurd hr1 (ih1 h2)
        exact this hr
      · simp [hk] at h

theorem lastVal_of_isLastPut : ∀ (ops : List (List Byte × Int)) (k : List Byte) (v : Int),
    IsLastPut ops k v → lastVal ops k = some v := by
  intro ops
  induction ops with
  | nil =>
    intro k v h
    obtain ⟨j, hj, _⟩ := h
    simp at hj
  | cons op ops ih =>
    intro k v h
    obtain ⟨k0, v0⟩ := op
    obtain ⟨j, hj, hmax⟩ := h
    simp only [lastVal]
    cases j with
    | zero =>
      simp only [List.getElem?_cons_zero, Option.some.injEq, Prod.mk.injEq] at hj
      obtain ⟨hk, hv⟩ := hj
      subst hk hv
      cases hr : lastVal ops k0 with
      | none => simp
      | some v1 =>
        exfalso
        obtain ⟨i, hi, _⟩ := lastVal_some_isLastPut ops k0 v1 hr
        exact hmax (i + 1) v1 (by omega) (by simpa using hi)
    | succ j =>
      simp only [List.getElem?_cons_succ] at hj
      have hlast : IsLastPut ops k v := by
        refine ⟨j, hj, ?_⟩
        intro j1 v1 hlt h1
        exact hmax (j1 + 1) v1 (by omega) (by simpa using h1)
      rw [ih k v hlast]

/-- The tries built from `New()` by insertions are well formed and hold the
last value inserted for each key. -/
theorem putAll_New {ops : List (List Byte × Int)} {t : Trie} (h : putAll New ops = .ok t) :
    WF t ∧ ∀ k, lookup t k = lastVal ops k := by
  rcases putAll_spec ops New_WF with ⟨t1, hs, hwf1, hl, _⟩ | ⟨hs, _⟩
  · rw [hs] at h
    have h := Except.ok.inj h
    subst h
    refine ⟨hwf1, ?_⟩
    intro k
    rw [hl]
    cases lastVal ops k with
    | some v => rfl
    | none => simp [New_lookup]
  · rw [hs] at h
    cases h

theorem putAll_ok (ops : List (List Byte × Int)) (h : keyBytes ops + 2 ≤ maxNodeId) :
    ∃ t, putAll New ops = .ok t := by
  rcases putAll_spec ops New_WF with ⟨t1, hs, _⟩ | ⟨_, hbig⟩
  · exact ⟨t1, hs⟩
  · simp [New] at hbig
    omega

theorem sampleTrie_built : putAll New sampleOps = .ok sampleTrie := by
  obtain ⟨t, ht⟩ := putAll_ok sampleOps (by decide)
  unfold sampleTrie
  rw [ht]

theorem extends_refl (t : Trie) : Extends t t :=
  ⟨le_refl _, fun _ nd _ h _ => ⟨nd, h, rfl⟩⟩

theorem extends_trans {t t1 t2 : Trie} (h1 : Extends t t1) (h2 : Extends t1 t2) :
    Extends t t2 := by
  refine ⟨le_trans h1.1 h2.1, ?_⟩
  intro n nd c hnd hb
  obtain ⟨nd1, hnd1, hb1⟩ := h1.2 n nd c hnd hb
  obtain ⟨nd2, hnd2, hb2⟩ := h2.2 n nd1 c hnd1 (by rw [hb1]; exact hb)
  exact ⟨nd2, hnd2, by rw [hb2, hb1]⟩

theorem New_Tree : Tree New := by
  have hget : ∀ (n : Nat) (nd : node), New.nodes[n]? = some nd → nd = node.zero := by
    intro n nd h
    have hmem : nd ∈ New.nodes := List.getElem?_mem h
    simp only [New, List.mem_cons, List.mem_singleton, List.mem_nil_iff, or_false, or_self] at hmem
    exact hmem
  refine ⟨by simp [New], by simp [New], ?_, ?_, ?_, ?_⟩
  · intro n nd c h hb
    rw [hget n nd h] at hb
    exact absurd rfl hb
  · intro n1 n2 nd1 nd2 c1 c2 h1 _ hb _
    rw [hget n1 nd1 h1] at hb
    exact absurd rfl hb
  · intro m h2 hlt
    simp only [New, List.length_cons, List.length_nil] at hlt
    omega
  · intro m h1 hlt
    simp only [New, List.length_cons, List.length_nil] at hlt
    have : m = RootNode := by unfold RootNode; omega
    subst this
    exact ⟨[], rfl⟩

theorem addEdge_edge {t : Trie} {nodeId : Nat} {nd : node} (c : Byte)
    (hnd : t.nodes[nodeId]? = some nd) {n : Nat} {nd1 : node} {c1 : Byte}
    (h1 : (addEdge t nodeId nd c).nodes[n]? = some nd1) (hne : nd1.branches c1 ≠ 0) :
    (n = nodeId ∧ c1 = c ∧ nd1.branches c1 = t.nodes.length) ∨
      ∃ nd0, t.nodes[n]? = some nd0 ∧ nd0.branches c1 = nd1.branches c1 := by
  rw [addEdge_get c hnd n] at h1
  by_cases hn : n = nodeId
  · subst hn
    simp only [if_true] at h1
    have h1 := Option.some.inj h1
    subst h1
    by_cases hc : c1 = c
    · subst hc
      left
      exact ⟨rfl, rfl, Function.update_same _ _ _⟩
    · right
      exact ⟨nd, hnd, (Function.update_noteq hc _ _).symm⟩
  · simp only [hn, if_false] at h1
    by_cases hl : n = t.nodes.length
    · simp only [hl, if_true] at h1
      have h1 := Option.some.inj h1
      subst h1
      exact absurd rfl hne
    · simp only [hl, if_false] at h1
      right
      exact ⟨nd1, h1, rfl⟩

theorem addEdge_extends {t : Trie} {nodeId : Nat} {nd : node} (c : Byte)
    (hnd : t.nodes[nodeId]? = some nd) (hb : nd.branches c = 0) :
    Extends t (addEdge t nodeId nd c) := by
  refine ⟨by rw [addEdge_length]; omega, ?_⟩
  intro n nd0 c1 hn hb0
  have hlt := getElem?_lt hn
  rw [addEdge_get c hnd n]
  by_cases hnn : n = nodeId
  · subst hnn
    have hndeq : nd0 = nd := by
      rw [hn] at hnd
      exact Option.some.inj hnd
    subst hndeq
    have hc : c1 ≠ c := by
      intro hcc
      subst hcc
      exact hb0 hb
    simp only [if_true]
    exact ⟨_, rfl, Function.update_noteq hc _ _⟩
  · have hne : n ≠ t.nodes.length := by omega
    simp only [hnn, hne, if_false]
    exact ⟨nd0, hn, rfl⟩

theorem addEdge_tree {t : Trie} (htree : Tree t) {nodeId : Nat} {nd : node} (c : Byte)
    {p : List Byte} (hp : reach t RootNode p = some nodeId) (h1 : 1 ≤ nodeId)
    (hnd : t.nodes[nodeId]? = some nd) (hb : nd.branches c = 0) :
    Tree (addEdge t nodeId nd c) := by
  have hlt := getElem?_lt hnd
  have h2 := htree.len_ge
  have hext := addEdge_extends c hnd hb
  refine ⟨by rw [addEdge_length]; omega, ?_, ?_, ?_, ?_, ?_⟩
  · rw [addEdge_get c hnd 0]
    have h01 : ¬ (0 = nodeId) := by omega
    have h02 : ¬ (0 = t.nodes.length) := by omega
    simp only [h01, h02, if_false]
    exact htree.zero
  · intro n nd1 c1 hn hne
    rw [addEdge_length]
    rcases addEdge_edge c hnd hn hne with ⟨_, _, hL⟩ | ⟨nd0, hn0, hb0⟩
    · rw [hL]; omega
    · rw [← hb0] at hne ⊢
      have := htree.target n nd0 c1 hn0 hne
      omega
  · intro n1 n2 nd1 nd2 c1 c2 hn1 hn2 hne heq
    have hne2 : nd2.branches c2 ≠ 0 := by rw [← heq]; exact hne
    rcases addEdge_edge c hnd hn1 hne with ⟨e1, e2, hL1⟩ | ⟨nd01, hn01, hb01⟩
    · rcases addEdge_edge c hnd hn2 hne2 with ⟨e3, e4, _⟩ | ⟨nd02, hn02, hb02⟩
      · exact ⟨by rw [e1, e3], by rw [e2, e4]⟩
      · exfalso
        have hne02 : nd02.branches c2 ≠ 0 := by rw [hb02]; exact hne2
        have := (htree.target n2 nd02 c2 hn02 hne02).2
        rw [hb02, ← heq, hL1] at this
        omega
    · have hne01 : nd01.branches c1 ≠ 0 := by rw [hb01]; exact hne
      rcases addEdge_edge c hnd hn2 hne2 with ⟨_, _, hL2⟩ | ⟨nd02, hn02, hb02⟩
      · exfalso
        have := (htree.target n1 nd01 c1 hn01 hne01).2
        rw [hb01, heq, hL2] at this
        omega
      · exact htree.parent_unique n1 n2 nd01 nd02 c1 c2 hn01 hn02 hne01
          (by rw [hb01, hb02]; exact heq)
  · intro m hm2 hmlt
    rw [addEdge_length] at hmlt
    by_cases hm : m = t.nodes.length
    · subst hm
      refine ⟨nodeId,
        { nd with branches := Function.update nd.branches c t.nodes.length }, c, ?_, ?_⟩
      · rw [addEdge_get c hnd nodeId]
        simp only [if_true]
      · exact Function.update_same _ _ _
    · obtain ⟨n, nd0, c0, hn0, hb0⟩ := htree.parent_exists m hm2 (by omega)
      obtain ⟨nd1, hn1, hb1⟩ := hext.2 n nd0 c0 hn0 (by rw [hb0]; omega)
      exact ⟨n, nd1, c0, hn1, by rw [hb1, hb0]⟩
  · intro m hm1 hmlt
    rw [addEdge_length] at hmlt
    by_cases hm : m = t.nodes.length
    · subst hm
      refine ⟨p ++ [c], ?_⟩
      rw [reach_append, addEdge_reach_mono c hnd hb p RootNode nodeId (by unfold RootNode; omega) hp]
      simp only [Option.bind, reach]
      rw [addEdge_get c hnd]
      have hL : t.nodes.length ≠ 0 := by omega
      simp [hL]
    · obtain ⟨key, hkey⟩ := htree.reachable m hm1 (by omega)
      exact ⟨key, addEdge_reach_mono c hnd hb key RootNode m (by unfold RootNode; omega) hkey⟩

theorem setNode_tree {t : Trie} (nd1 : node) (htree : Tree t) {n : Nat} {nd : node}
    (h1 : 1 ≤ n) (hnd : t.nodes[n]? = some nd) (hbr : nd1.branches = nd.branches) :
    Tree ⟨t.nodes.set n nd1⟩ ∧ Extends t ⟨t.nodes.set n nd1⟩ ∧
      (⟨t.nodes.set n nd1⟩ : Trie).nodes.length = t.nodes.length := by
  have hlt := getElem?_lt hnd
  have hget : ∀ m : Nat, (⟨t.nodes.set n nd1⟩ : Trie).nodes[m]? =
      if m = n then some nd1 else t.nodes[m]? := by
    intro m
    simp only [List.getElem?_set]
    by_cases hm : m = n
    · subst hm; simp [hlt]
    · have : ¬ n = m := fun h => hm h.symm
      simp [hm, this]
  have hback : ∀ (m : Nat) (x : node), (⟨t.nodes.set n nd1⟩ : Trie).nodes[m]? = some x →
      ∃ x0, t.nodes[m]? = some x0 ∧ x0.branches = x.branches := by
    intro m x hx
    rw [hget] at hx
    by_cases hm : m = n
    · subst hm
      simp only [if_true] at hx
      have hx := Option.some.inj hx
      subst hx
      exact ⟨nd, hnd, hbr.symm⟩
    · simp only [hm, if_false] at hx
      exact ⟨x, hx, rfl⟩
  have hfwd : ∀ (m : Nat) (x0 : node), t.nodes[m]? = some x0 →
      ∃ x, (⟨t.nodes.set n nd1⟩ : Trie).nodes[m]? = some x ∧ x.branches = x0.branches := by
    intro m x0 hx0
    rw [hget]
    by_cases hm : m = n
    · subst hm
      rw [hx0] at hnd
      have := Option.some.inj hnd
      subst this
      exact ⟨nd1, by simp, hbr⟩
    · exact ⟨x0, by simp [hm, hx0], rfl⟩
  have hreach : ∀ k m, reach ⟨t.nodes.set n nd1⟩ m k = reach t m k := by
    intro k m
    apply reach_congr
    intro m
    rw [hget]
    by_cases hm : m = n
    · subst hm; simp [hnd, hbr]
    · simp [hm]
  have hlen : (⟨t.nodes.set n nd1⟩ : Trie).nodes.length = t.nodes.length := by simp
  refine ⟨⟨?_, ?_, ?_, ?_, ?_, ?_⟩, ⟨by rw [hlen], ?_⟩, hlen⟩
  · rw [hlen]; exact htree.len_ge
  · rw [hget]
    have : ¬ (0 = n) := by omega
    simp only [this, if_false]
    exact htree.zero
  · intro m x c hx hb
    rw [hlen]
    obtain ⟨x0, hx0, hb0⟩ := hback m x hx
    rw [← hb0] at hb ⊢
    exact htree.target m x0 c hx0 hb
  · intro n1 n2 x1 x2 c1 c2 hx1 hx2 hne heq
    obtain ⟨y1, hy1, hb1⟩ := hback n1 x1 hx1
    obtain ⟨y2, hy2, hb2⟩ := hback n2 x2 hx2
    rw [← hb1] at hne heq
    rw [← hb2] at heq
    exact htree.parent_unique n1 n2 y1 y2 c1 c2 hy1 hy2 hne heq
  · intro m hm2 hmlt
    rw [hlen] at hmlt
    obtain ⟨n0, x0, c0, hx0, hb0⟩ := htree.parent_exists m hm2 hmlt
    obtain ⟨x, hx, hb⟩ := hfwd n0 x0 hx0
    exact ⟨n0, x, c0, hx, by rw [hb, hb0]⟩
  · intro m hm1 hmlt
    rw [hlen] at hmlt
    obtain ⟨key, hkey⟩ := htree.reachable m hm1 hmlt
    exact ⟨key, by rw [hreach]; exact hkey⟩
  · intro m x0 c hx0 _
    obtain ⟨x, hx, hb⟩ := hfwd m x0 hx0
    exact ⟨x, hx, by rw [hb]⟩

theorem pathLen_spec (t : Trie) : ∀ (k : List Byte) (n : Nat),
    pathLen t n k ≤ k.length ∧ (∃ m, reach t n (k.take (pathLen t n k)) = some m) ∧
      ∀ l, pathLen t n k < l → l ≤ k.length → reach t n (k.take l) = none := by
  intro k
  induction k with
  | nil =>
    intro n
    refine ⟨le_refl _, ⟨n, rfl⟩, ?_⟩
    intro l h1 h2
    simp only [pathLen, List.length_nil] at h1 h2
    omega
  | cons c k ih =>
    intro n
    have hstop : ∀ l, 0 < l → l ≤ (c :: k).length →
        (∀ nd, t.nodes[n]? = some nd → nd.branches c = 0) →
        reach t n ((c :: k).take l) = none := by
      intro l h1 _ hz
      have hl : l = (l - 1) + 1 := by omega
      rw [hl, List.take_succ_cons]
      simp only [reach]
      cases hn : t.nodes[n]? with
      | none => rfl
      | some nd => simp [hz nd hn]
    cases hn : t.nodes[n]? with
    | none =>
      have hpl : pathLen t n (c :: k) = 0 := by simp [pathLen, hn]
      rw [hpl]
      refine ⟨Nat.zero_le _, ⟨n, rfl⟩, ?_⟩
      intro l h1 h2
      exact hstop l h1 h2 (fun nd h => by rw [hn] at h; cases h)
    | some nd =>
      by_cases hb : nd.branches c = 0
      · have hpl : pathLen t n (c :: k) = 0 := by simp [pathLen, hn, hb]
        rw [hpl]
        refine ⟨Nat.zero_le _, ⟨n, rfl⟩, ?_⟩
        intro l h1 h2
        exact hstop l h1 h2 (fun nd1 h => by
          rw [hn] at h
          rw [← Option.some.inj h]
          exact hb)
      · have hpl : pathLen t n (c :: k) = pathLen t (nd.branches c) k + 1 := by
          simp [pathLen, hn, hb]
        rw [hpl]
        obtain ⟨h1, ⟨m, hm⟩, h3⟩ := ih (nd.branches c)
        refine ⟨by simp only [List.length_cons]; omega, ⟨m, ?_⟩, ?_⟩
        · rw [List.take_succ_cons]
          simp only [reach, hn, hb, if_false]
          exact hm
        · intro l hl1 hl2
          have hl : l = (l - 1) + 1 := by omega
          simp only [List.length_cons] at hl2
          rw [hl, List.take_succ_cons]
          simp only [reach, hn, hb, if_false]
          exact h3 (l - 1) (by omega) (by omega)

theorem pathLen_of_reach (t : Trie) : ∀ (k : List Byte) (n m : Nat),
    reach t n k = some m → pathLen t n k = k.length := by
  intro k n m h
  obtain ⟨h1, _, h3⟩ := pathLen_spec t k n
  by_contra hne
  have := h3 k.length (by omega) (le_refl _)
  rw [List.take_length, h] at this
  cases this

theorem putStep_cases {t : Trie} (hwf : WF t) {p : List Byte} {nodeId : Nat}
    (hp : reach t RootNode p = some nodeId) (c : Byte) :
    ∃ nd, t.nodes[nodeId]? = some nd ∧ 1 ≤ nodeId ∧
      ((nd.branches c ≠ 0 ∧ putStep t nodeId c = .ok (t, nd.branches c)) ∨
        (nd.branches c = 0 ∧ t.nodes.length ≤ maxNodeId ∧
          putStep t nodeId c = .ok (addEdge t nodeId nd c, t.nodes.length)) ∨
        (nd.branches c = 0 ∧ maxNodeId < t.nodes.length ∧
          putStep t nodeId c = .error .tooManyNodes)) := by
  obtain ⟨key, hinv⟩ := hwf
  obtain ⟨h1, hlt, _⟩ := reach_root hinv hp
  have hle := hinv.len_le
  obtain ⟨nd, hnd⟩ : ∃ nd, t.nodes[nodeId]? = some nd := by
    cases h : t.nodes[nodeId]? with
    | none => rw [List.getElem?_eq_none_iff] at h; omega
    | some nd => exact ⟨nd, rfl⟩
  refine ⟨nd, hnd, h1, ?_⟩
  by_cases hb : nd.branches c = 0
  · right
    have hmod : t.nodes.length % 4294967296 = t.nodes.length := by
      apply Nat.mod_eq_of_lt
      unfold maxNodeId at hle
      omega
    by_cases hmax : t.nodes.length ≤ maxNodeId
    · left
      refine ⟨hb, hmax, ?_⟩
      have hnd1 : (t.nodes ++ [node.zero])[nodeId]? = some nd := by
        rw [List.getElem?_append]
        simp [hlt, hnd]
      have hgt : ¬ t.nodes.length > maxNodeId := by omega
      simp only [putStep, Walk, index_eq_ok hnd, hb, NilNode, if_true, hmod, hgt, if_false,
        index_eq_ok hnd1]
      rfl
    · right
      have hgt : t.nodes.length > maxNodeId := by omega
      refine ⟨hb, by omega, ?_⟩
      simp only [putStep, Walk, index_eq_ok hnd, hb, NilNode, if_true, hmod, hgt]
  · left
    refine ⟨hb, ?_⟩
    simp only [putStep, Walk, index_eq_ok hnd, NilNode, hb, if_false]

theorem pathLen_zero_node {t : Trie} {n : Nat} (h : t.nodes[n]? = some node.zero)
    (k : List Byte) : pathLen t n k = 0 := by
  cases k with
  | nil => rfl
  | cons c k => simp [pathLen, h, node.zero]

theorem putLoop_struct : ∀ (k : List Byte) {t : Trie}, WF t → Tree t →
    ∀ {p : List Byte} {nodeId : Nat}, reach t RootNode p = some nodeId →
    ∀ {t1 : Trie} {n1 : Nat}, putLoop t nodeId k = .ok (t1, n1) →
      WF t1 ∧ Tree t1 ∧ Extends t t1 ∧
        t1.nodes.length = t.nodes.length + (k.length - pathLen t nodeId k) ∧
        reach t1 RootNode (p ++ k) = some n1 := by
  intro k
  induction k with
  | nil =>
    intro t hwf htree p nodeId hp t1 n1 hs
    simp only [putLoop, Except.ok.injEq, Prod.mk.injEq] at hs
    obtain ⟨e1, e2⟩ := hs
    subst e1 e2
    exact ⟨hwf, htree, extends_refl t, by simp [pathLen], by simpa using hp⟩
  | cons c k ih =>
    intro t hwf htree p nodeId hp t1 n1 hs
    obtain ⟨nd, hnd, h1, hcase⟩ := putStep_cases hwf hp c
    rcases hcase with ⟨hb, hstep⟩ | ⟨hb, hmax, hstep⟩ | ⟨_, _, hstep⟩
    · simp only [putLoop, hstep] at hs
      have hr : reach t RootNode (p ++ [c]) = some (nd.branches c) := by
        rw [reach_append, hp]
        simp [Option.bind, reach, hnd, hb]
      obtain ⟨hwf1, htree1, hext1, hlen1, hr1⟩ := ih hwf htree hr hs
      refine ⟨hwf1, htree1, hext1, ?_, by simpa using hr1⟩
      have hpl : pathLen t nodeId (c :: k) = pathLen t (nd.branches c) k + 1 := by
        simp [pathLen, hnd, hb]
      rw [hlen1, hpl]
      simp only [List.length_cons]
      omega
    · simp only [putLoop, hstep] at hs
      obtain ⟨key, hinv⟩ := hwf
      have hwf' : WF (addEdge t nodeId nd c) := ⟨_, addEdge_inv hinv c h1 hnd hmax⟩
      have htree' := addEdge_tree htree c hp h1 hnd hb
      have hL : t.nodes.length ≠ 0 := by
        have := htree.len_ge
        omega
      have hlt := getElem?_lt hnd
      have hr : reach (addEdge t nodeId nd c) RootNode (p ++ [c]) = some t.nodes.length := by
        rw [reach_append,
          addEdge_reach_mono c hnd hb p RootNode nodeId (by unfold RootNode; omega) hp]
        simp only [Option.bind, reach]
        rw [addEdge_get c hnd]
        simp [hL]
      obtain ⟨hwf1, htree1, hext1, hlen1, hr1⟩ := ih hwf' htree' hr hs
      have hnew : (addEdge t nodeId nd c).nodes[t.nodes.length]? = some node.zero := by
        rw [addEdge_get c hnd]
        have : ¬ t.nodes.length = nodeId := by omega
        simp [this]
      refine ⟨hwf1, htree1, extends_trans (addEdge_extends c hnd hb) hext1, ?_,
        by simpa using hr1⟩
      have hpl : pathLen t nodeId (c :: k) = 0 := by simp [pathLen, hnd, hb]
      rw [hlen1, hpl, pathLen_zero_node hnew, addEdge_length]
      simp only [List.length_cons]
      omega
    · simp only [putLoop, hstep] at hs
      cases hs

theorem putLoop_of_reach : ∀ (k : List Byte) {t : Trie}, WF t →
    ∀ {p : List Byte} {nodeId m : Nat}, reach t RootNode p = some nodeId →
      reach t nodeId k = some m → putLoop t nodeId k = .ok (t, m) := by
  intro k
  induction k with
  | nil =>
    intro t _ p nodeId m _ hr
    simp only [reach, Option.some.injEq] at hr
    subst hr
    rfl
  | cons c k ih =>
    intro t hwf p nodeId m hp hr
    obtain ⟨nd, hnd, _, hcase⟩ := putStep_cases hwf hp c
    simp only [reach, hnd] at hr
    by_cases hb : nd.branches c = 0
    · simp [hb] at hr
    · simp only [hb, if_false] at hr
      rcases hcase with ⟨_, hstep⟩ | ⟨hb0, _⟩ | ⟨hb0, _⟩
      · simp only [putLoop, hstep]
        have hr1 : reach t RootNode (p ++ [c]) = some (nd.branches c) := by
          rw [reach_append, hp]
          simp [Option.bind, reach, hnd, hb]
        exact ih hwf hr1 hr
      · exact absurd hb0 hb
      · exact absurd hb0 hb

/-- What a call of `Put` that returns does to the shape of the trie. -/
theorem Put_struct {t : Trie} (hwf : WF t) (htree : Tree t) {k : List Byte} {v : Int}
    {t1 : Trie} {b : Bool} (hs : Put t k v = .ok (t1, b)) :
    WF t1 ∧ Tree t1 ∧ Extends t t1 ∧
      t1.nodes.length = t.nodes.length + (k.length - pathLen t RootNode k) := by
  have hroot : reach t RootNode [] = some RootNode := rfl
  unfold Put at hs
  cases hl : putLoop t RootNode k with
  | error e => simp [hl] at hs
  | ok r =>
    obtain ⟨t2, n2⟩ := r
    simp only [hl] at hs
    obtain ⟨hwf2, htree2, hext2, hlen2, hr2⟩ := putLoop_struct k hwf htree hroot hl
    simp only [List.nil_append] at hr2
    obtain ⟨key, hinv⟩ := hwf2
    obtain ⟨h1, hlt, _⟩ := reach_root hinv hr2
    obtain ⟨nd, hnd⟩ : ∃ nd, t2.nodes[n2]? = some nd := by
      cases h : t2.nodes[n2]? with
      | none => rw [List.getElem?_eq_none_iff] at h; omega
      | some nd => exact ⟨nd, rfl⟩
    simp only [index_eq_ok hnd] at hs
    by_cases hterm : nd.terminal = true
    · rw [if_pos hterm] at hs
      simp only [Except.ok.injEq, Prod.mk.injEq] at hs
      obtain ⟨e1, _⟩ := hs
      subst e1
      obtain ⟨hwf3, _, _⟩ := setNode_spec { nd with val := v } ⟨key, hinv⟩ hnd rfl
      obtain ⟨htree3, hext3, hlen3⟩ := setNode_tree { nd with val := v } htree2 h1 hnd rfl
      exact ⟨hwf3, htree3, extends_trans hext2 hext3, by rw [hlen3, hlen2]⟩
    · rw [if_neg hterm] at hs
      simp only [Except.ok.injEq, Prod.mk.injEq] at hs
      obtain ⟨e1, _⟩ := hs
      subst e1
      obtain ⟨hwf3, _, _⟩ :=
        setNode_spec { nd with val := v, terminal := true } ⟨key, hinv⟩ hnd rfl
      obtain ⟨htree3, hext3, hlen3⟩ :=
        setNode_tree { nd with val := v, terminal := true } htree2 h1 hnd rfl
      exact ⟨hwf3, htree3, extends_trans hext2 hext3, by rw [hlen3, hlen2]⟩

/-- An insertion of a key that is present replaces the value of its node
and nothing else. -/
theorem Put_present {t : Trie} (hwf : WF t) {k : List Byte} {v0 : Int}
    (hk : lookup t k = some v0) (v : Int) :
    ∃ m nd, reach t RootNode k = some m ∧ t.nodes[m]? = some nd ∧ nd.terminal = true ∧
      Put t k v = .ok (⟨t.nodes.set m { nd with val := v }⟩, false) := by
  have hroot : reach t RootNode [] = some RootNode := rfl
  unfold lookup at hk
  cases hr : reach t RootNode k with
  | none => simp [hr] at hk
  | some m =>
    simp only [hr] at hk
    cases hnd : t.nodes[m]? with
    | none => simp [hnd] at hk
    | some nd =>
      simp only [hnd] at hk
      by_cases hterm : nd.terminal = true
      · refine ⟨m, nd, rfl, hnd, hterm, ?_⟩
        simp only [Put, putLoop_of_reach k hwf hroot hr, index_eq_ok hnd]
        rw [if_pos hterm]
      · simp [hterm] at hk

theorem putAll_struct : ∀ (ops : List (List Byte × Int)) {t : Trie}, WF t → Tree t →
    ∀ {t1 : Trie}, putAll t ops = .ok t1 → WF t1 ∧ Tree t1 ∧ Extends t t1 := by
  intro ops
  induction ops with
  | nil =>
    intro t hwf htree t1 h
    simp only [putAll, Except.ok.injEq] at h
    subst h
    exact ⟨hwf, htree, extends_refl t⟩
  | cons op ops ih =>
    intro t hwf htree t1 h
    obtain ⟨k0, v0⟩ := op
    simp only [putAll] at h
    cases hp : Put t k0 v0 with
    | error e => simp [hp] at h
    | ok r =>
      obtain ⟨t2, b⟩ := r
      simp only [hp] at h
      obtain ⟨hwf2, htree2, hext2, _⟩ := Put_struct hwf htree hp
      obtain ⟨hwf1, htree1, hext1⟩ := ih hwf2 htree2 h
      exact ⟨hwf1, htree1, extends_trans hext2 hext1⟩

theorem putAll_New_tree {ops : List (List Byte × Int)} {t : Trie}
    (h : putAll New ops = .ok t) : WF t ∧ Tree t :=
  let r := putAll_struct ops New_WF New_Tree h
  ⟨r.1, r.2.1⟩

end trie

namespace smaz

open trie

/-- Bytes in front of the buffer stay in front of the result of the loop of
`Decode`. -/
theorem dec_dst (codes : List (List Byte)) :
    ∀ (n : Nat) (src d1 d2 : List Byte), src.length ≤ n →
      dec codes (d1 ++ d2) src =
        match dec codes d2 src with
        | .ok y => .ok (d1 ++ y)
        | .error e => .error e := by
  intro n
  induction n with
  | zero =>
    intro src d1 d2 h
    have : src = [] := List.length_eq_zero.mp (by omega)
    subst this
    simp [dec_nil]
  | succ n ih =>
    intro src d1 d2 h
    cases src with
    | nil => simp [dec_nil]
    | cons b s =>
      simp only [List.length_cons] at h
      by_cases h254b : b.val = 254
      · have hb : b = 254 := Fin.ext h254b
        subst hb
        cases s with
        | nil => simp [dec_254_trunc]
        | cons b1 s1 =>
          simp only [List.length_cons] at h
          rw [dec_254, dec_254, List.append_assoc]
          exact ih s1 d1 (d2 ++ [b1]) (by omega)
      · by_cases h255b : b.val = 255
        · have hb : b = 255 := Fin.ext h255b
          subst hb
          cases s with
          | nil => simp [dec_255_trunc]
          | cons b1 s1 =>
            simp only [List.length_cons] at h
            rw [dec_255, dec_255]
            by_cases hshort : s1.length < b1.val
            · simp [hshort]
            · simp only [hshort, if_false]
              rw [List.append_assoc]
              exact ih _ d1 _ (by simp only [List.length_drop]; omega)
        · have hv : b.val < 254 := by omega
          rw [dec_code codes _ b s hv, dec_code codes _ b s hv]
          cases hc : codes[b.val]? with
          | none => rfl
          | some d =>
            simp only []
            rw [List.append_assoc]
            exact ih s d1 (d2 ++ d) (by omega)

theorem dec_dst_ok {codes : List (List Byte)} {src y : List Byte} (dst : List Byte)
    (h : dec codes [] src = .ok y) : dec codes dst src = .ok (dst ++ y) := by
  have := dec_dst codes src.length src dst [] (le_refl _)
  simp only [List.append_nil] at this
  rw [this, h]

theorem dec_dst_error {codes : List (List Byte)} {src : List Byte} {e : Fault}
    (dst : List Byte) (h : dec codes [] src = .error e) : dec codes dst src = .error e := by
  have := dec_dst codes src.length src dst [] (le_refl _)
  simp only [List.append_nil] at this
  rw [this, h]

theorem dec_split {codes : List (List Byte)} {src d x : List Byte}
    (h : dec codes d src = .ok x) : ∃ y, dec codes [] src = .ok y ∧ x = d ++ y := by
  cases hy : dec codes [] src with
  | error e =>
    rw [dec_dst_error d hy] at h
    cases h
  | ok y =>
    rw [dec_dst_ok d hy] at h
    exact ⟨y, rfl, (Except.ok.inj h).symm⟩

/-- Decoding a stream whose first part decodes by itself. -/
theorem dec_append (codes : List (List Byte)) :
    ∀ (n : Nat) (a : List Byte), a.length ≤ n → ∀ x, dec codes [] a = .ok x →
      ∀ dst b, dec codes dst (a ++ b) = dec codes (dst ++ x) b := by
  intro n
  induction n with
  | zero =>
    intro a h x hx dst b
    have : a = [] := List.length_eq_zero.mp (by omega)
    subst this
    rw [dec_nil] at hx
    rw [← Except.ok.inj hx]
    simp
  | succ n ih =>
    intro a h x hx dst b
    cases a with
    | nil =>
      rw [dec_nil] at hx
      rw [← Except.ok.inj hx]
      simp
    | cons b0 s =>
      simp only [List.length_cons] at h
      by_cases h254b : b0.val = 254
      · have hb : b0 = 254 := Fin.ext h254b
        subst hb
        cases s with
        | nil =>
          rw [dec_254_trunc] at hx
          cases hx
        | cons b1 s1 =>
          simp only [List.length_cons] at h
          rw [dec_254] at hx
          obtain ⟨y, hy, hxy⟩ := dec_split hx
          simp only [List.cons_append]
          rw [dec_254, ih s1 (by omega) y hy, hxy]
          simp
      · by_cases h255b : b0.val = 255
        · have hb : b0 = 255 := Fin.ext h255b
          subst hb
          cases s with
          | nil =>
            rw [dec_255_trunc] at hx
            cases hx
          | cons b1 s1 =>
            simp only [List.length_cons] at h
            rw [dec_255] at hx
            by_cases hshort : s1.length < b1.val
            · simp [hshort] at hx
            · simp only [hshort, if_false] at hx
              obtain ⟨y, hy, hxy⟩ := dec_split hx
              simp only [List.cons_append]
              rw [dec_255]
              have hlen : ¬ (s1 ++ b).length < b1.val := by
                simp only [List.length_append]; omega
              simp only [hlen, if_false]
              have ht : List.take b1.val (s1 ++ b) = List.take b1.val s1 := by
                rw [List.take_append_eq_append_take]
                have : b1.val - s1.length = 0 := by omega
                simp [this]
              have hd : List.drop b1.val (s1 ++ b) = List.drop b1.val s1 ++ b := by
                rw [List.drop_append_eq_append_drop]
                have : b1.val - s1.length = 0 := by omega
                simp [this]
              rw [ht, hd, ih _ (by simp only [List.length_drop]; omega) y hy, hxy]
              simp
        · have hv : b0.val < 254 := by omega
          rw [dec_code codes _ b0 s hv] at hx
          simp only [List.cons_append]
          rw [dec_code codes _ b0 _ hv]
          cases hc : codes[b0.val]? with
          | none =>
            simp [hc] at hx
          | some d =>
            simp only [hc] at hx
            simp only []
            obtain ⟨y, hy, hxy⟩ := dec_split hx
            rw [ih s (by omega) y hy, hxy]
            simp

theorem verbUnit_length {c : List Byte} (h : c ≠ []) :
    2 ≤ (verbUnit c).length ∧ (verbUnit c).length ≤ 2 * c.length := by
  match c, h with
  | [], h => exact absurd rfl h
  | [b], _ => simp [verbUnit]
  | b :: c1 :: r, _ =>
    simp only [verbUnit, List.length_append, List.length_cons, List.length_nil]
    omega

theorem verbatim_length : ∀ (n : Nat) (s : List Byte), s.length ≤ n →
    (verbatim s).length ≤ 2 * s.length ∧ (s ≠ [] → 2 ≤ (verbatim s).length) := by
  intro n
  induction n with
  | zero =>
    intro s h
    have : s = [] := List.length_eq_zero.mp (by omega)
    subst this
    simp [verbatim_nil]
  | succ n ih =>
    intro s h
    cases s with
    | nil => simp [verbatim_nil]
    | cons b r =>
      rw [verbatim_cons]
      have hne : List.take 255 (b :: r) ≠ [] := by simp
      obtain ⟨h1, h2⟩ := verbUnit_length hne
      obtain ⟨h3, _⟩ := ih (List.drop 255 (b :: r))
        (by simp only [List.length_drop, List.length_cons] at h ⊢; omega)
      have hsum : (List.take 255 (b :: r)).length + (List.drop 255 (b :: r)).length =
          (b :: r).length := by
        rw [← List.length_append, List.take_append_drop]
      simp only [List.length_append]
      refine ⟨by omega, fun _ => by omega⟩

theorem greedy_length (f : List Byte → Option Int) :
    ∀ (n : Nat) (rest pending : List Byte), rest.length ≤ n →
      (greedy f pending rest).length ≤ 2 * (pending.length + rest.length) ∧
        (pending ++ rest ≠ [] → 1 ≤ (greedy f pending rest).length) := by
  intro n
  induction n with
  | zero =>
    intro rest pending h
    have : rest = [] := List.length_eq_zero.mp (by omega)
    subst this
    rw [greedy_nil]
    obtain ⟨h1, h2⟩ := verbatim_length pending.length pending (le_refl _)
    refine ⟨by simpa using h1, fun hne => ?_⟩
    have := h2 (by simpa using hne)
    omega
  | succ n ih =>
    intro rest pending h
    cases rest with
    | nil =>
      rw [greedy_nil]
      obtain ⟨h1, h2⟩ := verbatim_length pending.length pending (le_refl _)
      refine ⟨by simpa using h1, fun hne => ?_⟩
      have := h2 (by simpa using hne)
      omega
    | cons b r =>
      simp only [List.length_cons] at h
      rw [greedy_cons]
      cases hl : longestFrom f [] (b :: r) with
      | none =>
        simp only []
        obtain ⟨h1, h2⟩ := ih r (pending ++ [b]) (by omega)
        simp only [List.length_append, List.length_cons, List.length_nil] at h1
        refine ⟨by simp only [List.length_cons]; omega, fun _ => h2 (by simp)⟩
      | some lv =>
        obtain ⟨l, v⟩ := lv
        simp only []
        obtain ⟨h1, _⟩ := ih (List.drop (l - 1) r) []
          (by simp only [List.length_drop]; omega)
        obtain ⟨h3, _⟩ := verbatim_length pending.length pending (le_refl _)
        simp only [List.length_append, List.length_cons, List.length_nil, List.length_drop]
          at h1 ⊢
        refine ⟨by omega, fun _ => by omega⟩

end smaz

namespace trie

/-- C11. The trie is a finite map from byte sequences to ints: after the
insertions `Put(k1, v1)`, ..., `Put(kn, vn)` on `New()`, `Get(k)` returns
`(v, true)` for the value `v` of the last insertion with key `k`, and
`(0, false)` when no insertion has key `k` (the empty key, proper prefixes
and proper extensions of inserted keys included); and a further `Put(k, v)`
that returns makes `Get(k)` return `(v, true)` and leaves `Get` unchanged on
every other key. -/
theorem trie_is_finite_map (ops : List (List Byte × Int)) (t : Trie)
    (h : putAll New ops = .ok t) :
    (∀ k v, IsLastPut ops k v → Get t k = .ok (some v)) ∧
      (∀ k, (∀ v, (k, v) ∉ ops) → Get t k = .ok none) ∧
      (∀ k v, Put t k v = .error .tooManyNodes ∨
        ∃ t1 b, Put t k v = .ok (t1, b) ∧ Get t1 k = .ok (some v) ∧
          ∀ k1, k1 ≠ k → Get t1 k1 = Get t k1) := by
  obtain ⟨hwf, hl⟩ := putAll_New h
  refine ⟨?_, ?_, ?_⟩
  · intro k v hlast
    rw [Get_eq_lookup hwf, hl, lastVal_of_isLastPut ops k v hlast]
  · intro k habs
    rw [Get_eq_lookup hwf, hl, lastVal_none_of_absent ops k habs]
  · intro k v
    rcases Put_spec hwf k v with ⟨t1, b, hs, hwf1, hk, hother, _, _⟩ | ⟨hs, _⟩
    · right
      refine ⟨t1, b, hs, ?_, ?_⟩
      · rw [Get_eq_lookup hwf1, hk]
      · intro k1 hne
        rw [Get_eq_lookup hwf1, Get_eq_lookup hwf, hother k1 hne]
    · left
      exact hs

/-- Witness of C11 on three insertions, the third of which overwrites the
first: the key `he` has the last value, and `hell`, a proper extension of
`he` and a proper prefix of `hello`, is not found. -/
theorem trie_is_finite_map_witness :
    putAll New sampleOps = .ok sampleTrie ∧ Get sampleTrie (bytesOf "he") = .ok (some 3) ∧
      Get sampleTrie (bytesOf "hell") = .ok none := by
  refine ⟨sampleTrie_built, ?_, ?_⟩
  · refine (trie_is_finite_map sampleOps sampleTrie sampleTrie_built).1 _ _ ⟨2, by decide, ?_⟩
    intro j1 v1 hlt hj
    have hlen : sampleOps.length = 3 := rfl
    have hnone : sampleOps[j1]? = none := by
      rw [List.getElem?_eq_none_iff, hlen]
      omega
    rw [hnone] at hj
    cases hj
  · refine (trie_is_finite_map sampleOps sampleTrie sampleTrie_built).2.1 _ ?_
    intro v hv
    have hmem : bytesOf "hell" ∈ sampleOps.map Prod.fst := List.mem_map_of_mem Prod.fst hv
    revert hmem
    decide

/-- C12. `Put` reports freshness: on a trie built from `New()` by insertions,
a call `Put(k, v)` that returns gives `true` if and only if `Get(k)` reported
not-found before the call, and `false` if and only if `Get(k)` found a value
(which the call overwrites). -/
theorem Put_reports_freshness (ops : List (List Byte × Int)) (t : Trie) (k : List Byte)
    (v : Int) (h : putAll New ops = .ok t) :
    Put t k v = .error .tooManyNodes ∨
      ∃ t1 b, Put t k v = .ok (t1, b) ∧ (b = true ↔ Get t k = .ok none) ∧
        (b = false ↔ ∃ v0, Get t k = .ok (some v0)) := by
  obtain ⟨hwf, _⟩ := putAll_New h
  rcases Put_spec hwf k v with ⟨t1, b, hs, _, _, _, hfresh, _⟩ | ⟨hs, _⟩
  · right
    refine ⟨t1, b, hs, ?_, ?_⟩
    · rw [Get_eq_lookup hwf, hfresh]
      cases lookup t k <;> simp
    · rw [Get_eq_lookup hwf, hfresh]
      cases lookup t k <;> simp
  · left
    exact hs

/-- Witness of C12 on the trie of three insertions and the key `he`. -/
theorem Put_reports_freshness_witness :
    putAll New sampleOps = .ok sampleTrie ∧
      (Put sampleTrie (bytesOf "he") 9 = .error .tooManyNodes ∨
        ∃ t1 b, Put sampleTrie (bytesOf "he") 9 = .ok (t1, b) ∧
          (b = true ↔ Get sampleTrie (bytesOf "he") = .ok none) ∧
          (b = false ↔ ∃ v0, Get sampleTrie (bytesOf "he") = .ok (some v0))) :=
  ⟨sampleTrie_built,
    Put_reports_freshness sampleOps sampleTrie (bytesOf "he") 9 sampleTrie_built⟩

/-- C13. Overwrite does not duplicate nodes: on a trie built from `New()` by
insertions, `Put(k, v)` of a key that is present returns `false`, keeps the
number of nodes, replaces the value of the node of `k` and leaves its edges
and terminal flag and every other node as they were, so that `Get(k)` is
`(v, true)`; and every call `Put(k, v)` that returns adds exactly
`len(k) - l` nodes, `l` being the length of the longest prefix of `k` that is
a path from the root, and keeps every edge. -/
theorem Put_overwrite_keeps_nodes (ops : List (List Byte × Int)) (t : Trie) (k : List Byte)
    (v : Int) (h : putAll New ops = .ok t) :
    (∀ v0, Get t k = .ok (some v0) →
      ∃ t1 m nd, Put t k v = .ok (t1, false) ∧ getLoop t RootNode k = .ok (some m) ∧
        t.nodes[m]? = some nd ∧ t1.nodes.length = t.nodes.length ∧
        t1.nodes[m]? = some { nd with val := v } ∧
        (∀ n : Nat, n ≠ m → t1.nodes[n]? = t.nodes[n]?) ∧ Get t1 k = .ok (some v)) ∧
      (∀ t1 b, Put t k v = .ok (t1, b) →
        (∃ l, l ≤ k.length ∧ (∃ m, getLoop t RootNode (k.take l) = .ok (some m)) ∧
          (∀ l1, l < l1 → l1 ≤ k.length → getLoop t RootNode (k.take l1) = .ok none) ∧
          t1.nodes.length = t.nodes.length + (k.length - l)) ∧
        (∀ (n : Nat) (nd : node) (c : Byte), t.nodes[n]? = some nd → nd.branches c ≠ 0 →
          ∃ nd1, t1.nodes[n]? = some nd1 ∧ nd1.branches c = nd.branches c)) := by
  obtain ⟨hwf, htree⟩ := putAll_New_tree h
  have hroot : reach t RootNode [] = some RootNode := rfl
  refine ⟨?_, ?_⟩
  · intro v0 hget
    rw [Get_eq_lookup hwf] at hget
    have hk : lookup t k = some v0 := Except.ok.inj hget
    obtain ⟨m, nd, hr, hnd, _, hput⟩ := Put_present hwf hk v
    have hlt := getElem?_lt hnd
    refine ⟨_, m, nd, hput, ?_, hnd, by simp, ?_, ?_, ?_⟩
    · rw [getLoop_eq hwf k [] RootNode hroot, hr]
    · simp [List.getElem?_set, hlt]
    · intro n hn
      have : ¬ m = n := fun e => hn e.symm
      simp [List.getElem?_set, this]
    · rcases Put_spec hwf k v with ⟨t1, b, hs, hwf1, hk1, _, _, _⟩ | ⟨hs, _⟩
      · rw [hput] at hs
        simp only [Except.ok.injEq, Prod.mk.injEq] at hs
        rw [hs.1, Get_eq_lookup hwf1, hk1]
      · rw [hput] at hs
        cases hs
  · intro t1 b hput
    obtain ⟨_, _, hext, hlen⟩ := Put_struct hwf htree hput
    obtain ⟨h1, ⟨m, hm⟩, h3⟩ := pathLen_spec t k RootNode
    refine ⟨⟨pathLen t RootNode k, h1, ⟨m, ?_⟩, ?_, hlen⟩, hext.2⟩
    · rw [getLoop_eq hwf _ [] RootNode hroot, hm]
    · intro l1 hl1 hl2
      rw [getLoop_eq hwf _ [] RootNode hroot, h3 l1 hl1 hl2]

/-- Witness of C13 on the trie of three insertions and the key `he`, which is
present. -/
theorem Put_overwrite_keeps_nodes_witness :
    putAll New sampleOps = .ok sampleTrie ∧
      ∀ v0, Get sampleTrie (bytesOf "he") = .ok (some v0) →
        ∃ t1 m nd, Put sampleTrie (bytesOf "he") 9 = .ok (t1, false) ∧
          getLoop sampleTrie RootNode (bytesOf "he") = .ok (some m) ∧
          sampleTrie.nodes[m]? = some nd ∧ t1.nodes.length = sampleTrie.nodes.length ∧
          t1.nodes[m]? = some { nd with val := 9 } ∧
          (∀ n : Nat, n ≠ m → t1.nodes[n]? = sampleTrie.nodes[n]?) ∧
          Get t1 (bytesOf "he") = .ok (some 9) :=
  ⟨sampleTrie_built,
    (Put_overwrite_keeps_nodes sampleOps sampleTrie (bytesOf "he") 9 sampleTrie_built).1⟩

/-- C16. `Val` fails exactly on non-terminal nodes: on a trie built from
`New()` by insertions and a node `id` reached from the root by `Walk` along
`key`, `Terminal(id)` returns, `Val(id)` panics if and only if `Terminal(id)`
is false, and otherwise `Val(id)` returns the value of the last insertion
with key `key`. -/
theorem Val_fails_iff_not_terminal (ops : List (List Byte × Int)) (t : Trie)
    (key : List Byte) (id : Nat) (h : putAll New ops = .ok t)
    (hid : getLoop t RootNode key = .ok (some id)) :
    (∃ b, Terminal t id = .ok b) ∧
      (Val t id = .error .valNonTerminal ↔ Terminal t id = .ok false) ∧
      (Terminal t id = .ok true → ∃ v, Val t id = .ok v ∧ IsLastPut ops key v) := by
  obtain ⟨hwf, hl⟩ := putAll_New h
  have hroot : reach t RootNode [] = some RootNode := rfl
  rw [getLoop_eq hwf key [] RootNode hroot] at hid
  have hr : reach t RootNode key = some id := Except.ok.inj hid
  obtain ⟨k0, hinv⟩ := hwf
  obtain ⟨_, hlt, _⟩ := reach_root hinv hr
  obtain ⟨nd, hnd⟩ : ∃ nd, t.nodes[id]? = some nd := by
    cases h : t.nodes[id]? with
    | none => rw [List.getElem?_eq_none_iff] at h; omega
    | some nd => exact ⟨nd, rfl⟩
  have hlk : lookup t key = if nd.terminal then some nd.val else none := by
    simp [lookup, hr, hnd]
  simp only [Terminal, Val, index_eq_ok hnd]
  refine ⟨⟨_, rfl⟩, ?_, ?_⟩
  · cases hterm : nd.terminal <;> simp
  · intro hterm
    have hterm : nd.terminal = true := Except.ok.inj hterm
    refine ⟨nd.val, by simp [hterm], ?_⟩
    apply lastVal_some_isLastPut
    rw [← hl, hlk, hterm]
    rfl

/-- Witness of C16 on the trie of three insertions and the node of the key
`he`, which is node 3. -/
theorem Val_fails_iff_not_terminal_witness :
    putAll New sampleOps = .ok sampleTrie ∧
      getLoop sampleTrie RootNode (bytesOf "he") = .ok (some 3) ∧
      (Val sampleTrie 3 = .error .valNonTerminal ↔ Terminal sampleTrie 3 = .ok false) :=
  ⟨sampleTrie_built, by decide!,
    (Val_fails_iff_not_terminal sampleOps sampleTrie (bytesOf "he") 3 sampleTrie_built
      (by decide!)).2.1⟩

/-- C18. Trie structural invariant: a trie built from `New()` by insertions
has at least two nodes; node 0 has no outgoing edge and is not terminal;
every edge goes to an id in `[2, number of nodes)`; every node with id at
least 2 is the target of exactly one edge and every node from 1 on is reached
from the root, so that the structure is a tree rooted at 1; `Put` never
decreases the number of nodes; and `Walk`, `Terminal`, `Get` and `Put` never
index the node array out of range on ids obtained from the root by `Walk`. -/
theorem trie_structural_invariant (ops : List (List Byte × Int)) (t : Trie)
    (h : putAll New ops = .ok t) :
    2 ≤ t.nodes.length ∧
      (∃ nd0, t.nodes[0]? = some nd0 ∧ (∀ c, nd0.branches c = 0) ∧ nd0.terminal = false) ∧
      (∀ (n : Nat) (nd : node) (c : Byte), t.nodes[n]? = some nd → nd.branches c ≠ 0 →
        2 ≤ nd.branches c ∧ nd.branches c < t.nodes.length) ∧
      (∀ m : Nat, 2 ≤ m → m < t.nodes.length →
        ∃ (n : Nat) (c : Byte), (∃ nd, t.nodes[n]? = some nd ∧ nd.branches c = m) ∧
          ∀ (n1 : Nat) (c1 : Byte), (∃ nd1, t.nodes[n1]? = some nd1 ∧ nd1.branches c1 = m) →
            n1 = n ∧ c1 = c) ∧
      (∀ m : Nat, 1 ≤ m → m < t.nodes.length →
        ∃ key, getLoop t RootNode key = .ok (some m)) ∧
      (∀ k v t1 b, Put t k v = .ok (t1, b) → t.nodes.length ≤ t1.nodes.length) ∧
      (∀ key id, getLoop t RootNode key = .ok (some id) →
        id < t.nodes.length ∧ (∀ c, ∃ r, Walk t id c = .ok r) ∧ ∃ b, Terminal t id = .ok b) ∧
      (∀ k, ∃ r, Get t k = .ok r) ∧
      (∀ k v, Put t k v = .error .tooManyNodes ∨ ∃ t1 b, Put t k v = .ok (t1, b)) := by
  obtain ⟨hwf, htree⟩ := putAll_New_tree h
  have hroot : reach t RootNode [] = some RootNode := rfl
  refine ⟨htree.len_ge, ⟨node.zero, htree.zero, fun _ => rfl, rfl⟩, htree.target, ?_, ?_, ?_,
    ?_, ?_, ?_⟩
  · intro m hm2 hmlt
    obtain ⟨n, nd, c, hnd, hb⟩ := htree.parent_exists m hm2 hmlt
    refine ⟨n, c, ⟨nd, hnd, hb⟩, ?_⟩
    intro n1 c1 hex
    obtain ⟨nd1, hnd1, hb1⟩ := hex
    exact htree.parent_unique n1 n nd1 nd c1 c hnd1 hnd (by rw [hb1]; omega) (by rw [hb1, hb])
  · intro m hm1 hmlt
    obtain ⟨key, hkey⟩ := htree.reachable m hm1 hmlt
    exact ⟨key, by rw [getLoop_eq hwf key [] RootNode hroot, hkey]⟩
  · intro k v t1 b hput
    exact (Put_struct hwf htree hput).2.2.1.1
  · intro key id hid
    rw [getLoop_eq hwf key [] RootNode hroot] at hid
    have hr : reach t RootNode key = some id := Except.ok.inj hid
    obtain ⟨k0, hinv⟩ := hwf
    obtain ⟨_, hlt, _⟩ := reach_root hinv hr
    obtain ⟨nd, hnd⟩ : ∃ nd, t.nodes[id]? = some nd := by
      cases h : t.nodes[id]? with
      | none => rw [List.getElem?_eq_none_iff] at h; omega
      | some nd => exact ⟨nd, rfl⟩
    refine ⟨hlt, fun c => ⟨nd.branches c, ?_⟩, ⟨nd.terminal, ?_⟩⟩
    · simp only [Walk, index_eq_ok hnd]
    · simp only [Terminal, index_eq_ok hnd]
  · intro k
    exact ⟨_, Get_eq_lookup hwf k⟩
  · intro k v
    rcases Put_spec hwf k v with ⟨t1, b, hs, _⟩ | ⟨hs, _⟩
    · exact Or.inr ⟨t1, b, hs⟩
    · exact Or.inl hs

/-- Witness of C18 on the trie of three insertions. -/
theorem trie_structural_invariant_witness :
    putAll New sampleOps = .ok sampleTrie ∧ 2 ≤ sampleTrie.nodes.length ∧
      ∀ k, ∃ r, Get sampleTrie k = .ok r :=
  ⟨sampleTrie_built, (trie_structural_invariant sampleOps sampleTrie sampleTrie_built).1,
    (trie_structural_invariant sampleOps sampleTrie sampleTrie_built).2.2.2.2.2.2.2.1⟩

end trie

namespace smaz

open trie

/-- C14. Construction indexes the table: in the codec that `init` builds from
a table, `Get(e)` on the trie is `(j, true)` for every entry `e`, `j` being
the largest index with `table[j] = e`; `Get(k)` is not-found for every byte
sequence that is not an entry; and the table kept holds entry `i` at
position `i`. -/
theorem init_indexes_table (table : List (List Byte)) (cdc : Codec)
    (h : init table = .ok cdc) :
    (∀ e, e ∈ table → ∃ j, IsLastIndex table e j ∧ Get cdc.codeTrie e = .ok (some (j : Int))) ∧
      (∀ e j, IsLastIndex table e j → Get cdc.codeTrie e = .ok (some (j : Int))) ∧
      (∀ k, k ∉ table → Get cdc.codeTrie k = .ok none) ∧
      (∀ i : Nat, cdc.codes[i]? = table[i]?) := by
  obtain ⟨hcodes, hwf, _⟩ := init_spec h
  have hlk := lookup_eq_tableMap h
  have hlast : ∀ e j, IsLastIndex table e j → Get cdc.codeTrie e = .ok (some (j : Int)) := by
    intro e j hj
    rw [Get_eq_lookup hwf, hlk, tableMap_of_isLastIndex hj]
  refine ⟨?_, hlast, ?_, fun i => by rw [hcodes]⟩
  · intro e he
    obtain ⟨j, hj⟩ := lastIdxFrom_mem table 0 e he
    have := (lastIdxFrom_some table 0 e j hj).2
    simp only [Nat.sub_zero] at this
    exact ⟨j, this, hlast e j this⟩
  · intro k hk
    rw [Get_eq_lookup hwf, hlk]
    cases hm : tableMap table k with
    | none => rfl
    | some v =>
      obtain ⟨j, _, hj⟩ := tableMap_some hm
      exact absurd (List.getElem?_mem hj.1) hk

/-- Witness of C14 on the table of the tests. -/
theorem init_indexes_table_witness :
    init testTable = .ok testCodec ∧
      (∀ k, k ∉ testTable → Get testCodec.codeTrie k = .ok none) ∧
      ∀ i : Nat, testCodec.codes[i]? = testTable[i]? :=
  ⟨testCodec_init, (init_indexes_table testTable testCodec testCodec_init).2.2.1,
    (init_indexes_table testTable testCodec testCodec_init).2.2.2⟩

theorem not_isOneUnit_of_long {a rest : List Byte} (ha : a.length = 255) (hr : rest ≠ []) :
    ¬ IsOneUnit ([255, 255] ++ a ++ rest) := by
  have hpos : 0 < rest.length := List.length_pos.mpr hr
  rintro (⟨b, hb⟩ | ⟨n, lit, hout, hlen⟩)
  · have := congrArg List.length hb
    simp only [List.length_append, List.length_cons, List.length_nil] at this
    omega
  · simp only [List.cons_append, List.nil_append, List.cons.injEq] at hout
    obtain ⟨_, hn, hlit⟩ := hout
    have := congrArg List.length hlit
    simp only [List.length_append] at this
    have hlt := n.isLt
    omega

theorem isOneUnit_verbUnit {s : List Byte} (h0 : s ≠ []) (h : s.length ≤ 255) :
    IsOneUnit (verbUnit s) := by
  match s, h0, h with
  | [], h0, _ => exact absurd rfl h0
  | [b], _, _ => exact Or.inl ⟨b, rfl⟩
  | b :: c :: r, _, h =>
    right
    refine ⟨Fin.ofNat (b :: c :: r).length, b :: c :: r, rfl, ?_⟩
    simp only [Fin.ofNat]
    exact (Nat.mod_eq_of_lt (by omega)).symm

theorem chunks255_long {s : List Byte} (h : 255 < s.length) : 2 ≤ (chunks255 s).length := by
  cases s with
  | nil => simp at h
  | cons b r =>
    rw [chunks255_cons]
    cases hd : List.drop 255 (b :: r) with
    | nil =>
      have := congrArg List.length hd
      simp only [List.length_drop, List.length_nil] at this
      omega
    | cons b1 r1 =>
      rw [chunks255_cons]
      simp

/-- C17 (counterexample). A run of 256 unmatched bytes is not one verbatim
block: with the table of the tests, 256 bytes of value 7 start no match and
are encoded as a block of 255 bytes followed by a block of one byte. -/
theorem Encode_256_bytes_split :
    init testTable = .ok testCodec ∧
      (∀ p, p < 256 → NoMatch testTable ((List.replicate 256 (7 : Byte)).drop p)) ∧
      Encode testCodec Buf.nil (List.replicate 256 7) =
        .ok ([255, 255] ++ List.replicate 255 7 ++ [254, 7]) ∧
      ¬ IsOneUnit ([255, 255] ++ List.replicate 255 7 ++ [254, 7]) :=
  ⟨testCodec_init, by decide!, by decide!,
    not_isOneUnit_of_long (List.length_replicate _ _) (List.cons_ne_nil _ _)⟩

/-- C17 (amended). The longest unsplit verbatim run is 255 bytes: on a
non-empty input no position of which starts a match, `Encode` returns one
verbatim block when the input has at most 255 bytes, and several blocks, one
per chunk of 255 bytes, when it has more. -/
theorem Encode_unsplit_run_255 (table : List (List Byte)) (cdc : Codec) (s : List Byte)
    (hinit : init table = .ok cdc) (hno : ∀ p, p < s.length → NoMatch table (s.drop p))
    (hne : s ≠ []) :
    ∃ out, Encode cdc Buf.nil s = .ok out ∧
      (s.length ≤ 255 → out = verbUnit s ∧ IsOneUnit out) ∧
      (255 < s.length → ¬ IsOneUnit out ∧ 2 ≤ (chunks255 s).length ∧
        out = ((chunks255 s).map verbUnit).flatten) := by
  obtain ⟨_, hwf, _⟩ := init_spec hinit
  refine ⟨verbatim s, ?_, ?_, ?_⟩
  · rw [Encode_eq hwf Buf.nil s, lookup_eq_tableMap hinit, greedy_noMatch table s hno]
  · intro hle
    rw [verbatim_short hne hle]
    exact ⟨rfl, isOneUnit_verbUnit hne hle⟩
  · intro hlt
    refine ⟨?_, chunks255_long hlt, rfl⟩
    rw [verbatim_long (by omega)]
    have ht : (s.take 255).length = 255 := by
      rw [List.length_take]; omega
    have hv1 : verbUnit (s.take 255) = [255, 255] ++ s.take 255 := by
      match hm : s.take 255, ht with
      | [], h => simp at h
      | [b], h => simp at h
      | b :: c :: r, h =>
        simp only [verbUnit, h]
        rfl
    rw [hv1]
    apply not_isOneUnit_of_long ht
    intro h0
    have hd : s.drop 255 ≠ [] := by
      intro h1
      have := congrArg List.length h1
      simp only [List.length_drop, List.length_nil] at this
      omega
    have := (verbatim_length (s.drop 255).length (s.drop 255) (le_refl _)).2 hd
    rw [h0] at this
    simp at this

/-- Witness of C17 (amended) on the table of the tests and the input
`google`. -/
theorem Encode_unsplit_run_255_witness :
    init testTable = .ok testCodec ∧
      (∀ p, p < (bytesOf "google").length → NoMatch testTable ((bytesOf "google").drop p)) ∧
      bytesOf "google" ≠ [] ∧
      ∃ out, Encode testCodec Buf.nil (bytesOf "google") = .ok out ∧
        ((bytesOf "google").length ≤ 255 → out = verbUnit (bytesOf "google") ∧ IsOneUnit out) ∧
        (255 < (bytesOf "google").length → ¬ IsOneUnit out ∧
          2 ≤ (chunks255 (bytesOf "google")).length ∧
          out = ((chunks255 (bytesOf "google")).map verbUnit).flatten) :=
  ⟨testCodec_init, by decide, by decide,
    Encode_unsplit_run_255 testTable testCodec (bytesOf "google") testCodec_init (by decide)
      (by decide)⟩

/-- C19. Worst-case expansion bound: for every codec built by `init` and
every input `s`, `Encode` returns an output of at most `2 * len(s)` bytes,
which is empty if and only if `s` is empty; the bound is reached by an input
of one byte that starts no match, which is encoded in two bytes. -/
theorem Encode_expansion_bound (table : List (List Byte)) (cdc : Codec) (s : List Byte)
    (hinit : init table = .ok cdc) :
    ∃ out, Encode cdc Buf.nil s = .ok out ∧ out.length ≤ 2 * s.length ∧
      (out = [] ↔ s = []) ∧
      (∀ b, s = [b] → NoMatch table [b] → out.length = 2 * s.length) := by
  obtain ⟨_, hwf, _⟩ := init_spec hinit
  obtain ⟨h1, h2⟩ := greedy_length (lookup cdc.codeTrie) s.length s [] (le_refl _)
  refine ⟨_, Encode_eq hwf Buf.nil s, by simpa using h1, ?_, ?_⟩
  · constructor
    · intro hout
      by_contra hs
      have := h2 (by simpa using hs)
      rw [hout] at this
      simp at this
    · intro hs
      subst hs
      rw [greedy_nil, verbatim_nil]
  · intro b hb hno
    subst hb
    have hall : ∀ p, p < [b].length → NoMatch table ([b].drop p) := by
      intro p hp
      have : p = 0 := by simpa using hp
      subst this
      exact hno
    rw [lookup_eq_tableMap hinit, greedy_noMatch table [b] hall,
      verbatim_short (by simp) (by simp)]
    rfl

/-- Witness of C19 on the table of the tests and the input `http://google.com`. -/
theorem Encode_expansion_bound_witness :
    init testTable = .ok testCodec ∧
      ∃ out, Encode testCodec Buf.nil (bytesOf "http://google.com") = .ok out ∧
        out.length ≤ 2 * (bytesOf "http://google.com").length ∧
        (out = [] ↔ bytesOf "http://google.com" = []) ∧
        (∀ b, bytesOf "http://google.com" = [b] → NoMatch testTable [b] →
          out.length = 2 * (bytesOf "http://google.com").length) :=
  ⟨testCodec_init,
    Encode_expansion_bound testTable testCodec (bytesOf "http://google.com") testCodec_init⟩

/-- C20. `Decode` distributes over concatenation of streams: with the default
table, if `Decode(nil, a)` returns `x` with no error, then `Decode(nil, a ++ b)`
fails exactly when `Decode(nil, b)` fails, with the same error, and otherwise
returns `x ++ y`, `y` being the output of `Decode(nil, b)`; hence
`Decode(nil, Encode(s) ++ Encode(t))` is `s ++ t`. -/
theorem Decode_concat :
    ∃ cdc, init codeStrings = .ok cdc ∧
      (∀ a b x, Decode cdc Buf.nil a = .ok x →
        (∀ e, Decode cdc Buf.nil (a ++ b) = .error e ↔ Decode cdc Buf.nil b = .error e) ∧
        (∀ y, Decode cdc Buf.nil b = .ok y → Decode cdc Buf.nil (a ++ b) = .ok (x ++ y))) ∧
      (∀ s t, ∃ es et, Encode cdc Buf.nil s = .ok es ∧ Encode cdc Buf.nil t = .ok et ∧
        Decode cdc Buf.nil (es ++ et) = .ok (s ++ t)) := by
  obtain ⟨cdc, hinit⟩ := codeStrings_init
  have hlen : codeStrings.length ≤ 254 := by rw [codeStrings_length]
  have hcat : ∀ a b x, Decode cdc Buf.nil a = .ok x →
      Decode cdc Buf.nil (a ++ b) =
        match Decode cdc Buf.nil b with
        | .ok y => .ok (x ++ y)
        | .error e => .error e := by
    intro a b x hx
    rw [Decode_nil] at hx
    rw [Decode_nil, Decode_nil, dec_append cdc.codes a.length a (le_refl _) x hx [] b]
    have := dec_dst cdc.codes b.length b x [] (le_refl _)
    simpa using this
  refine ⟨cdc, hinit, ?_, ?_⟩
  · intro a b x hx
    have hc := hcat a b x hx
    refine ⟨?_, ?_⟩
    · intro e
      cases hb : Decode cdc Buf.nil b with
      | ok y =>
        rw [hb] at hc
        simp [hc]
      | error e1 =>
        rw [hb] at hc
        simp [hc]
    · intro y hy
      rw [hy] at hc
      exact hc
  · intro s t
    obtain ⟨es, hes, hds⟩ := roundtrip_of_init hlen hinit s
    obtain ⟨et, het, hdt⟩ := roundtrip_of_init hlen hinit t
    refine ⟨es, et, hes, het, ?_⟩
    rw [hcat es et s hds, hdt]

/-- The modelled loop differs from the loop of `Decode` only in the result on
an index out of range. -/
theorem Codec.decodeLoop_eq (codes : List (List Byte)) :
    ∀ (fuel : Nat) (out src : List Byte),
      Codec.decodeLoop codes fuel out src =
        match smaz.decodeLoop codes fuel out src with
        | .error .outOfRange => .error .errCorrupt
        | r => r := by
  intro fuel
  induction fuel with
  | zero =>
    intro out src
    cases src <;> rfl
  | succ fuel ih =>
    intro out src
    cases src with
    | nil => rfl
    | cons b s =>
      rw [decodeLoop_step]
      simp only [Codec.decodeLoop]
      by_cases h254 : b.val = 254
      · simp only [h254, if_true]
        cases s with
        | nil => rfl
        | cons b1 s1 => exact ih _ _
      · simp only [h254, if_false]
        by_cases h255 : b.val = 255
        · simp only [h255, if_true]
          cases s with
          | nil => rfl
          | cons n s1 =>
            by_cases hshort : s1.length < n.val
            · simp only [hshort, if_true]
            · simp only [hshort, if_false]
              exact ih _ _
        · simp only [h255, if_false]
          cases codes[b.val]? with
          | none => rfl
          | some d => exact ih _ _

theorem Codec.Decode_eq (cdc : Codec) (src : List Byte) :
    cdc.Decode src =
      match dec cdc.codes [] src with
      | .error .outOfRange => .error .errCorrupt
      | r => r := by
  simp only [Codec.Decode, dec]
  exact Codec.decodeLoop_eq cdc.codes src.length [] src

theorem NewCodec_ok {table : List (List Byte)} {cdc : Codec} (h : NewCodec table = .ok cdc) :
    table.length ≤ 254 ∧ init table = .ok cdc := by
  unfold NewCodec at h
  by_cases hbig : 254 < table.length
  · simp [hbig] at h
  · simp only [hbig, if_false] at h
    cases hi : init table with
    | error f => simp [hi] at h
    | ok c =>
      simp only [hi, Except.ok.injEq] at h
      subst h
      exact ⟨by omega, rfl⟩

theorem NewCodec_testTable : NewCodec testTable = .ok testCodec := by
  have hlen : ¬ 254 < testTable.length := by decide
  simp only [NewCodec, hlen, if_false, testCodec_init]

set_option maxRecDepth 100000 in
theorem bigTable_length : bigTable.length = 255 := by
  simp [bigTable]

theorem builtCodec_spec (x : Except Fault Codec) (d : Codec) (h : ∃ c, x = .ok c) :
    x = .ok (builtCodec x d) := by
  obtain ⟨c, hc⟩ := h
  subst hc
  rfl

theorem defaultCodec_init : init codeStrings = .ok defaultCodec :=
  builtCodec_spec _ _ codeStrings_init

theorem NewCodec_codeStrings : NewCodec codeStrings = .ok defaultCodec := by
  have hlen : ¬ 254 < codeStrings.length := by rw [codeStrings_length]; decide
  simp only [NewCodec, hlen, if_false, defaultCodec_init]

/-- With a table of 254 entries or more, every opcode below 254 is an index
in range, and the modelled loop is the loop of `Decode`. -/
theorem Codec_decodeLoop_full (codes : List (List Byte)) (h : 254 ≤ codes.length) :
    ∀ (fuel : Nat) (out src : List Byte),
      Codec.decodeLoop codes fuel out src = smaz.decodeLoop codes fuel out src := by
  intro fuel
  induction fuel with
  | zero =>
    intro out src
    cases src <;> rfl
  | succ fuel ih =>
    intro out src
    cases src with
    | nil => rfl
    | cons b s =>
      rw [decodeLoop_step]
      simp only [Codec.decodeLoop]
      by_cases h254 : b.val = 254
      · simp only [h254, if_true]
        cases s with
        | nil => rfl
        | cons b1 s1 => exact ih _ _
      · simp only [h254, if_false]
        by_cases h255 : b.val = 255
        · simp only [h255, if_true]
          cases s with
          | nil => rfl
          | cons n s1 =>
            by_cases hshort : s1.length < n.val
            · simp only [hshort, if_true]
            · simp only [hshort, if_false]
              exact ih _ _
        · simp only [h255, if_false]
          have hlt : b.val < codes.length := by
            have := b.isLt
            omega
          rw [List.getElem?_eq_getElem hlt]
          exact ih _ _

/-- On the codec of the package, whose table has 254 entries, the modelled
`Decode` is the `Decode` of `smaz.go` with a nil buffer. -/
theorem Codec_Decode_default (src : List Byte) :
    defaultCodec.Decode src = smaz.Decode defaultCodec Buf.nil src := by
  have hcodes : defaultCodec.codes = codeStrings := (init_spec defaultCodec_init).1
  rw [Decode_nil]
  simp only [Codec.Decode, dec]
  exact Codec_decodeLoop_full _ (by rw [hcodes, codeStrings_length]) _ _ _

/-- With the built-in table, whose 254 entries cover every opcode below 254,
the `Decode` of `smaz.go` never indexes the table out of range. -/
theorem Decode_default_in_range (dst : Buf) (src : List Byte) :
    smaz.Decode defaultCodec dst src ≠ .error .outOfRange := by
  have hcodes : defaultCodec.codes = codeStrings := (init_spec defaultCodec_init).1
  have hlen : 254 ≤ defaultCodec.codes.length := by rw [hcodes, codeStrings_length]
  intro heq
  simp only [smaz.Decode] at heq
  have h1 := Codec.decodeLoop_eq defaultCodec.codes src.length
    (if dst.cap < src.length then [] else dst.data) src
  rw [Codec_decodeLoop_full _ hlen, heq] at h1
  cases h1

/-- C4. Bounds check of dictionary indices, for the `Decode` of a codec built
by `NewCodec` as the spec describes it: when the stream `a` decodes with no
error, so that the byte after it is at an opcode position, and that byte `V`
is at least the number of entries of the table and at most 253, decoding
`a ++ [V] ++ rest` fails with `ErrCorrupt`. -/
theorem Codec_Decode_checks_index (table : List (List Byte)) (cdc : Codec)
    (a x rest : List Byte) (V : Byte) (hnew : NewCodec table = .ok cdc)
    (hlo : table.length ≤ V.val) (hhi : V.val ≤ 253) (ha : cdc.Decode a = .ok x) :
    cdc.Decode (a ++ V :: rest) = .error .errCorrupt := by
  obtain ⟨_, hinit⟩ := NewCodec_ok hnew
  have hcodes := (init_spec hinit).1
  have hda : dec cdc.codes [] a = .ok x := by
    rw [Codec.Decode_eq] at ha
    cases hd : dec cdc.codes [] a with
    | ok y =>
      rw [hd] at ha
      exact ha
    | error e =>
      rw [hd] at ha
      cases e <;> cases ha
  rw [Codec.Decode_eq, dec_append cdc.codes a.length a (le_refl _) x hda [] (V :: rest),
    dec_code cdc.codes _ V rest (by omega)]
  have hnone : cdc.codes[V.val]? = none := by
    rw [List.getElem?_eq_none_iff, hcodes]
    exact hlo
  rw [hnone]

/-- Witness of C4 on the table `["http://", "is", ".com"]` and the one-byte
input `[3]`. -/
theorem Codec_Decode_checks_index_witness :
    NewCodec testTable = .ok testCodec ∧ testTable.length ≤ (3 : Byte).val ∧
      (3 : Byte).val ≤ 253 ∧ testCodec.Decode [] = .ok [] ∧
      testCodec.Decode [3] = .error .errCorrupt :=
  ⟨NewCodec_testTable, by decide, by decide, rfl,
    Codec_Decode_checks_index testTable testCodec [] [] [] 3 NewCodec_testTable (by decide)
      (by decide) rfl⟩

/-- C15. Oversized tables are rejected at construction, for `NewCodec` as the
spec describes it: on a table of 255 or more entries it fails with the fatal
error for a table too large and returns no codec. -/
theorem NewCodec_rejects_oversized_table (table : List (List Byte))
    (h : 255 ≤ table.length) :
    NewCodec table = .error .tableTooLarge ∧ ¬ ∃ cdc, NewCodec table = .ok cdc := by
  have hbig : 254 < table.length := by omega
  have hr : NewCodec table = .error .tableTooLarge := by
    simp only [NewCodec, hbig, if_true]
  refine ⟨hr, ?_⟩
  rintro ⟨cdc, hc⟩
  rw [hr] at hc
  cases hc

/-- Witness of C15 on the table of the 255 one-byte strings `[0]`, ..., `[254]`. -/
theorem NewCodec_rejects_oversized_table_witness :
    255 ≤ bigTable.length ∧ NewCodec bigTable = .error .tableTooLarge ∧
      ¬ ∃ cdc, NewCodec bigTable = .ok cdc :=
  ⟨by rw [bigTable_length], NewCodec_rejects_oversized_table bigTable (by rw [bigTable_length])⟩

theorem splice_getElem? (a bs : List Byte) (p : Nat) (hp : p + bs.length ≤ a.length) (q : Nat) :
    (a.take p ++ bs ++ a.drop (p + bs.length))[q]? =
      if q < p then a[q]? else if q < p + bs.length then bs[q - p]? else a[q]? := by
  have hlt : (a.take p).length = p := by
    rw [List.length_take]; omega
  rw [List.append_assoc, List.getElem?_append, hlt]
  by_cases h1 : q < p
  · simp only [h1, if_true, List.getElem?_take]
  · simp only [h1, if_false]
    rw [List.getElem?_append]
    by_cases h2 : q < p + bs.length
    · have h3 : q - p < bs.length := by omega
      simp only [h2, h3, if_true]
    · have h3 : ¬ q - p < bs.length := by omega
      simp only [h2, h3, if_false, List.getElem?_drop]
      congr 1
      omega

theorem splice_length (a bs : List Byte) (p : Nat) (hp : p + bs.length ≤ a.length) :
    (a.take p ++ bs ++ a.drop (p + bs.length)).length = a.length := by
  simp only [List.length_append, List.length_take, List.length_drop]
  omega

theorem Mem.bytes_getElem? (m : Mem) (s : Slice) (i : Nat) :
    (m.bytes s)[i]? = if i < s.len then (m.arrays s.arr)[s.off + i]? else none := by
  simp only [Mem.bytes, List.getElem?_take, List.getElem?_drop]

theorem Mem.bytes_length {m : Mem} {s : Slice} (h : s.Readable m) :
    (m.bytes s).length = s.len := by
  simp only [Mem.bytes, List.length_take, List.length_drop]
  have := h.2
  omega

theorem Mem.bytes_congr {m m1 : Mem} {s : Slice}
    (h : ∀ i, i < s.len → (m1.arrays s.arr)[s.off + i]? = (m.arrays s.arr)[s.off + i]?) :
    m1.bytes s = m.bytes s := by
  apply List.ext_getElem?
  intro i
  rw [Mem.bytes_getElem?, Mem.bytes_getElem?]
  by_cases hi : i < s.len
  · simp only [hi, if_true]
    exact h i hi
  · simp only [hi, if_false]

theorem Mem.bytes_shift (m : Mem) (s : Slice) (k c : Nat) :
    m.bytes ⟨s.arr, s.off + k, s.len - k, c⟩ = (m.bytes s).drop k := by
  simp only [Mem.bytes]
  rw [List.drop_take, List.drop_drop]

theorem Mem.bytes_prefix (m : Mem) (s : Slice) (n c : Nat) (h : n ≤ s.len) :
    m.bytes ⟨s.arr, s.off, n, c⟩ = (m.bytes s).take n := by
  simp only [Mem.bytes]
  rw [List.take_take, Nat.min_eq_left h]

theorem Slice.valid_readable {m : Mem} {s : Slice} (h : s.Valid m) : s.Readable m :=
  ⟨h.1, by have := h.2.1; have := h.2.2; omega⟩

theorem Slice.apart_within {dst c s : Slice} (h : dst.Apart c) (hw : s.Within c) :
    dst.Apart s := by
  obtain ⟨ha, ho, hl⟩ := hw
  rcases h with h | h | h
  · exact Or.inl (by rw [ha]; exact h)
  · exact Or.inr (Or.inl (by omega))
  · exact Or.inr (Or.inr (by omega))

theorem Slice.readable_within {m : Mem} {c s : Slice} (h : c.Readable m) (hw : s.Within c) :
    s.Readable m := by
  obtain ⟨ha, ho, hl⟩ := hw
  refine ⟨by rw [ha]; exact h.1, ?_⟩
  rw [ha]
  have := h.2
  omega

theorem Slice.within_trans {s c r : Slice} (h1 : s.Within c) (h2 : c.Within r) : s.Within r :=
  ⟨h1.1.trans h2.1, by have := h1.2.1; have := h2.2.1; omega,
    by have := h1.2.2; have := h2.2.2; omega⟩

theorem Mem.grows_refl {m : Mem} {dst : Slice} (h : dst.Valid m) : Mem.Grows m dst m dst :=
  ⟨h, le_refl _, fun _ _ => rfl, fun _ _ ha => ⟨rfl, ha⟩⟩

theorem Mem.grows_trans {m m1 m2 : Mem} {d d1 d2 : Slice} (h1 : Mem.Grows m d m1 d1)
    (h2 : Mem.Grows m1 d1 m2 d2) : Mem.Grows m d m2 d2 := by
  obtain ⟨_, hs1, hl1, hf1⟩ := h1
  obtain ⟨hv2, hs2, hl2, hf2⟩ := h2
  refine ⟨hv2, le_trans hs1 hs2, ?_, ?_⟩
  · intro a ha
    rw [hl2 a (by omega), hl1 a ha]
  · intro s hs hap
    obtain ⟨hb1, hap1⟩ := hf1 s hs hap
    obtain ⟨hb2, hap2⟩ := hf2 s (by omega) hap1
    exact ⟨by rw [hb2, hb1], hap2⟩

theorem Mem.grows_readable {m m1 : Mem} {d d1 s : Slice} (h : Mem.Grows m d m1 d1)
    (hr : s.Readable m) : s.Readable m1 := by
  obtain ⟨_, hs, hl, _⟩ := h
  refine ⟨by have := hr.1; omega, ?_⟩
  rw [hl s.arr hr.1]
  exact hr.2

/-- What `append` does: the buffer returned holds the bytes of `dst` and then
`bs`, and storing them changes nothing that `dst` is apart from. -/
theorem Mem.append_spec (grow : Nat → Nat → Nat) (hgrow : ∀ c n, n ≤ grow c n) (m : Mem)
    (dst : Slice) (bs : List Byte) (hv : dst.Valid m) :
    (m.append grow dst bs).1.bytes (m.append grow dst bs).2 = m.bytes dst ++ bs ∧
      Mem.Grows m dst (m.append grow dst bs).1 (m.append grow dst bs).2 := by
  obtain ⟨harr, hlen, hcap⟩ := hv
  have hblen : (m.bytes dst).length = dst.len :=
    Mem.bytes_length ⟨harr, by omega⟩
  by_cases hfit : dst.len + bs.length ≤ dst.cap
  · have hp : dst.off + dst.len + bs.length ≤ (m.arrays dst.arr).length := by omega
    simp only [Mem.append, hfit, if_true]
    refine ⟨?_, ⟨?_, le_refl _, ?_, ?_⟩⟩
    · apply List.ext_getElem?
      intro i
      rw [Mem.bytes_getElem?]
      simp only [Function.update_same]
      rw [splice_getElem? _ _ _ hp, List.getElem?_append, hblen, Mem.bytes_getElem?]
      by_cases h1 : i < dst.len
      · have h2 : i < dst.len + bs.length := by omega
        have h3 : dst.off + i < dst.off + dst.len := by omega
        simp only [h1, h2, h3, if_true]
      · have h3 : ¬ dst.off + i < dst.off + dst.len := by omega
        simp only [h1, h3, if_false]
        by_cases h2 : i < dst.len + bs.length
        · have h4 : dst.off + i < dst.off + dst.len + bs.length := by omega
          simp only [h2, h4, if_true]
          congr 1
          omega
        · have h4 : ¬ dst.off + i < dst.off + dst.len + bs.length := by omega
          have h5 : bs[i - dst.len]? = none := List.getElem?_eq_none_iff.mpr (by omega)
          simp only [h2, h4, if_false, h5]
    · refine ⟨harr, hfit, ?_⟩
      simp only [Function.update_same]
      rw [splice_length _ _ _ hp]
      exact hcap
    · intro a _
      by_cases ha : a = dst.arr
      · subst ha
        simp only [Function.update_same]
        exact splice_length _ _ _ hp
      · simp only [Function.update_noteq ha]
    · intro s _ hap
      refine ⟨?_, hap⟩
      by_cases ha : s.arr = dst.arr
      · apply Mem.bytes_congr
        intro i hi
        rw [ha]
        simp only [Function.update_same]
        rw [splice_getElem? _ _ _ hp]
        rcases hap with h | h | h
        · exact absurd ha.symm h
        · have h1 : ¬ s.off + i < dst.off + dst.len := by omega
          have h2 : ¬ s.off + i < dst.off + dst.len + bs.length := by omega
          simp only [h1, h2, if_false]
        · have h1 : s.off + i < dst.off + dst.len := by omega
          simp only [h1, if_true]
      · apply Mem.bytes_congr
        intro i _
        simp only [Function.update_noteq ha]
  · simp only [Mem.append, hfit, if_false]
    have hg := hgrow dst.cap (dst.len + bs.length)
    refine ⟨?_, ⟨?_, by simp, ?_, ?_⟩⟩
    · simp only [Mem.bytes, Function.update_same, List.drop_zero]
      rw [List.take_append_eq_append_take]
      have h1 : (List.take dst.len (List.drop dst.off (m.arrays dst.arr)) ++ bs).length =
          dst.len + bs.length := by
        rw [List.length_append]
        have := hblen
        simp only [Mem.bytes] at this
        rw [this]
      rw [List.take_of_length_le (by omega), h1]
      simp
    · refine ⟨by simp, hg, ?_⟩
      simp only [Function.update_same, List.length_append, List.length_replicate, hblen]
      omega
    · intro a ha
      have hne : a ≠ m.size := by omega
      simp only [Function.update_noteq hne]
    · intro s hs _
      have hne : s.arr ≠ m.size := by omega
      refine ⟨?_, Or.inl (by simp; omega)⟩
      apply Mem.bytes_congr
      intro i _
      simp only [Function.update_noteq hne]

theorem verbatim_unfold {l : List Byte} (h : l ≠ []) :
    verbatim l = verbUnit (l.take 255) ++ verbatim (l.drop 255) := by
  cases l with
  | nil => exact absurd rfl h
  | cons b s => exact verbatim_cons b s

/-- What `next` gives on a slice header that is not empty: the chunk lies
within the slice, and the two parts hold the first 255 bytes and the rest. -/
theorem Slice.next_spec (c : Slice) (hpos : 0 < c.len) :
    (c.next 255).1.Within c ∧ (c.next 255).1.len = min 255 c.len ∧
      (c.next 255).2.len = c.len - 255 ∧
      (∀ m : Mem, c.Readable m →
        m.bytes (c.next 255).1 = (m.bytes c).take 255 ∧
        m.bytes (c.next 255).2 = (m.bytes c).drop 255 ∧ (c.next 255).2.Readable m) ∧
      ∀ d : Slice, d.Apart c → d.Apart (c.next 255).2 := by
  by_cases h : c.len < 255
  · simp only [Slice.next, h, if_true]
    refine ⟨⟨rfl, le_refl _, le_refl _⟩, by omega, by simp [Slice.nil]; omega, ?_, ?_⟩
    · intro m hr
      have hl := Mem.bytes_length hr
      refine ⟨(List.take_of_length_le (by omega)).symm, ?_, ?_⟩
      · rw [List.drop_eq_nil_of_le (by omega)]
        simp [Mem.bytes, Slice.nil]
      · exact ⟨by have := hr.1; simp [Slice.nil]; omega, by simp [Slice.nil]⟩
    · intro d _
      exact Or.inr (Or.inr (by simp [Slice.nil]))
  · have hn : c.next 255 =
        (⟨c.arr, c.off, 255, c.cap⟩, ⟨c.arr, c.off + 255, c.len - 255, c.cap - 255⟩) := by
      simp only [Slice.next, h, if_false]
    rw [hn]
    refine ⟨⟨rfl, le_refl _, ?_⟩, ?_, rfl, ?_, ?_⟩
    · show c.off + 255 ≤ c.off + c.len
      omega
    · show 255 = min 255 c.len
      omega
    · intro m hr
      refine ⟨Mem.bytes_prefix m c 255 _ (by omega), Mem.bytes_shift m c 255 _, ?_⟩
      refine ⟨hr.1, ?_⟩
      have := hr.2
      show c.off + 255 + (c.len - 255) ≤ (m.arrays c.arr).length
      omega
    · intro d hd
      rcases hd with hd | hd | hd
      · exact Or.inl hd
      · refine Or.inr (Or.inl ?_)
        show d.off + d.cap ≤ c.off + 255
        omega
      · refine Or.inr (Or.inr ?_)
        show c.off + 255 + (c.len - 255) ≤ d.off
        omega

/-- The loop of `appendSrc` on memory appends the verbatim form of the bytes
of `c` to a buffer that is apart from `c`, and changes nothing else that
the buffer is apart from. -/
theorem Mem.appendSrcLoop_spec (grow : Nat → Nat → Nat) (hgrow : ∀ c n, n ≤ grow c n) :
    ∀ (fuel : Nat) (m : Mem) (dst c : Slice), dst.Valid m → c.Readable m → dst.Apart c →
      c.len ≤ fuel →
      ∃ m1 d1, Mem.appendSrcLoop grow fuel m dst c = .ok (m1, d1) ∧ Mem.Grows m dst m1 d1 ∧
        m1.bytes d1 = m.bytes dst ++ verbatim (m.bytes c) := by
  intro fuel
  induction fuel with
  | zero =>
    intro m dst c hv hr _ hlen
    have h0 : c.len = 0 := by omega
    refine ⟨m, dst, ?_, Mem.grows_refl hv, ?_⟩
    · rw [Mem.appendSrcLoop]
      simp only [h0, if_true]
    · have : m.bytes c = [] := List.length_eq_zero.mp (by rw [Mem.bytes_length hr]; exact h0)
      rw [this, verbatim_nil, List.append_nil]
  | succ fuel ih =>
    intro m dst c hv hr hap hlen
    by_cases h0 : c.len = 0
    · refine ⟨m, dst, ?_, Mem.grows_refl hv, ?_⟩
      · rw [Mem.appendSrcLoop]
        simp only [h0, if_true]
      · have : m.bytes c = [] := List.length_eq_zero.mp (by rw [Mem.bytes_length hr]; exact h0)
        rw [this, verbatim_nil, List.append_nil]
    · obtain ⟨hw, hcl, hsl, hby, hapn⟩ := Slice.next_spec c (by omega)
      have hne : m.bytes c ≠ [] := by
        intro h
        have := Mem.bytes_length hr
        rw [h] at this
        simp at this
        omega
      have hclen : (m.bytes c).length = c.len := Mem.bytes_length hr
      have htl : ((m.bytes c).take 255).length = (c.next 255).1.len := by
        rw [List.length_take, hclen, hcl]
      rw [Mem.appendSrcLoop]
      simp only [h0, if_false]
      by_cases h1 : (c.next 255).1.len = 1
      · simp only [h1, if_true]
        obtain ⟨hb1, hg1⟩ := Mem.append_spec grow hgrow m dst [254] hv
        have hr1 : c.Readable (m.append grow dst [254]).1 := Mem.grows_readable hg1 hr
        obtain ⟨hc1, hap1⟩ := hg1.2.2.2 c hr.1 hap
        obtain ⟨c0, hc0⟩ : ∃ c0, (m.bytes c).take 255 = [c0] := by
          rw [h1] at htl
          exact List.length_eq_one.mp htl
        have hidx : index ((m.append grow dst [254]).1.bytes (c.next 255).1) 0 = .ok c0 := by
          apply index_eq_ok
          rw [(hby _ hr1).1, hc1, hc0]
          rfl
        simp only [hidx]
        obtain ⟨hb2, hg2⟩ := Mem.append_spec grow hgrow (m.append grow dst [254]).1
          (m.append grow dst [254]).2 [c0] hg1.1
        have hg12 := Mem.grows_trans hg1 hg2
        have hr2 := Mem.grows_readable hg12 hr
        obtain ⟨hc2, hap2⟩ := hg12.2.2.2 c hr.1 hap
        obtain ⟨m3, d3, hrun, hg3, hb3⟩ := ih _ _ (c.next 255).2 hg2.1 (hby _ hr2).2.2
          (hapn _ hap2) (by omega)
        refine ⟨m3, d3, hrun, Mem.grows_trans hg12 hg3, ?_⟩
        rw [hb3, hb2, hb1, (hby _ hr2).2.1, hc2, verbatim_unfold hne, verbUnit_eq, hc0]
        simp
      · simp only [h1, if_false]
        obtain ⟨hb1, hg1⟩ := Mem.append_spec grow hgrow m dst [255] hv
        obtain ⟨hb2, hg2⟩ := Mem.append_spec grow hgrow (m.append grow dst [255]).1
          (m.append grow dst [255]).2 [byteOfInt (c.next 255).1.len] hg1.1
        have hg12 := Mem.grows_trans hg1 hg2
        have hr2 := Mem.grows_readable hg12 hr
        obtain ⟨hc2, hap2⟩ := hg12.2.2.2 c hr.1 hap
        obtain ⟨hb3, hg3⟩ := Mem.append_spec grow hgrow
          ((m.append grow dst [255]).1.append grow (m.append grow dst [255]).2
            [byteOfInt (c.next 255).1.len]).1
          ((m.append grow dst [255]).1.append grow (m.append grow dst [255]).2
            [byteOfInt (c.next 255).1.len]).2
          (((m.append grow dst [255]).1.append grow (m.append grow dst [255]).2
            [byteOfInt (c.next 255).1.len]).1.bytes (c.next 255).1) hg2.1
        have hg123 := Mem.grows_trans hg12 hg3
        have hr3 := Mem.grows_readable hg123 hr
        obtain ⟨hc3, hap3⟩ := hg123.2.2.2 c hr.1 hap
        obtain ⟨m4, d4, hrun, hg4, hb4⟩ := ih _ _ (c.next 255).2 hg3.1 (hby _ hr3).2.2
          (hapn _ hap3) (by omega)
        refine ⟨m4, d4, hrun, Mem.grows_trans hg123 hg4, ?_⟩
        rw [hb4, hb3, hb2, hb1, (hby _ hr3).2.1, hc3, (hby _ hr2).1, hc2, verbatim_unfold hne,
          verbUnit_eq, htl]
        simp only [h1, if_false, List.append_assoc]

theorem Mem.appendSrc_spec (grow : Nat → Nat → Nat) (hgrow : ∀ c n, n ≤ grow c n) (m : Mem)
    (dst c : Slice) (hv : dst.Valid m) (hr : c.Readable m) (hap : dst.Apart c) :
    ∃ m1 d1, Mem.appendSrc grow m dst c = .ok (m1, d1) ∧ Mem.Grows m dst m1 d1 ∧
      m1.bytes d1 = m.bytes dst ++ verbatim (m.bytes c) :=
  Mem.appendSrcLoop_spec grow hgrow c.len m dst c hv hr hap (le_refl _)

/-- One iteration of the loop of `Encode` on memory does what the iteration
on byte sequences does, when the buffer is apart from the input. -/
theorem encodeStep_mem_sim (grow : Nat → Nat → Nat) (hgrow : ∀ c n, n ≤ grow c n)
    {cdc : Codec} (hwf : WF cdc.codeTrie) {R : Slice} {st : MemEncState} (hm : MemInv R st)
    (hinv : EncInv st.abs) (hlt : st.currPos < st.nLeft) :
    ∃ st1, Mem.encodeStep grow cdc st = .ok st1 ∧ MemInv R st1 ∧
      encodeStep cdc st.abs = .ok st1.abs := by
  obtain ⟨hdv, hreg, hsw, hda, hsc, htmp⟩ := hm
  obtain ⟨sv, hsv, -, -, -⟩ := encodeStep_spec hwf hinv hlt
  have hsr : st.src.Readable st.mem := Slice.readable_within hreg hsw
  have hslen : (st.mem.bytes st.src).length = st.src.len := Mem.bytes_length hsr
  have hnl : st.nLeft = st.src.len := by
    have := hinv.nLeft_eq
    simp only [MemEncState.abs] at this
    rw [this, hslen]
  have htb : st.mem.bytes st.tmp = (st.mem.bytes st.src).drop st.currPos := by
    rw [htmp]
    exact Mem.bytes_shift _ _ _ _
  have htl : st.tmp.len = st.src.len - st.currPos := by rw [htmp]
  unfold encodeStep at hsv
  unfold Mem.encodeStep
  unfold encodeStep
  simp only [MemEncState.abs] at hsv ⊢
  cases hml : matchLoop cdc.codeTrie RootNode 0 st.prefixLen st.code (st.mem.bytes st.tmp) with
  | error e =>
    rw [hml] at hsv
    exact absurd hsv (by simp)
  | ok r =>
    obtain ⟨pl, code⟩ := r
    rw [hml] at hsv
    simp only at hsv ⊢
    by_cases hpl : pl = 0
    · simp only [hpl, if_true]
      have h1 : 1 ≤ st.tmp.len := by omega
      have h2 : 1 ≤ (st.mem.bytes st.tmp).length := by
        rw [htb, List.length_drop, hslen]
        omega
      simp only [Slice.sliceFrom, sliceFrom, h1, h2, if_true]
      refine ⟨_, rfl, ⟨hdv, hreg, hsw, hda, hsc, ?_⟩, ?_⟩
      · simp only [htmp, Slice.mk.injEq, true_and]
        omega
      · simp only [Except.ok.injEq, EncState.mk.injEq, true_and, and_true]
        exact (Mem.bytes_shift _ _ _ _).symm
    · simp only [hpl, if_false] at hsv ⊢
      have hcp : st.currPos ≤ st.src.cap := by omega
      have hcl : st.currPos ≤ (st.mem.bytes st.src).length := by omega
      simp only [Slice.sliceTo, sliceTo, hcp, hcl, if_true, appendSrc_eq] at hsv ⊢
      have hvw : Slice.Within ⟨st.src.arr, st.src.off, st.currPos, st.src.cap⟩ st.src :=
        ⟨rfl, le_refl _, by show st.src.off + st.currPos ≤ st.src.off + st.src.len; omega⟩
      obtain ⟨m1, d1, hrun, hg1, hb1⟩ := Mem.appendSrc_spec grow hgrow st.mem st.dst
        ⟨st.src.arr, st.src.off, st.currPos, st.src.cap⟩ hdv (Slice.readable_within hsr hvw)
        (Slice.apart_within hda (Slice.within_trans hvw hsw))
      rw [hrun]
      simp only
      by_cases hk : st.currPos + pl ≤ st.src.len
      · have hk2 : st.currPos + pl ≤ (st.mem.bytes st.src).length := by omega
        simp only [Slice.sliceFrom, sliceFrom, hk, hk2, if_true]
        obtain ⟨hb2, hg2⟩ := Mem.append_spec grow hgrow m1 d1 [byteOfInt code] hg1.1
        have hg12 := Mem.grows_trans hg1 hg2
        have hnw : Slice.Within ⟨st.src.arr, st.src.off + (st.currPos + pl),
            st.src.len - (st.currPos + pl), st.src.cap - (st.currPos + pl)⟩ st.src :=
          ⟨rfl, by show st.src.off ≤ st.src.off + (st.currPos + pl); omega,
            by show st.src.off + (st.currPos + pl) + (st.src.len - (st.currPos + pl)) ≤
                 st.src.off + st.src.len
               omega⟩
        obtain ⟨hbn, -⟩ := hg12.2.2.2 _ (Slice.readable_within hsr hnw).1
          (Slice.apart_within hda (Slice.within_trans hnw hsw))
        obtain ⟨-, hdR⟩ := hg12.2.2.2 R hreg.1 hda
        refine ⟨_, rfl,
          ⟨hg2.1, Mem.grows_readable hg12 hreg, Slice.within_trans hnw hsw, hdR, ?_, ?_⟩, ?_⟩
        · show st.src.len - (st.currPos + pl) ≤ st.src.cap - (st.currPos + pl)
          omega
        · rfl
        · simp only [Except.ok.injEq, EncState.mk.injEq, true_and, and_true]
          have hsrc : (m1.append grow d1 [byteOfInt code]).1.bytes
              ⟨st.src.arr, st.src.off + (st.currPos + pl), st.src.len - (st.currPos + pl),
                st.src.cap - (st.currPos + pl)⟩ =
              (st.mem.bytes st.src).drop (st.currPos + pl) := by
            rw [hbn]
            exact Mem.bytes_shift _ _ _ _
          refine ⟨?_, hsrc.symm, ?_, hsrc.symm⟩
          · rw [hb2, hb1, Mem.bytes_prefix st.mem st.src st.currPos st.src.cap (by omega)]
          · rw [List.length_drop, hslen]
      · have hk2 : ¬ st.currPos + pl ≤ (st.mem.bytes st.src).length := by omega
        simp only [sliceFrom, hk2, if_false] at hsv
        exact absurd hsv (by simp)

/-- The loop of `Encode` on memory ends in a state that stands for the state
in which the loop on byte sequences ends. -/
theorem encodeLoop_mem_sim (grow : Nat → Nat → Nat) (hgrow : ∀ c n, n ≤ grow c n)
    {cdc : Codec} (hwf : WF cdc.codeTrie) {R : Slice} :
    ∀ (fuel : Nat) (st : MemEncState), MemInv R st → EncInv st.abs →
      st.nLeft - st.currPos ≤ fuel →
      ∃ st1, Mem.encodeLoop grow cdc fuel st = .ok st1 ∧ MemInv R st1 ∧
        encodeLoop cdc fuel st.abs = .ok st1.abs := by
  intro fuel
  induction fuel with
  | zero =>
    intro st hm _ hf
    have hn : ¬ st.currPos < st.nLeft := by omega
    have hn2 : ¬ st.abs.currPos < st.abs.nLeft := hn
    refine ⟨st, ?_, hm, ?_⟩
    · rw [Mem.encodeLoop]
      simp only [hn, if_false]
    · rw [encodeLoop]
      simp only [hn2, if_false]
  | succ fuel ih =>
    intro st hm hinv hf
    by_cases hlt : st.currPos < st.nLeft
    · have hlt2 : st.abs.currPos < st.abs.nLeft := hlt
      obtain ⟨st1, hs1, hm1, hv1⟩ := encodeStep_mem_sim grow hgrow hwf hm hinv hlt
      obtain ⟨sv, hsv, hinv1, hdec, -⟩ := encodeStep_spec hwf hinv hlt2
      rw [hv1] at hsv
      cases hsv
      have hdec2 : st1.nLeft - st1.currPos < st.nLeft - st.currPos := hdec
      obtain ⟨st2, hs2, hm2, hv2⟩ := ih st1 hm1 hinv1 (by omega)
      refine ⟨st2, ?_, hm2, ?_⟩
      · rw [Mem.encodeLoop]
        simp only [hlt, if_true, hs1]
        exact hs2
      · rw [encodeLoop]
        simp only [hlt2, if_true, hv1]
        exact hv2
    · have hn2 : ¬ st.abs.currPos < st.abs.nLeft := hlt
      refine ⟨st, ?_, hm, ?_⟩
      · rw [Mem.encodeLoop]
        simp only [hlt, if_false]
      · rw [encodeLoop]
        simp only [hn2, if_false]

/-- With a buffer that is apart from the input, `Encode` on memory returns
the bytes that `Encode` on byte sequences returns. -/
theorem Encode_mem_sim (grow : Nat → Nat → Nat) (hgrow : ∀ c n, n ≤ grow c n)
    {cdc : Codec} (hwf : WF cdc.codeTrie) (m : Mem) (dst src : Slice) (buf : Buf)
    (hd : dst.Valid m) (hs : src.Valid m) (hap : dst.Apart src) :
    ∃ m1 out, Mem.Encode grow cdc m dst src = .ok (m1, out) ∧
      Encode cdc buf (m.bytes src) = .ok (m1.bytes out) := by
  have hsr : src.Readable m := Slice.valid_readable hs
  have hslen : (m.bytes src).length = src.len := Mem.bytes_length hsr
  have hm0 : MemInv src
      { mem := m, dst := ⟨dst.arr, dst.off, 0, dst.cap⟩, src := src, currPos := 0,
        nLeft := src.len, tmp := src, code := 0, prefixLen := 0 } :=
    ⟨⟨hd.1, Nat.zero_le _, hd.2.2⟩, hsr, ⟨rfl, le_refl _, le_refl _⟩, hap, hs.2.1, rfl⟩
  have habs : MemEncState.abs
      { mem := m, dst := ⟨dst.arr, dst.off, 0, dst.cap⟩, src := src, currPos := 0,
        nLeft := src.len, tmp := src, code := 0, prefixLen := 0 } =
      encodeStart [] (m.bytes src) := by
    have hd0 : m.bytes ⟨dst.arr, dst.off, 0, dst.cap⟩ = [] := by simp [Mem.bytes]
    simp only [MemEncState.abs, encodeStart, hslen, hd0]
  obtain ⟨st1, hl1, hm1, hv1⟩ := encodeLoop_mem_sim grow hgrow hwf src.len _ hm0
    (by rw [habs]; exact encodeStart_inv _ _) (by simp)
  rw [habs, ← hslen] at hv1
  obtain ⟨m2, out, hrun, -, hb⟩ := Mem.appendSrc_spec grow hgrow st1.mem st1.dst st1.src
    hm1.dst_valid (Slice.readable_within hm1.region hm1.src_within)
    (Slice.apart_within hm1.dst_apart hm1.src_within)
  refine ⟨m2, out, ?_, ?_⟩
  · simp only [Mem.Encode, Slice.sliceTo, Nat.zero_le, if_true, hl1]
    exact hrun
  · have h0 : sliceTo buf.data 0 = .ok [] := by simp [sliceTo]
    simp only [Encode, h0, hv1, appendSrc_eq, hb]
    rfl

set_option maxRecDepth 100000 in
/-- The one-byte string `[65]` is no entry of the built-in table. -/
theorem codeStrings_no_65 : lastIdxFrom 0 codeStrings [65] = none := by
  decide

/-- On the one byte `65` the inner loop of `Encode` finds no match in the
built-in table. -/
theorem defaultCodec_no_match_65 :
    matchLoop defaultCodec.codeTrie RootNode 0 0 0 [65] = .ok (0, 0) := by
  have hwf : WF defaultCodec.codeTrie := (init_spec defaultCodec_init).2.1
  have h := matchLoop_eq hwf [65] [] RootNode 0 0 rfl
  rw [lookup_eq_tableMap defaultCodec_init] at h
  have hm : tableMap codeStrings [65] = none := by
    unfold tableMap
    rw [codeStrings_no_65]
    rfl
  have hl : longestFrom (tableMap codeStrings) [] [65] = none := by
    simp only [longestFrom, List.nil_append, hm]
  rw [hl] at h
  exact h

/-- With the buffer `src[:0]`, `Encode` on memory stores the opcode 254 over
the byte of `src` before it reads that byte. -/
theorem encodeBytes_aliased (grow : Nat → Nat → Nat) (cdc : Codec)
    (h : matchLoop cdc.codeTrie RootNode 0 0 0 [65] = .ok (0, 0)) :
    Mem.encodeBytes grow cdc demoMem demoDst demoSrc = .ok [254, 254] := by
  have hb : demoMem.bytes demoSrc = [65] := rfl
  simp [Mem.encodeBytes, Mem.Encode, Mem.encodeLoop, Mem.encodeStep, hb, h, Slice.sliceTo,
    Slice.sliceFrom, demoDst, demoSrc, Mem.appendSrc, Mem.appendSrcLoop, Slice.next, Mem.append,
    Mem.bytes, demoMem, index, Slice.nil]

theorem encodeBytes_nil_buffer (grow : Nat → Nat → Nat) (cdc : Codec)
    (h : matchLoop cdc.codeTrie RootNode 0 0 0 [65] = .ok (0, 0)) :
    Mem.encodeBytes grow cdc demoMem Slice.nil demoSrc = .ok [254, 65] := by
  have hb : demoMem.bytes demoSrc = [65] := rfl
  by_cases hc : 2 ≤ grow 0 1 <;>
  simp [Mem.encodeBytes, Mem.Encode, Mem.encodeLoop, Mem.encodeStep, hb, h, Slice.sliceTo,
    Slice.sliceFrom, demoSrc, Mem.appendSrc, Mem.appendSrcLoop, Slice.next, Mem.append,
    Mem.bytes, demoMem, index, Slice.nil, hc]

/-- The nil slice is apart from every slice: it has no storage. -/
theorem Slice.nil_apart (s : Slice) : Slice.nil.Apart s :=
  Or.inr (Or.inl (Nat.zero_le _))

/-- Counterexample to C10 as stated: a buffer that shares its backing array
with `src` changes what `Encode` returns. With the built-in table, `src` the
one byte `[65]` and the buffer `src[:0]`, `Encode` returns `[254, 254]`, while
with the nil buffer it returns `[254, 65]`, whatever capacity the runtime
gives to a new array. -/
theorem Encode_aliased_buffer_differs :
    init codeStrings = .ok defaultCodec ∧ demoMem.bytes demoSrc = [65] ∧
      (∀ grow : Nat → Nat → Nat,
        Mem.encodeBytes grow defaultCodec demoMem demoDst demoSrc = .ok [254, 254]) ∧
      (∀ grow : Nat → Nat → Nat,
        Mem.encodeBytes grow defaultCodec demoMem Slice.nil demoSrc = .ok [254, 65]) ∧
      ∀ grow : Nat → Nat → Nat,
        Mem.encodeBytes grow defaultCodec demoMem demoDst demoSrc ≠
          Mem.encodeBytes grow defaultCodec demoMem Slice.nil demoSrc := by
  refine ⟨defaultCodec_init, rfl, fun grow => encodeBytes_aliased grow _ defaultCodec_no_match_65,
    fun grow => encodeBytes_nil_buffer grow _ defaultCodec_no_match_65, ?_⟩
  intro grow
  rw [encodeBytes_aliased grow _ defaultCodec_no_match_65,
    encodeBytes_nil_buffer grow _ defaultCodec_no_match_65]
  decide

/-- C10, amended. `Encode` does not depend on a reused buffer whose storage
does not overlap `src`: for every codec built by `init`, every memory, every
`src` and every two buffers `dst1`, `dst2` (any contents, lengths and
capacities, nil included) whose storage up to the capacity is apart from the
bytes of `src`, `Encode(dst1, src)` and `Encode(dst2, src)` return the same
bytes, which are the bytes that `Encode` on byte sequences returns for the
bytes of `src`. The capacity that the runtime gives to a new array is any
capacity that holds the bytes appended. -/
theorem Encode_buffer_independent_apart (grow : Nat → Nat → Nat) (table : List (List Byte))
    (cdc : Codec) (m : Mem) (dst1 dst2 src : Slice) (hgrow : ∀ c n, n ≤ grow c n)
    (hinit : init table = .ok cdc) (hs : Slice.Valid m src) (h1 : Slice.Valid m dst1)
    (h2 : Slice.Valid m dst2) (ha1 : dst1.Apart src) (ha2 : dst2.Apart src) :
    ∃ out, Mem.encodeBytes grow cdc m dst1 src = .ok out ∧
      Mem.encodeBytes grow cdc m dst2 src = .ok out ∧
      Encode cdc Buf.nil (m.bytes src) = .ok out := by
  have hwf : WF cdc.codeTrie := (init_spec hinit).2.1
  obtain ⟨m1, o1, hr1, hv1⟩ := Encode_mem_sim grow hgrow hwf m dst1 src Buf.nil h1 hs ha1
  obtain ⟨m2, o2, hr2, hv2⟩ := Encode_mem_sim grow hgrow hwf m dst2 src Buf.nil h2 hs ha2
  refine ⟨m1.bytes o1, ?_, ?_, hv1⟩
  · simp only [Mem.encodeBytes, hr1]
  · rw [hv1] at hv2
    simp only [Mem.encodeBytes, hr2]
    exact hv2.symm

/-- Witness of C10, amended: the built-in table, the memory `demoMem`, `src`
the one byte `[65]` of array 1, the nil buffer and a buffer of two elements
over array 2. -/
theorem Encode_buffer_independent_apart_witness :
    (∀ c n : Nat, n ≤ 2 * c + n) ∧ init codeStrings = .ok defaultCodec ∧
      Slice.Valid demoMem demoSrc ∧ Slice.Valid demoMem Slice.nil ∧
      Slice.Valid demoMem demoBuf ∧ Slice.nil.Apart demoSrc ∧ demoBuf.Apart demoSrc ∧
      ∃ out, Mem.encodeBytes (fun c n => 2 * c + n) defaultCodec demoMem Slice.nil demoSrc =
          .ok out ∧
        Mem.encodeBytes (fun c n => 2 * c + n) defaultCodec demoMem demoBuf demoSrc = .ok out ∧
        Encode defaultCodec Buf.nil (demoMem.bytes demoSrc) = .ok out :=
  ⟨fun c n => Nat.le_add_left n (2 * c), defaultCodec_init, by decide, by decide, by decide,
    by decide, by decide,
    Encode_buffer_independent_apart (fun c n => 2 * c + n) codeStrings defaultCodec demoMem
      Slice.nil demoBuf demoSrc (fun c n => Nat.le_add_left n (2 * c)) defaultCodec_init
      (by decide) (by decide) (by decide) (by decide) (by decide)⟩

end smaz
